import Mathlib

/-!
Shallow embedding of the discrete-event CPU-scheduling simulator
(`Scheduling Algorithms/21CS10021_LA3.c`) and proofs about it.

Conventions of the embedding:
* C `int` / `long` values are modelled as `Int` (the program never relies on
  overflow; all quantities stay tiny).
* The event min-heap array (`Event *heapArray` plus `size`) is modelled as the
  `List Event` of its live prefix; `size` is the list length.
* The circular ready-queue buffer is modelled with a fixed-length `List Int`
  together with the `front`/`rear`/`count` fields exactly as in the C struct.
* The `fprintf(stderr, ...)` overflow branches set a ghost `overflowed` flag.
* Ghost logs (`pushed_log`, `popped_log`, `dispatch_log`, `records`) record the
  observable actions of the engine (events created, events dequeued, dispatch
  decisions, and the per-process completion lines printed by
  `print_per_process_metrics`); they influence nothing.
* `double` arithmetic of the metric printers is modelled exactly over `ℚ`.
-/

set_option linter.unusedVariables false
set_option linter.unnecessarySeqFocus false
set_option maxHeartbeats 1000000

/-- C enum `EventType`: `EVT_ARRIVE = 0`, `EVT_CPU_COMPLETE = 1`,
`EVT_CPU_TIMEOUT = 2`. -/
inductive EventType where
  | EVT_ARRIVE
  | EVT_CPU_COMPLETE
  | EVT_CPU_TIMEOUT
deriving DecidableEq, Repr

/-- Numeric value of the C enum constant, used by `compareEvents`. -/
def EventType.val : EventType → Int
  | .EVT_ARRIVE => 0
  | .EVT_CPU_COMPLETE => 1
  | .EVT_CPU_TIMEOUT => 2

/-- C struct `Event`: a timestamp, an event kind and a process index
(index into the `g_processes` table; `-1` only in the empty-pop sentinel). -/
structure Event where
  time : Int
  type : EventType
  pid : Int
deriving DecidableEq, Repr

/-- Default event used to totalize list indexing (never read on the indices
the program actually uses). -/
def ev0 : Event := ⟨0, EventType.EVT_ARRIVE, 0⟩

/-- `INT_MAX` of the target platform (32-bit C `int`), used by the
empty-heap sentinel of `eventHeap_pop`. -/
def INT_MAX : Int := 2147483647

/-- C function `compareEvents`: lexicographic comparison by time, then event
type, then the external id of the referenced process.  The external-id map
`ids` stands for `g_processes[pid].id`. -/
def compareEvents (ids : Int → Int) (a b : Event) : Int :=
  if a.time < b.time then -1
  else if a.time > b.time then 1
  else if a.type.val < b.type.val then -1
  else if a.type.val > b.type.val then 1
  else if ids a.pid < ids b.pid then -1
  else if ids a.pid > ids b.pid then 1
  else 0

/-- The strict total order of the specification, spelled exactly as the spec
does: primary key `time` ascending, tie-break by kind with
ARRIVAL < CPU_COMPLETE < CPU_TIMEOUT, final tie-break by external id. -/
def specEventLE (ids : Int → Int) (a b : Event) : Prop :=
  a.time < b.time ∨
    (a.time = b.time ∧
      (a.type.val < b.type.val ∨
        (a.type.val = b.type.val ∧ ids a.pid ≤ ids b.pid)))

instance (ids : Int → Int) (a b : Event) : Decidable (specEventLE ids a b) := by
  unfold specEventLE; infer_instance

/-- C struct `EventMinHeap`; `heapArray`/`size` are fused into one list and
the overflow `fprintf` branch is recorded in a ghost flag. -/
structure EventMinHeap where
  heapArray : List Event
  capacity : Nat
  overflowed : Bool
deriving DecidableEq, Repr

/-- `heapArray[i]` (totalized array read). -/
def getE (l : List Event) (i : Nat) : Event := l.getD i ev0

/-- C helper `swapEvents` applied to two indices of the array. -/
def swapE (l : List Event) (i j : Nat) : List Event :=
  (l.set i (getE l j)).set j (getE l i)

/-- The loop of C static function `bubbleUp`, structurally fuelled (the
cursor strictly decreases, so `idx + 1` units of fuel always suffice). -/
def bubbleUpGo (ids : Int → Int) : Nat → List Event → Nat → List Event
  | 0, l, _ => l
  | fuel + 1, l, idx =>
    if 0 < idx then
      if compareEvents ids (getE l idx) (getE l ((idx - 1) / 2)) < 0 then
        bubbleUpGo ids fuel (swapE l idx ((idx - 1) / 2)) ((idx - 1) / 2)
      else l
    else l

/-- C static function `bubbleUp`. -/
def bubbleUp (ids : Int → Int) (l : List Event) (idx : Nat) : List Event :=
  bubbleUpGo ids (idx + 1) l idx

/-- First selection step of `bubbleDown`: C variable `smallest` after the
left-child comparison. -/
def bdT1 (ids : Int → Int) (l : List Event) (idx : Nat) : Nat :=
  if 2 * idx + 1 < l.length ∧
      compareEvents ids (getE l (2 * idx + 1)) (getE l idx) < 0
    then 2 * idx + 1 else idx

/-- C variable `smallest` of `bubbleDown` after both child comparisons. -/
def bdTarget (ids : Int → Int) (l : List Event) (idx : Nat) : Nat :=
  if 2 * idx + 2 < l.length ∧
      compareEvents ids (getE l (2 * idx + 2)) (getE l (bdT1 ids l idx)) < 0
    then 2 * idx + 2 else bdT1 ids l idx

/-- The loop of C static function `bubbleDown`, structurally fuelled (the
cursor strictly increases and stays below the array size, so `size` units of
fuel always suffice).  When `smallest ≠ idx` the C code always has
`smallest < size`; the bound is carried in the guard explicitly. -/
def bubbleDownGo (ids : Int → Int) : Nat → List Event → Nat → List Event
  | 0, l, _ => l
  | fuel + 1, l, idx =>
    if bdTarget ids l idx ≠ idx ∧ bdTarget ids l idx < l.length then
      bubbleDownGo ids fuel (swapE l idx (bdTarget ids l idx))
        (bdTarget ids l idx)
    else l

/-- C static function `bubbleDown`. -/
def bubbleDown (ids : Int → Int) (l : List Event) (idx : Nat) : List Event :=
  bubbleDownGo ids (l.length - idx) l idx

/-- C function `eventHeap_push`. -/
def eventHeap_push (ids : Int → Int) (mh : EventMinHeap) (ev : Event) :
    EventMinHeap :=
  if mh.heapArray.length ≥ mh.capacity then { mh with overflowed := true }
  else { mh with
    heapArray := bubbleUp ids (mh.heapArray ++ [ev]) mh.heapArray.length }

/-- C function `eventHeap_pop`; returns the popped event together with the
updated heap.  On an empty heap it returns the sentinel
`{INT_MAX, EVT_ARRIVE, -1}` and leaves the heap unchanged. -/
def eventHeap_pop (ids : Int → Int) (mh : EventMinHeap) :
    Event × EventMinHeap :=
  if mh.heapArray.length = 0 then (⟨INT_MAX, EventType.EVT_ARRIVE, -1⟩, mh)
  else
    let top := getE mh.heapArray 0
    let n := mh.heapArray.length - 1
    let arr :=
      if 0 < n then
        bubbleDown ids ((mh.heapArray.set 0 (getE mh.heapArray n)).take n) 0
      else []
    (top, { mh with heapArray := arr })

/-- C function `eventHeap_empty`. -/
def eventHeap_empty (mh : EventMinHeap) : Bool := mh.heapArray.length = 0

/-- The binary min-heap shape invariant on the live array: every non-root
entry is `≥` its parent under `compareEvents`. -/
def heapOrdered (ids : Int → Int) (l : List Event) : Prop :=
  ∀ i : Nat, 0 < i → i < l.length →
    compareEvents ids (getE l ((i - 1) / 2)) (getE l i) ≤ 0

/-- C struct `ReadyQueue` (circular FIFO buffer); the overflow `fprintf`
branch is recorded in a ghost flag.  `data` has fixed length `capacity`
(its initial, never-read contents are modelled as zeros). -/
structure ReadyQueue where
  data : List Int
  capacity : Nat
  front : Nat
  rear : Int
  count : Nat
  overflowed : Bool
deriving DecidableEq, Repr

/-- C function `RQ_init`. -/
def RQ_init (capacity : Nat) : ReadyQueue :=
  ⟨List.replicate capacity 0, capacity, 0, -1, 0, false⟩

/-- C function `RQ_isEmpty`. -/
def RQ_isEmpty (q : ReadyQueue) : Bool := q.count = 0

/-- The queue part of C function `RQ_enqueue` (the stamping of
`last_ready_time` on the process happens at the engine level, and only on the
non-overflow path, exactly as in the C code). -/
def RQ_enqueue (q : ReadyQueue) (pid : Int) : ReadyQueue :=
  if q.count = q.capacity then { q with overflowed := true }
  else
    { q with
      rear := (q.rear + 1) % (q.capacity : Int)
      data := q.data.set ((q.rear + 1) % (q.capacity : Int)).toNat pid
      count := q.count + 1 }

/-- C function `RQ_dequeue`; returns `-1` on an empty queue. -/
def RQ_dequeue (q : ReadyQueue) : Int × ReadyQueue :=
  if q.count = 0 then (-1, q)
  else (q.data.getD q.front 0,
    { q with front := (q.front + 1) % q.capacity, count := q.count - 1 })

/-- The logical FIFO contents of the circular buffer, head first. -/
def RQtoList (q : ReadyQueue) : List Int :=
  (List.range q.count).map (fun k => q.data.getD ((q.front + k) % q.capacity) 0)

/-- Structural well-formedness of the circular buffer, as maintained by
`RQ_init`/`RQ_enqueue`/`RQ_dequeue`: the next write slot is
`front + count (mod capacity)`. -/
def RQwf (q : ReadyQueue) : Prop :=
  0 < q.capacity ∧ q.count ≤ q.capacity ∧ q.front < q.capacity ∧
    q.data.length = q.capacity ∧ 0 ≤ q.rear + 1 ∧
    ((q.rear + 1) % (q.capacity : Int)).toNat = (q.front + q.count) % q.capacity

/-- C struct PCB (process control block).  Static fields come first; the
ghost field `done` records that the process reached the FINISHED state
(the C code tracks this only through `finished_count` and the stale-free use
of events). -/
structure PCB where
  id : Int
  arrival_time : Int
  num_bursts : Nat
  cpu_bursts : List Int
  io_bursts : List Int
  total_cpu_io : Int
  current_burst : Nat
  remaining_cpu : Int
  wait_time : Int
  finish_time : Int
  last_ready_time : Int
  start_run_time : Int
  done : Bool
deriving DecidableEq, Repr

/-- Zero PCB (calloc image), also the default for totalized table reads. -/
def pcb0 : PCB := ⟨0, 0, 0, [], [], 0, 0, 0, 0, 0, 0, 0, false⟩

/-- `g_processes[p]` (totalized table read). -/
def getP (ps : List PCB) (p : Int) : PCB := ps.getD p.toNat pcb0

/-- Writing back `g_processes[p]`. -/
def setP (ps : List PCB) (p : Int) (pcb : PCB) : List PCB :=
  ps.set p.toNat pcb

/-- The external-id map `fun p => g_processes[p].id` used by
`compareEvents`. -/
def idsOf (ps : List PCB) : Int → Int := fun p => (getP ps p).id

/-- The burst-reading loop of `read_input_file` for one process: consumes an
alternating CPU/IO token stream and returns the recorded CPU-burst and
IO-burst lists (a `-1` token ends the process). -/
def read_bursts : List Int → List Int × List Int
  | [] => ([], [])
  | cpu :: rest =>
    if cpu = -1 then ([], [])
    else
      match rest with
      | [] => ([cpu], [])
      | io_tok :: rest2 =>
        if io_tok = -1 then ([cpu], [])
        else
          ((cpu :: (read_bursts rest2).1), (io_tok :: (read_bursts rest2).2))

/-- One entry of `g_processes` as initialized by `read_input_file`:
`num_bursts` is the CPU-burst count, `total_cpu_io` sums every recorded CPU
and IO burst, and `remaining_cpu` is `cpu_bursts[0]` (0 via calloc when the
process has no bursts). -/
def mkPCB (pid arrival : Int) (toks : List Int) : PCB :=
  let cpu := (read_bursts toks).1
  let io := (read_bursts toks).2
  { id := pid
    arrival_time := arrival
    num_bursts := cpu.length
    cpu_bursts := cpu
    io_bursts := io
    total_cpu_io := cpu.sum + io.sum
    current_burst := 0
    remaining_cpu := cpu.getD 0 0
    wait_time := 0
    finish_time := 0
    last_ready_time := 0
    start_run_time := 0
    done := false }

/-- One line printed by `print_per_process_metrics`, with the ghost process
index `pidIdx` recorded alongside.  `pid` is the external id, `finish` the
printing time, `tat = finish_time − arrival_time` and
`wtime = tat − total_cpu_io` exactly as printed (the percentage column is
`100 * tat / total_cpu_io` over ℚ and is determined by these fields). -/
structure CompletionRecord where
  pidIdx : Int
  pid : Int
  finish : Int
  tat : Int
  wtime : Int
deriving DecidableEq, Repr

/-- The record printed for process `p` at time `ct` (its `finish_time` has
just been set to `ct`). -/
def mkRecord (ct p_idx : Int) (p : PCB) : CompletionRecord :=
  { pidIdx := p_idx
    pid := p.id
    finish := ct
    tat := p.finish_time - p.arrival_time
    wtime := (p.finish_time - p.arrival_time) - p.total_cpu_io }

/-- One dispatch decision of `schedule_next` (ghost log entry): which
process, when it started, when its slice ends, and the wait-time delta
`current_time − last_ready_time` added at this dispatch. -/
structure DispatchEntry where
  pid : Int
  start : Int
  stop : Int
  delta : Int
deriving DecidableEq, Repr

/-- The whole mutable state of one `run_scheduler` invocation, plus ghost
logs. -/
structure SimState where
  procs : List PCB
  eventQ : EventMinHeap
  readyQ : ReadyQueue
  current_time : Int
  cpu_idle_time : Int
  cpu_busy_until : Int
  running_pid : Int
  running_end_time : Int
  finished_count : Nat
  records : List CompletionRecord
  pushed_log : List Event
  popped_log : List Event
  dispatch_log : List DispatchEntry
deriving DecidableEq, Repr

/-- `eventHeap_push` at the engine level, with the ghost log of every event
the engine creates. -/
def pushEvent (st : SimState) (e : Event) : SimState :=
  { st with
    eventQ := eventHeap_push (idsOf st.procs) st.eventQ e
    pushed_log := st.pushed_log ++ [e] }

/-- `RQ_enqueue(&readyQ, pid, current_time)` at the engine level: on the
non-overflow path the C code also stamps
`g_processes[pid].last_ready_time = current_time`. -/
def enqueueProc (st : SimState) (pid : Int) : SimState :=
  if st.readyQ.count = st.readyQ.capacity then
    { st with readyQ := { st.readyQ with overflowed := true } }
  else
    { st with
      readyQ := RQ_enqueue st.readyQ pid
      procs := setP st.procs pid
        { getP st.procs pid with last_ready_time := st.current_time } }

/-- C function `schedule_next`. -/
def schedule_next (q : Int) (st : SimState) : SimState :=
  if 0 ≤ st.running_pid then st
  else if st.readyQ.count ≠ 0 then
    let pid := (RQ_dequeue st.readyQ).1
    let rq1 := (RQ_dequeue st.readyQ).2
    let p := getP st.procs pid
    let delta := st.current_time - p.last_ready_time
    let p1 := { p with wait_time := p.wait_time + delta,
                       start_run_time := st.current_time }
    let idle1 := if st.current_time > st.cpu_busy_until
      then st.cpu_idle_time + (st.current_time - st.cpu_busy_until)
      else st.cpu_idle_time
    let slice := if p.remaining_cpu > q then q else p.remaining_cpu
    let stop := st.current_time + slice
    let ety := if slice = p.remaining_cpu then EventType.EVT_CPU_COMPLETE
      else EventType.EVT_CPU_TIMEOUT
    pushEvent
      { st with
        procs := setP st.procs pid p1
        readyQ := rq1
        cpu_idle_time := idle1
        running_pid := pid
        running_end_time := stop
        cpu_busy_until := stop
        dispatch_log := st.dispatch_log ++ [⟨pid, st.current_time, stop, delta⟩] }
      ⟨stop, ety, pid⟩
  else st

/-- The shared burst-accounting prefix of the `EVT_CPU_COMPLETE` and
`EVT_CPU_TIMEOUT` handlers: compute the clamped elapsed run time, subtract it
from `remaining_cpu` (clamped at 0), pull `cpu_busy_until` back to
`current_time`, and free the CPU. -/
def burstAccounting (st : SimState) (pid : Int) : SimState :=
  let p := getP st.procs pid
  let used0 := st.current_time - p.start_run_time
  let used := if used0 < 0 then 0 else used0
  let rem0 := p.remaining_cpu - used
  let rem := if rem0 < 0 then 0 else rem0
  let busy := if st.current_time < st.cpu_busy_until then st.current_time
    else st.cpu_busy_until
  { st with
    procs := setP st.procs pid { p with remaining_cpu := rem }
    cpu_busy_until := busy
    running_pid := -1 }

/-- The shared completion tail of both CPU-event handlers: either the last
CPU burst is over (FINISH: stamp `finish_time`, bump `finished_count`, print
the per-process record) or an `EVT_ARRIVE` return-from-IO event is pushed and
the next CPU burst is loaded. -/
def finishOrIo (st : SimState) (pid : Int) : SimState :=
  let p := getP st.procs pid
  let cb := p.current_burst + 1
  if cb ≥ p.num_bursts then
    let p1 := { p with finish_time := st.current_time, done := true }
    { st with
      procs := setP st.procs pid p1
      finished_count := st.finished_count + 1
      records := st.records ++ [mkRecord st.current_time pid p1] }
  else
    let wakeup := st.current_time + p.io_bursts.getD (cb - 1) 0
    let st1 := pushEvent st ⟨wakeup, EventType.EVT_ARRIVE, pid⟩
    { st1 with
      procs := setP st1.procs pid
        { p with current_burst := cb,
                 remaining_cpu := p.cpu_bursts.getD cb 0 } }

/-- The `EVT_ARRIVE` case of the main loop. -/
def handleArrive (q : Int) (st : SimState) (pid : Int) : SimState :=
  let st1 := enqueueProc st pid
  if st1.running_pid < 0 then schedule_next q st1 else st1

/-- The `EVT_CPU_COMPLETE` case of the main loop. -/
def handleComplete (q : Int) (st : SimState) (pid : Int) : SimState :=
  schedule_next q (finishOrIo (burstAccounting st pid) pid)

/-- The `EVT_CPU_TIMEOUT` case of the main loop. -/
def handleTimeout (q : Int) (st : SimState) (pid : Int) : SimState :=
  let st1 := burstAccounting st pid
  let st2 :=
    if (getP st1.procs pid).remaining_cpu > 0 then enqueueProc st1 pid
    else finishOrIo st1 pid
  schedule_next q st2

/-- The pop prefix of a loop iteration: remove the earliest event, advance
the clock to its timestamp, and log it. -/
def popState (st : SimState) : SimState :=
  { st with
    eventQ := (eventHeap_pop (idsOf st.procs) st.eventQ).2
    current_time := (eventHeap_pop (idsOf st.procs) st.eventQ).1.time
    popped_log := st.popped_log ++ [(eventHeap_pop (idsOf st.procs) st.eventQ).1] }

/-- One iteration of the main simulation loop: pop the earliest event,
advance the clock to its timestamp, and run its handler. -/
def simStep (q : Int) (st : SimState) : SimState :=
  match (eventHeap_pop (idsOf st.procs) st.eventQ).1.type with
  | EventType.EVT_ARRIVE =>
    handleArrive q (popState st) (eventHeap_pop (idsOf st.procs) st.eventQ).1.pid
  | EventType.EVT_CPU_COMPLETE =>
    handleComplete q (popState st) (eventHeap_pop (idsOf st.procs) st.eventQ).1.pid
  | EventType.EVT_CPU_TIMEOUT =>
    handleTimeout q (popState st) (eventHeap_pop (idsOf st.procs) st.eventQ).1.pid

/-- The guard of the main loop:
`finished_count < g_numProcs && !eventHeap_empty(&eventQ)`. -/
def simGuard (st : SimState) : Bool :=
  decide (st.finished_count < st.procs.length) && !eventHeap_empty st.eventQ

/-- The main loop, fuel-indexed: `simLoop q k st` runs at most `k`
iterations and stops early once the guard fails.  Every loop-top state of the
C `while` loop is `simLoop q k init` for some `k`, and the fuel saturates
after termination. -/
def simLoop (q : Int) : Nat → SimState → SimState
  | 0, st => st
  | k + 1, st => if simGuard st then simLoop q k (simStep q st) else st

/-- The initial arrival events, pushed in table order by `run_scheduler`. -/
def initEvents (ps : List PCB) : List Event :=
  (List.range ps.length).map
    (fun i => ⟨(ps.getD i pcb0).arrival_time, EventType.EVT_ARRIVE, (i : Int)⟩)

/-- The state of `run_scheduler` just before its main loop: fresh process
table, event heap of capacity `4 * n`, ready queue of capacity `n + 10`,
clock at 0, CPU free, and the initial arrival events pushed. -/
def initState (ps : List PCB) : SimState :=
  List.foldl pushEvent
    { procs := ps
      eventQ := ⟨[], 4 * ps.length, false⟩
      readyQ := RQ_init (ps.length + 10)
      current_time := 0
      cpu_idle_time := 0
      cpu_busy_until := 0
      running_pid := -1
      running_end_time := 0
      finished_count := 0
      records := []
      pushed_log := []
      popped_log := []
      dispatch_log := [] }
    (initEvents ps)

/-- `simulation_end` as computed after the loop: the maximum `finish_time`
(starting from 0). -/
def simulation_end (st : SimState) : Int :=
  st.procs.foldl (fun m p => if p.finish_time > m then p.finish_time else m) 0

/-- `total_wait` as computed after the loop: the sum of the `wait_time`
fields. -/
def total_wait (st : SimState) : Int :=
  st.procs.foldl (fun s p => s + p.wait_time) 0

/-- The aggregate record printed by `print_aggregate_metrics`, with the
`double` arithmetic carried out exactly over ℚ. -/
structure AggregateRecord where
  avg_wait : ℚ
  makespan : Int
  idle : Int
  utilization : ℚ
deriving DecidableEq, Repr

/-- `print_aggregate_metrics` on the final state of a run. -/
def aggregateOf (st : SimState) : AggregateRecord :=
  let n := st.procs.length
  let e := simulation_end st
  { avg_wait := if 0 < n then (total_wait st : ℚ) / (n : ℚ) else 0
    makespan := e
    idle := st.cpu_idle_time
    utilization := if e > 0
      then 100 * ((e - st.cpu_idle_time : Int) : ℚ) / (e : ℚ)
      else 0 }

/-- The sum of the dispatch-time wait deltas logged for process index
`pid`. -/
def sumDeltas (log : List DispatchEntry) (pid : Int) : Int :=
  (log.filter (fun d => d.pid = pid)).foldl (fun s d => s + d.delta) 0

/-- The sum of all dispatch-time wait deltas of a run. -/
def sumAllDeltas (log : List DispatchEntry) : Int :=
  log.foldl (fun s d => s + d.delta) 0

/-- Heap-shape invariant carried by `bubbleUp` at cursor `j`: every parent
edge holds except possibly the one into `j`, and every child of `j` already
dominates the parent of `j`. -/
def upOK (ids : Int → Int) (l : List Event) (j : Nat) : Prop :=
  (∀ i : Nat, 0 < i → i < l.length → i ≠ j →
      compareEvents ids (getE l ((i - 1) / 2)) (getE l i) ≤ 0) ∧
  (∀ c : Nat, 0 < c → c < l.length → (c - 1) / 2 = j →
      compareEvents ids (getE l ((j - 1) / 2)) (getE l c) ≤ 0)

/-- Heap-shape invariant carried by `bubbleDown` at cursor `j`: every parent
edge holds except possibly the two edges out of `j`, and (when `j` is not the
root) the children of `j` dominate the parent of `j`. -/
def downOK (ids : Int → Int) (l : List Event) (j : Nat) : Prop :=
  (∀ i : Nat, 0 < i → i < l.length → (i - 1) / 2 ≠ j →
      compareEvents ids (getE l ((i - 1) / 2)) (getE l i) ≤ 0) ∧
  (∀ c : Nat, 0 < c → c < l.length → (c - 1) / 2 = j → 0 < j →
      compareEvents ids (getE l ((j - 1) / 2)) (getE l c) ≤ 0)

/-- An abstract client operation on the event priority queue (for stating
queue correctness over arbitrary usage sequences). -/
inductive HeapOp where
  | push (e : Event)
  | pop
deriving DecidableEq, Repr

/-- Apply one client operation to the heap. -/
def applyHeapOp (ids : Int → Int) (mh : EventMinHeap) : HeapOp → EventMinHeap
  | HeapOp.push e => eventHeap_push ids mh e
  | HeapOp.pop => (eventHeap_pop ids mh).2

/-- Run a sequence of client operations from a fresh empty heap of the given
capacity. -/
def runHeapOps (ids : Int → Int) (cap : Nat) (ops : List HeapOp) :
    EventMinHeap :=
  ops.foldl (applyHeapOp ids) ⟨[], cap, false⟩

/-- Default completion record (totalizing list reads in statements). -/
def rec0 : CompletionRecord := ⟨-1, 0, 0, 0, 0⟩

/-- The two-process input of the spec scenario: P1 with id 1, arrival 0 and
one CPU burst of 10; P2 with id 2, arrival 1 and one CPU burst of 4 (token
streams as `read_input_file` would consume them). -/
def psC6 : List PCB := [mkPCB 1 0 [10, -1], mkPCB 2 1 [4, -1]]

/-- The idle-time scenario input: a single process arriving at time 5 with
one CPU burst of 2 and no IO. -/
def psC7 : List PCB := [mkPCB 1 5 [2, -1]]

/-- A single-process input whose burst stream carries a trailing IO burst
(`5 100 -1`): the reader records CPU 5 and IO 100 (so `total_cpu_io = 105`),
but the engine finishes the process after its only CPU burst. -/
def psCX : List PCB := [mkPCB 1 0 [5, 100, -1]]

/-- A small concrete dispatcher state: one process, CPU free, one ready
entry, clock at 3. -/
def stC1 : SimState :=
  { procs := [mkPCB 7 0 [5, -1]]
    eventQ := ⟨[], 4, false⟩
    readyQ := RQ_enqueue (RQ_init 11) 0
    current_time := 3
    cpu_idle_time := 0
    cpu_busy_until := 0
    running_pid := -1
    running_end_time := 0
    finished_count := 0
    records := []
    pushed_log := []
    popped_log := []
    dispatch_log := [] }

/-- All CPU-burst state of every process is bounded by the quantum `q`
(the hypothesis of the FCFS-degeneracy property). -/
def QBound (q : Int) (ps : List PCB) : Prop :=
  ∀ p ∈ ps, p.remaining_cpu ≤ q ∧ ∀ b ∈ p.cpu_bursts, b ≤ q

/-- No CPU_TIMEOUT event occurs in the given (generated-events) log. -/
def noTimeout (log : List Event) : Prop :=
  ∀ e ∈ log, e.type ≠ EventType.EVT_CPU_TIMEOUT

/-- Invariant for the FCFS-degeneracy claim: burst state stays bounded by
the quantum and no CPU_TIMEOUT was ever generated. -/
def InvC3 (q : Int) (st : SimState) : Prop :=
  QBound q st.procs ∧ noTimeout st.pushed_log

/-- Non-negativity of all burst state (input durations are non-negative and
the engine keeps `remaining_cpu` non-negative). -/
def NonNegState (ps : List PCB) : Prop :=
  ∀ p ∈ ps, 0 ≤ p.remaining_cpu ∧ (∀ b ∈ p.cpu_bursts, 0 ≤ b) ∧
    (∀ b ∈ p.io_bursts, 0 ≤ b)

/-- The clock/heap invariant behind clock monotonicity: burst state is
non-negative, the event heap is shape-correct, every pending event is at or
after the current time, the clock is non-negative, and the dequeued-event
times so far form a non-decreasing, non-negative sequence bounded by the
clock. -/
def TimeInv (st : SimState) : Prop :=
  NonNegState st.procs ∧
  heapOrdered (idsOf st.procs) st.eventQ.heapArray ∧
  (∀ e ∈ st.eventQ.heapArray, st.current_time ≤ e.time) ∧
  0 ≤ st.current_time ∧
  List.Chain' (· ≤ ·) (st.popped_log.map Event.time) ∧
  (∀ e ∈ st.popped_log, e.time ≤ st.current_time ∧ 0 ≤ e.time)

/-- Number of pending events in the heap that reference process index
`i`. -/
def tokH (st : SimState) (i : Nat) : Nat :=
  st.eventQ.heapArray.countP (fun e => e.pid == (i : Int))

/-- Number of ready-queue entries that reference process index `i`. -/
def tokR (st : SimState) (i : Nat) : Nat :=
  (RQtoList st.readyQ).count ((i : Nat) : Int)

/-- CPU plus IO time already served to a process, reconstructed from its
burst cursor and `remaining_cpu`. -/
def servedOf (p : PCB) : Int :=
  (p.cpu_bursts.take p.current_burst).sum +
    (p.cpu_bursts.getD p.current_burst 0 - p.remaining_cpu) +
    (p.io_bursts.take p.current_burst).sum

/-- Total service a process receives over its whole life: all CPU bursts
plus the first `num_bursts − 1` IO bursts (a trailing IO burst recorded by
the reader is never served). -/
def servedTotal (p : PCB) : Int :=
  p.cpu_bursts.sum + (p.io_bursts.take (p.num_bursts - 1)).sum

/-- Number of processes that reached FINISHED. -/
def countDone (ps : List PCB) : Nat := ps.countP (fun p => p.done)

/-- Static (never mutated) well-formedness of one process entry, as
established by `read_input_file`. -/
def StaticWF (p : PCB) : Prop :=
  p.num_bursts = p.cpu_bursts.length ∧
  (∀ b ∈ p.cpu_bursts, 0 ≤ b) ∧
  (∀ b ∈ p.io_bursts, 0 ≤ b) ∧
  0 ≤ p.arrival_time ∧
  p.num_bursts - 1 ≤ p.io_bursts.length ∧
  p.total_cpu_io = p.cpu_bursts.sum + p.io_bursts.sum

/-- Dynamic bounds common to every process at a loop-top state, plus the
wait-time/dispatch-delta ledger. -/
def procCommon (st : SimState) (i : Nat) : Prop :=
  StaticWF (getP st.procs (i : Int)) ∧
  0 ≤ (getP st.procs (i : Int)).remaining_cpu ∧
  (getP st.procs (i : Int)).remaining_cpu ≤
    (getP st.procs (i : Int)).cpu_bursts.getD
      (getP st.procs (i : Int)).current_burst 0 ∧
  ((getP st.procs (i : Int)).current_burst <
      (getP st.procs (i : Int)).num_bursts ∨
    ((getP st.procs (i : Int)).num_bursts = 0 ∧
      (getP st.procs (i : Int)).current_burst = 0)) ∧
  0 ≤ (getP st.procs (i : Int)).wait_time ∧
  (getP st.procs (i : Int)).wait_time = sumDeltas st.dispatch_log (i : Int)

/-- The FINISHED status of process `i`: no pending event, no ready-queue
entry, not running, and the lifetime ledger
`finish = arrival + wait + total service`. -/
def stDone (st : SimState) (i : Nat) : Prop :=
  (getP st.procs (i : Int)).done = true ∧ tokH st i = 0 ∧ tokR st i = 0 ∧
    st.running_pid ≠ (i : Int) ∧
    (getP st.procs (i : Int)).finish_time =
      (getP st.procs (i : Int)).arrival_time +
        (getP st.procs (i : Int)).wait_time +
        servedTotal (getP st.procs (i : Int))

/-- The waiting-for-ARRIVAL status (initial arrival or in IO): exactly one
pending event, an ARRIVAL one, timed by the lifetime ledger. -/
def stArrive (st : SimState) (i : Nat) : Prop :=
  (getP st.procs (i : Int)).done = false ∧ tokH st i = 1 ∧ tokR st i = 0 ∧
    st.running_pid ≠ (i : Int) ∧
    ∃ e ∈ st.eventQ.heapArray, e.pid = (i : Int) ∧
      e.type = EventType.EVT_ARRIVE ∧
      e.time = (getP st.procs (i : Int)).arrival_time +
        (getP st.procs (i : Int)).wait_time +
        servedOf (getP st.procs (i : Int))

/-- The READY status: exactly one ready-queue entry, stamped by the
lifetime ledger at a time not after the clock. -/
def stReady (st : SimState) (i : Nat) : Prop :=
  (getP st.procs (i : Int)).done = false ∧ tokH st i = 0 ∧ tokR st i = 1 ∧
    st.running_pid ≠ (i : Int) ∧
    (getP st.procs (i : Int)).last_ready_time =
      (getP st.procs (i : Int)).arrival_time +
        (getP st.procs (i : Int)).wait_time +
        servedOf (getP st.procs (i : Int)) ∧
    (getP st.procs (i : Int)).last_ready_time ≤ st.current_time

/-- The RUNNING status: ownership of the CPU, with the pending
CPU_COMPLETE/CPU_TIMEOUT event carrying exactly the dispatched slice. -/
def stRun (q : Int) (st : SimState) (i : Nat) : Prop :=
  (getP st.procs (i : Int)).done = false ∧ tokH st i = 1 ∧ tokR st i = 0 ∧
    st.running_pid = (i : Int) ∧
    (getP st.procs (i : Int)).start_run_time =
      (getP st.procs (i : Int)).arrival_time +
        (getP st.procs (i : Int)).wait_time +
        servedOf (getP st.procs (i : Int)) ∧
    ∃ e ∈ st.eventQ.heapArray, e.pid = (i : Int) ∧
      e.time = (getP st.procs (i : Int)).start_run_time +
        (if (getP st.procs (i : Int)).remaining_cpu > q then q
          else (getP st.procs (i : Int)).remaining_cpu) ∧
      e.type = (if (getP st.procs (i : Int)).remaining_cpu > q
        then EventType.EVT_CPU_TIMEOUT else EventType.EVT_CPU_COMPLETE)

/-- Every process is in exactly one scheduling status. -/
def statusOf (q : Int) (st : SimState) (i : Nat) : Prop :=
  stDone st i ∨ stArrive st i ∨ stReady st i ∨ stRun q st i

/-- The parts of the master invariant independent of where we are inside a
loop iteration. -/
def CoreInv (q : Int) (st : SimState) : Prop :=
  RQwf st.readyQ ∧
  (∀ x ∈ RQtoList st.readyQ, 0 ≤ x ∧ x.toNat < st.procs.length) ∧
  (∀ e ∈ st.eventQ.heapArray, 0 ≤ e.pid ∧ e.pid.toNat < st.procs.length) ∧
  (st.running_pid = -1 ∨
    (0 ≤ st.running_pid ∧ st.running_pid.toNat < st.procs.length)) ∧
  st.finished_count = countDone st.procs ∧
  (∀ r ∈ st.records, ∃ i : Nat, i < st.procs.length ∧
    (getP st.procs (i : Int)).done = true ∧
    r = ⟨(i : Int), (getP st.procs (i : Int)).id,
      (getP st.procs (i : Int)).finish_time,
      (getP st.procs (i : Int)).finish_time -
        (getP st.procs (i : Int)).arrival_time,
      ((getP st.procs (i : Int)).finish_time -
        (getP st.procs (i : Int)).arrival_time) -
        (getP st.procs (i : Int)).total_cpu_io⟩) ∧
  st.eventQ.capacity = 4 * st.procs.length ∧
  st.readyQ.capacity = st.procs.length + 10 ∧
  st.eventQ.overflowed = false ∧
  st.readyQ.overflowed = false ∧
  (∀ d ∈ st.dispatch_log, 0 ≤ d.pid ∧ d.pid.toNat < st.procs.length) ∧
  (∀ i : Nat, i < st.procs.length → procCommon st i)

/-- The master loop-top invariant. -/
def EngInv (q : Int) (st : SimState) : Prop :=
  TimeInv st ∧ CoreInv q st ∧
  (st.running_pid = -1 → st.readyQ.count = 0) ∧
  (∀ i : Nat, i < st.procs.length → statusOf q st i)

/-- The invariant holding just before the trailing `schedule_next` of a
handler: everything of `EngInv` except that the CPU may be free while the
ready queue is nonempty. -/
def PreDispatch (q : Int) (st : SimState) : Prop :=
  TimeInv st ∧ CoreInv q st ∧
  (∀ i : Nat, i < st.procs.length → statusOf q st i)

/-- The invariant in the middle of handling an event of process `j`: `j`
has been removed from every structure (its event was popped, it is not
ready, not running, not finished) and its lifetime ledger says the clock is
exactly `arrival + wait + served`. -/
def InHand (q : Int) (st : SimState) (j : Nat) : Prop :=
  TimeInv st ∧ CoreInv q st ∧
  (∀ i : Nat, i < st.procs.length → i ≠ j → statusOf q st i) ∧
  j < st.procs.length ∧
  (getP st.procs (j : Int)).done = false ∧
  tokH st j = 0 ∧ tokR st j = 0 ∧ st.running_pid ≠ (j : Int) ∧
  st.current_time = (getP st.procs (j : Int)).arrival_time +
    (getP st.procs (j : Int)).wait_time + servedOf (getP st.procs (j : Int))

/-- Well-formedness of the input process table as established by
`read_input_file` before `run_scheduler` starts: static fields consistent,
dynamic fields at their initial values. -/
def WFinput (ps : List PCB) : Prop :=
  ∀ p ∈ ps, StaticWF p ∧ p.current_burst = 0 ∧
    p.remaining_cpu = p.cpu_bursts.getD 0 0 ∧ p.wait_time = 0 ∧
    p.done = false

theorem cmp_neg (ids : Int → Int) (a b : Event) :
    compareEvents ids a b = - compareEvents ids b a := by
  unfold compareEvents; split_ifs <;> omega

theorem cmp_le_iff (ids : Int → Int) (a b : Event) :
    compareEvents ids a b ≤ 0 ↔ specEventLE ids a b := by
  unfold compareEvents specEventLE; split_ifs <;> constructor <;> intro h <;> omega

theorem specLE_trans (ids : Int → Int) {a b c : Event}
    (h1 : specEventLE ids a b) (h2 : specEventLE ids b c) :
    specEventLE ids a c := by
  unfold specEventLE at *; omega

theorem cmp_le_trans (ids : Int → Int) {a b c : Event}
    (h1 : compareEvents ids a b ≤ 0) (h2 : compareEvents ids b c ≤ 0) :
    compareEvents ids a c ≤ 0 := by
  rw [cmp_le_iff] at *
  exact specLE_trans ids h1 h2

theorem cmp_of_not_lt (ids : Int → Int) {a b : Event}
    (h : ¬ compareEvents ids a b < 0) : compareEvents ids b a ≤ 0 := by
  rw [cmp_neg]; omega

theorem cmp_le_of_lt (ids : Int → Int) {a b : Event}
    (h : compareEvents ids a b < 0) : compareEvents ids a b ≤ 0 :=
  le_of_lt h

theorem cmp_time_le (ids : Int → Int) {a b : Event}
    (h : compareEvents ids a b ≤ 0) : a.time ≤ b.time := by
  rw [cmp_le_iff] at h
  unfold specEventLE at h; omega

theorem getE_eq_getElem {l : List Event} {i : Nat} (h : i < l.length) :
    getE l i = l[i] := by
  simp [getE, List.getD_eq_getElem?_getD, List.getElem?_eq_getElem h]

theorem getE_set_self {l : List Event} {i : Nat} (x : Event)
    (h : i < l.length) : getE (l.set i x) i = x := by
  simp [getE, List.getD_eq_getElem?_getD, List.getElem?_set_self, h]

theorem getE_set_ne {l : List Event} {i j : Nat} (x : Event)
    (h : i ≠ j) : getE (l.set i x) j = getE l j := by
  simp [getE, List.getD_eq_getElem?_getD, List.getElem?_set_ne h]

theorem length_swapE (l : List Event) (i j : Nat) :
    (swapE l i j).length = l.length := by
  simp [swapE]

theorem getE_swapE {l : List Event} {i j : Nat} (hi : i < l.length)
    (hj : j < l.length) (k : Nat) :
    getE (swapE l i j) k =
      if k = j then getE l i else if k = i then getE l j else getE l k := by
  unfold swapE
  rcases eq_or_ne k j with rfl | hkj
  · rw [if_pos rfl]
    exact getE_set_self _ (by simpa using hj)
  · rw [if_neg hkj, getE_set_ne _ (fun h => hkj h.symm)]
    rcases eq_or_ne k i with rfl | hki
    · rw [if_pos rfl]
      exact getE_set_self _ hi
    · rw [if_neg hki, getE_set_ne _ (fun h => hki h.symm)]

theorem count_swapE (l : List Event) {i j : Nat} (hi : i < l.length)
    (hj : j < l.length) (a : Event) :
    (swapE l i j).count a = l.count a := by
  unfold swapE
  have hj2 : j < (l.set i (getE l j)).length := by simpa using hj
  rw [List.count_set _ _ _ _ hj2, List.count_set _ _ _ _ hi]
  have h3 : (l.set i (getE l j))[j] = getE l j := by
    rcases eq_or_ne i j with rfl | hne
    · rw [List.getElem_set_self]
    · rw [List.getElem_set_ne hne]
      exact (getE_eq_getElem hj).symm
  have h4 : l[i] = getE l i := (getE_eq_getElem hi).symm
  rw [h3, h4]
  have hc1 : (if (getE l i == a) = true then 1 else 0) ≤ List.count a l := by
    split_ifs with hba
    · rw [beq_iff_eq] at hba
      subst hba
      rw [List.one_le_count_iff, getE_eq_getElem hi]
      exact List.getElem_mem hi
    · omega
  by_cases e2 : (getE l j == a) = true <;> simp only [e2, if_true, if_false] <;>
    omega

theorem perm_swapE {l : List Event} {i j : Nat} (hi : i < l.length)
    (hj : j < l.length) : (swapE l i j).Perm l := by
  rw [List.perm_iff_count]
  intro a
  exact count_swapE l hi hj a

theorem getE_append_lt {l l2 : List Event} {i : Nat} (h : i < l.length) :
    getE (l ++ l2) i = getE l i := by
  simp [getE, List.getD_eq_getElem?_getD, List.getElem?_append_left h]

theorem getE_append_len (l : List Event) (e : Event) :
    getE (l ++ [e]) l.length = e := by
  simp [getE, List.getD_append_right _ _ _ _ (le_refl l.length)]

theorem getE_take {l : List Event} {n i : Nat} (h : i < n) :
    getE (l.take n) i = getE l i := by
  simp [getE, List.getD_eq_getElem?_getD, List.getElem?_take, h]

theorem cmp_refl (ids : Int → Int) (a : Event) : compareEvents ids a a = 0 := by
  unfold compareEvents; split_ifs <;> omega

theorem bdTarget_lt_of_ne {ids : Int → Int} {l : List Event} {idx : Nat}
    (h : bdTarget ids l idx ≠ idx) : bdTarget ids l idx < l.length := by
  unfold bdTarget bdT1 at *
  split_ifs at * <;> omega

theorem bdTarget_ge (ids : Int → Int) (l : List Event) (idx : Nat) :
    idx ≤ bdTarget ids l idx := by
  unfold bdTarget bdT1
  split_ifs <;> omega

theorem bubbleUpGo_fuel (ids : Int → Int) :
    ∀ (f1 f2 : Nat) (l : List Event) (idx : Nat), idx < f1 → idx < f2 →
      bubbleUpGo ids f1 l idx = bubbleUpGo ids f2 l idx := by
  intro f1
  induction f1 with
  | zero =>
    intro f2 l idx h1 h2
    omega
  | succ f1 ih =>
    intro f2 l idx h1 h2
    cases f2 with
    | zero => omega
    | succ f2 =>
      simp only [bubbleUpGo]
      by_cases hpos : 0 < idx
      · rw [if_pos hpos, if_pos hpos]
        by_cases hlt :
            compareEvents ids (getE l idx) (getE l ((idx - 1) / 2)) < 0
        · rw [if_pos hlt, if_pos hlt]
          exact ih f2 _ _ (by omega) (by omega)
        · rw [if_neg hlt, if_neg hlt]
      · rw [if_neg hpos, if_neg hpos]

/-- One-step unfolding of `bubbleUp`, matching the C loop body. -/
theorem bubbleUp_eq (ids : Int → Int) (l : List Event) (idx : Nat) :
    bubbleUp ids l idx =
      if 0 < idx then
        if compareEvents ids (getE l idx) (getE l ((idx - 1) / 2)) < 0 then
          bubbleUp ids (swapE l idx ((idx - 1) / 2)) ((idx - 1) / 2)
        else l
      else l := by
  unfold bubbleUp
  simp only [bubbleUpGo]
  by_cases hpos : 0 < idx
  · rw [if_pos hpos, if_pos hpos]
    by_cases hlt : compareEvents ids (getE l idx) (getE l ((idx - 1) / 2)) < 0
    · rw [if_pos hlt, if_pos hlt]
      exact bubbleUpGo_fuel ids idx ((idx - 1) / 2 + 1)
        (swapE l idx ((idx - 1) / 2)) ((idx - 1) / 2) (by omega) (by omega)
    · rw [if_neg hlt, if_neg hlt]
  · rw [if_neg hpos, if_neg hpos]

theorem bubbleDownGo_fuel (ids : Int → Int) :
    ∀ (f1 f2 : Nat) (l : List Event) (idx : Nat),
      l.length - idx ≤ f1 → l.length - idx ≤ f2 →
      bubbleDownGo ids f1 l idx = bubbleDownGo ids f2 l idx := by
  intro f1
  induction f1 with
  | zero =>
    intro f2 l idx h1 h2
    have hguard : ¬ (bdTarget ids l idx ≠ idx ∧
        bdTarget ids l idx < l.length) := by
      have := bdTarget_ge ids l idx
      omega
    cases f2 with
    | zero => rfl
    | succ f2 =>
      simp only [bubbleDownGo]
      rw [if_neg hguard]
  | succ f1 ih =>
    intro f2 l idx h1 h2
    cases f2 with
    | zero =>
      have hguard : ¬ (bdTarget ids l idx ≠ idx ∧
          bdTarget ids l idx < l.length) := by
        have := bdTarget_ge ids l idx
        omega
      simp only [bubbleDownGo]
      rw [if_neg hguard]
    | succ f2 =>
      simp only [bubbleDownGo]
      by_cases hguard : bdTarget ids l idx ≠ idx ∧
          bdTarget ids l idx < l.length
      · rw [if_pos hguard, if_pos hguard]
        have hgt : idx < bdTarget ids l idx := by
          have := bdTarget_ge ids l idx
          omega
        refine ih f2 _ _ ?_ ?_ <;> rw [length_swapE] <;> omega
      · rw [if_neg hguard, if_neg hguard]

/-- One-step unfolding of `bubbleDown`, matching the C loop body. -/
theorem bubbleDown_eq (ids : Int → Int) (l : List Event) (idx : Nat) :
    bubbleDown ids l idx =
      if bdTarget ids l idx ≠ idx ∧ bdTarget ids l idx < l.length then
        bubbleDown ids (swapE l idx (bdTarget ids l idx))
          (bdTarget ids l idx)
      else l := by
  unfold bubbleDown
  by_cases hguard : bdTarget ids l idx ≠ idx ∧ bdTarget ids l idx < l.length
  · have hgt : idx < bdTarget ids l idx := by
      have := bdTarget_ge ids l idx
      omega
    have hm : l.length - idx = (l.length - idx - 1) + 1 := by omega
    rw [hm]
    simp only [bubbleDownGo]
    rw [if_pos hguard, if_pos hguard]
    refine bubbleDownGo_fuel ids _ _ _ _ ?_ ?_ <;> rw [length_swapE] <;> omega
  · rw [if_neg hguard]
    cases hm : l.length - idx with
    | zero => rfl
    | succ m =>
      simp only [bubbleDownGo]
      rw [if_neg hguard]

theorem bubbleUp_perm (ids : Int → Int) :
    ∀ (l : List Event) (idx : Nat), idx < l.length →
      (bubbleUp ids l idx).Perm l := by
  intro l idx
  induction idx using Nat.strong_induction_on generalizing l with
  | _ idx ih =>
    intro hlen
    rw [bubbleUp_eq]
    by_cases hpos : 0 < idx
    · rw [if_pos hpos]
      by_cases hlt : compareEvents ids (getE l idx) (getE l ((idx - 1) / 2)) < 0
      · rw [if_pos hlt]
        have hp : (idx - 1) / 2 < l.length := by omega
        have h1 : (idx - 1) / 2 < (swapE l idx ((idx - 1) / 2)).length := by
          rw [length_swapE]; omega
        exact (ih _ (by omega) _ h1).trans (perm_swapE hlen hp)
      · rw [if_neg hlt]
    · rw [if_neg hpos]

theorem bdT1_min_idx {ids : Int → Int} {l : List Event} {idx : Nat} :
    compareEvents ids (getE l (bdT1 ids l idx)) (getE l idx) ≤ 0 := by
  unfold bdT1
  split_ifs with h
  · exact le_of_lt h.2
  · exact le_of_eq (cmp_refl ids _)

theorem bdT1_min_left {ids : Int → Int} {l : List Event} {idx : Nat}
    (hlen : 2 * idx + 1 < l.length) :
    compareEvents ids (getE l (bdT1 ids l idx)) (getE l (2 * idx + 1)) ≤ 0 := by
  unfold bdT1
  split_ifs with h
  · exact le_of_eq (cmp_refl ids _)
  · exact cmp_of_not_lt ids (fun hcon => h ⟨hlen, hcon⟩)

theorem bdTarget_min {ids : Int → Int} {l : List Event} {idx : Nat} (c : Nat)
    (hc : c = idx ∨ ((c = 2 * idx + 1 ∨ c = 2 * idx + 2) ∧ c < l.length)) :
    compareEvents ids (getE l (bdTarget ids l idx)) (getE l c) ≤ 0 := by
  unfold bdTarget
  split_ifs with h
  · rcases hc with rfl | ⟨hc12, hclen⟩
    · exact cmp_le_trans ids (le_of_lt h.2) bdT1_min_idx
    · rcases hc12 with rfl | rfl
      · exact cmp_le_trans ids (le_of_lt h.2) (bdT1_min_left hclen)
      · exact le_of_eq (cmp_refl ids _)
  · rcases hc with rfl | ⟨hc12, hclen⟩
    · exact bdT1_min_idx
    · rcases hc12 with rfl | rfl
      · exact bdT1_min_left hclen
      · exact cmp_of_not_lt ids (fun hcon => h ⟨hclen, hcon⟩)

theorem downOK_exit {ids : Int → Int} {l : List Event} {idx : Nat}
    (hOK : downOK ids l idx) (hstop : bdTarget ids l idx = idx) :
    heapOrdered ids l := by
  intro i hi0 hilen
  rcases eq_or_ne ((i - 1) / 2) idx with hpi | hpi
  · have hi12 : i = 2 * idx + 1 ∨ i = 2 * idx + 2 := by omega
    have := @bdTarget_min ids l idx i (Or.inr ⟨hi12, hilen⟩)
    rw [hstop] at this
    rw [hpi]
    exact this
  · exact hOK.1 i hi0 hilen hpi

theorem bdTarget_child {ids : Int → Int} {l : List Event} {idx : Nat}
    (hne : bdTarget ids l idx ≠ idx) :
    bdTarget ids l idx = 2 * idx + 1 ∨ bdTarget ids l idx = 2 * idx + 2 := by
  unfold bdTarget bdT1 at *
  split_ifs at * <;> omega

theorem downOK_step {ids : Int → Int} {l : List Event} {idx : Nat}
    (hne : bdTarget ids l idx ≠ idx) (hslen : bdTarget ids l idx < l.length)
    (hOK : downOK ids l idx) :
    downOK ids (swapE l idx (bdTarget ids l idx)) (bdTarget ids l idx) := by
  have hchild := bdTarget_child hne
  have hminidx : compareEvents ids (getE l (bdTarget ids l idx))
      (getE l idx) ≤ 0 := bdTarget_min idx (Or.inl rfl)
  have hminchild : ∀ i : Nat, i < l.length →
      i = 2 * idx + 1 ∨ i = 2 * idx + 2 →
      compareEvents ids (getE l (bdTarget ids l idx)) (getE l i) ≤ 0 :=
    fun i hl h12 => bdTarget_min i (Or.inr ⟨h12, hl⟩)
  generalize hgen : bdTarget ids l idx = s
    at hne hslen hchild hminidx hminchild ⊢
  have hidxs : idx < s := by omega
  have hidxlen : idx < l.length := by omega
  have hpar : (s - 1) / 2 = idx := by omega
  have hget := getE_swapE hidxlen hslen
  constructor
  · intro i hi0 hilen hpis
    rw [length_swapE] at hilen
    rcases eq_or_ne i idx with rfl | hiidx
    · have hidx0 : 0 < i := hi0
      rw [hget ((i - 1) / 2), hget i]
      rw [if_neg (show ¬((i - 1) / 2 = s) by omega),
        if_neg (show ¬((i - 1) / 2 = i) by omega),
        if_neg (show ¬(i = s) by omega), if_pos rfl]
      exact hOK.2 s (by omega) hslen hpar hidx0
    · rcases eq_or_ne i s with rfl | his
      · rw [hpar, hget idx, hget i]
        rw [if_neg (show ¬(idx = i) by omega), if_pos rfl, if_pos rfl]
        exact hminidx
      · rw [hget ((i - 1) / 2), hget i, if_neg his, if_neg hiidx]
        rcases eq_or_ne ((i - 1) / 2) idx with hpi | hpi
        · rw [hpi, if_neg (show ¬(idx = s) by omega), if_pos rfl]
          exact hminchild i hilen (by omega)
        · rw [if_neg hpis, if_neg hpi]
          exact hOK.1 i hi0 hilen hpi
  · intro c hc0 hclen hcs hs0
    rw [length_swapE] at hclen
    have hcbig : s < c := by omega
    rw [hpar, hget idx, hget c]
    rw [if_neg (show ¬(idx = s) by omega), if_pos rfl,
      if_neg (show ¬(c = s) by omega), if_neg (show ¬(c = idx) by omega),
      ← hcs]
    exact hOK.1 c hc0 hclen (by omega)

theorem bubbleDown_ordered_aux (ids : Int → Int) :
    ∀ (m : Nat) (l : List Event) (idx : Nat), l.length - idx ≤ m →
      downOK ids l idx → heapOrdered ids (bubbleDown ids l idx) := by
  intro m
  induction m with
  | zero =>
    intro l idx hm hOK
    have hguard : ¬ (bdTarget ids l idx ≠ idx ∧
        bdTarget ids l idx < l.length) := by
      have := bdTarget_ge ids l idx
      omega
    rw [bubbleDown_eq, if_neg hguard]
    intro i hi0 hilen
    exact hOK.1 i hi0 hilen (by omega)
  | succ m ih =>
    intro l idx hm hOK
    rw [bubbleDown_eq]
    by_cases hguard : bdTarget ids l idx ≠ idx ∧ bdTarget ids l idx < l.length
    · rw [if_pos hguard]
      have hgt : idx < bdTarget ids l idx := by
        have := bdTarget_ge ids l idx
        omega
      refine ih _ _ ?_ (downOK_step hguard.1 hguard.2 hOK)
      rw [length_swapE]
      omega
    · rw [if_neg hguard]
      rcases eq_or_ne (bdTarget ids l idx) idx with hstop | hne
      · exact downOK_exit hOK hstop
      · exact absurd ⟨hne, bdTarget_lt_of_ne hne⟩ hguard

theorem bubbleDown_ordered (ids : Int → Int) :
    ∀ (l : List Event) (idx : Nat), downOK ids l idx →
      heapOrdered ids (bubbleDown ids l idx) :=
  fun l idx => bubbleDown_ordered_aux ids (l.length - idx) l idx (le_refl _)

theorem bubbleDown_perm_aux (ids : Int → Int) :
    ∀ (m : Nat) (l : List Event) (idx : Nat), l.length - idx ≤ m →
      (bubbleDown ids l idx).Perm l := by
  intro m
  induction m with
  | zero =>
    intro l idx hm
    have hguard : ¬ (bdTarget ids l idx ≠ idx ∧
        bdTarget ids l idx < l.length) := by
      have := bdTarget_ge ids l idx
      omega
    rw [bubbleDown_eq, if_neg hguard]
  | succ m ih =>
    intro l idx hm
    rw [bubbleDown_eq]
    by_cases hguard : bdTarget ids l idx ≠ idx ∧ bdTarget ids l idx < l.length
    · rw [if_pos hguard]
      have hgt : idx < bdTarget ids l idx := by
        have := bdTarget_ge ids l idx
        omega
      have hidxlen : idx < l.length := by omega
      refine (ih _ _ ?_).trans (perm_swapE hidxlen hguard.2)
      rw [length_swapE]
      omega
    · rw [if_neg hguard]

theorem bubbleDown_perm (ids : Int → Int) :
    ∀ (l : List Event) (idx : Nat), (bubbleDown ids l idx).Perm l :=
  fun l idx => bubbleDown_perm_aux ids (l.length - idx) l idx (le_refl _)

theorem upOK_step {ids : Int → Int} {l : List Event} {idx : Nat}
    (hidx0 : 0 < idx) (hlen : idx < l.length)
    (hclt : compareEvents ids (getE l idx) (getE l ((idx - 1) / 2)) < 0)
    (hOK : upOK ids l idx) :
    upOK ids (swapE l idx ((idx - 1) / 2)) ((idx - 1) / 2) := by
  have hplt : (idx - 1) / 2 < idx := by omega
  have hplen : (idx - 1) / 2 < l.length := by omega
  have hget := getE_swapE hlen hplen
  generalize hp : (idx - 1) / 2 = p at hclt hget hplt hplen ⊢
  constructor
  · intro i hi0 hilen hip
    rw [length_swapE] at hilen
    by_cases hiidx : i = idx
    · have hpi : (i - 1) / 2 = p := by rw [hiidx]; exact hp
      rw [hpi, hget p, hget i, if_pos rfl, if_neg hip, if_pos hiidx]
      exact le_of_lt hclt
    · by_cases hpi : (i - 1) / 2 = idx
      · rw [hpi, hget idx, hget i, if_neg (show ¬(idx = p) by omega),
          if_pos rfl, if_neg hip, if_neg hiidx]
        have := hOK.2 i hi0 hilen hpi
        rw [hp] at this
        exact this
      · by_cases hpip : (i - 1) / 2 = p
        · rw [hpip, hget p, hget i, if_pos rfl, if_neg hip, if_neg hiidx]
          have h1 := hOK.1 i hi0 hilen hiidx
          rw [hpip] at h1
          exact cmp_le_trans ids (le_of_lt hclt) h1
        · rw [hget ((i - 1) / 2), hget i, if_neg hpip, if_neg hpi,
            if_neg hip, if_neg hiidx]
          exact hOK.1 i hi0 hilen hiidx
  · intro c hc0 hclen hcp
    rw [length_swapE] at hclen
    by_cases hp0 : p = 0
    · have hpp : (p - 1) / 2 = p := by omega
      rw [hpp, hget p, if_pos rfl, hget c]
      by_cases hcidx : c = idx
      · rw [if_neg (show ¬(c = p) by omega), if_pos hcidx]
        exact le_of_lt hclt
      · rw [if_neg (show ¬(c = p) by omega), if_neg hcidx]
        have h1 := hOK.1 c hc0 hclen hcidx
        rw [hcp] at h1
        exact cmp_le_trans ids (le_of_lt hclt) h1
    · have hpplt : (p - 1) / 2 < p := by omega
      have hpid : p ≠ idx := by omega
      rw [hget ((p - 1) / 2), if_neg (show ¬((p - 1) / 2 = p) by omega),
        if_neg (show ¬((p - 1) / 2 = idx) by omega), hget c]
      have hedgep := hOK.1 p (by omega) hplen hpid
      by_cases hcidx : c = idx
      · rw [if_neg (show ¬(c = p) by omega), if_pos hcidx]
        exact hedgep
      · rw [if_neg (show ¬(c = p) by omega), if_neg hcidx]
        have h1 := hOK.1 c hc0 hclen hcidx
        rw [hcp] at h1
        exact cmp_le_trans ids hedgep h1

theorem upOK_exit {ids : Int → Int} {l : List Event} {idx : Nat}
    (hidx0 : 0 < idx) (hlen : idx < l.length)
    (hnlt : ¬ compareEvents ids (getE l idx) (getE l ((idx - 1) / 2)) < 0)
    (hOK : upOK ids l idx) : heapOrdered ids l := by
  intro i hi0 hilen
  by_cases hiidx : i = idx
  · rw [hiidx]
    exact cmp_of_not_lt ids hnlt
  · exact hOK.1 i hi0 hilen hiidx

theorem upOK_root {ids : Int → Int} {l : List Event}
    (hOK : upOK ids l 0) : heapOrdered ids l := by
  intro i hi0 hilen
  exact hOK.1 i hi0 hilen (by omega)

theorem bubbleUp_ordered (ids : Int → Int) :
    ∀ (l : List Event) (idx : Nat), idx < l.length → upOK ids l idx →
      heapOrdered ids (bubbleUp ids l idx) := by
  intro l idx
  induction idx using Nat.strong_induction_on generalizing l with
  | _ idx ih =>
    intro hlen hOK
    rw [bubbleUp_eq]
    by_cases hpos : 0 < idx
    · rw [if_pos hpos]
      by_cases hlt : compareEvents ids (getE l idx) (getE l ((idx - 1) / 2)) < 0
      · rw [if_pos hlt]
        exact ih _ (by omega) _ (by rw [length_swapE]; omega)
          (upOK_step hpos hlen hlt hOK)
      · rw [if_neg hlt]
        exact upOK_exit hpos hlen hlt hOK
    · rw [if_neg hpos]
      have hidx0 : idx = 0 := by omega
      rw [hidx0] at hOK
      exact upOK_root hOK

theorem upOK_push {ids : Int → Int} {l : List Event} (e : Event)
    (hord : heapOrdered ids l) : upOK ids (l ++ [e]) l.length := by
  constructor
  · intro i hi0 hilen hine
    rw [List.length_append, List.length_singleton] at hilen
    have hilt : i < l.length := by omega
    rw [getE_append_lt hilt, getE_append_lt (show (i - 1) / 2 < l.length by omega)]
    exact hord i hi0 hilt
  · intro c hc0 hclen hcpar
    rw [List.length_append, List.length_singleton] at hclen
    omega

theorem heapOrdered_nil (ids : Int → Int) : heapOrdered ids [] := by
  intro i hi0 hilen
  simp at hilen

/-- `eventHeap_push` on a non-full heap: the contents gain exactly `ev`, the
shape invariant is preserved, and capacity/overflow flag are untouched. -/
theorem eventHeap_push_spec (ids : Int → Int) (mh : EventMinHeap) (ev : Event)
    (hcap : mh.heapArray.length < mh.capacity)
    (hord : heapOrdered ids mh.heapArray) :
    (eventHeap_push ids mh ev).heapArray.Perm (ev :: mh.heapArray) ∧
      heapOrdered ids (eventHeap_push ids mh ev).heapArray ∧
      (eventHeap_push ids mh ev).capacity = mh.capacity ∧
      (eventHeap_push ids mh ev).overflowed = mh.overflowed := by
  unfold eventHeap_push
  rw [if_neg (by omega)]
  refine ⟨?_, ?_, rfl, rfl⟩
  · have h1 : mh.heapArray.length < (mh.heapArray ++ [ev]).length := by
      simp
    refine (bubbleUp_perm ids _ _ h1).trans ?_
    exact (List.perm_append_singleton ev mh.heapArray)
  · exact bubbleUp_ordered ids _ _ (by simp) (upOK_push ev hord)

/-- `eventHeap_push` on a full heap only raises the ghost overflow flag. -/
theorem eventHeap_push_full (ids : Int → Int) (mh : EventMinHeap) (ev : Event)
    (hcap : mh.capacity ≤ mh.heapArray.length) :
    eventHeap_push ids mh ev = { mh with overflowed := true } := by
  unfold eventHeap_push
  rw [if_pos (by omega)]

/-- The root of a shape-correct heap is a minimum of the whole array. -/
theorem heapOrdered_root_min {ids : Int → Int} {l : List Event}
    (hord : heapOrdered ids l) :
    ∀ i : Nat, i < l.length → compareEvents ids (getE l 0) (getE l i) ≤ 0 := by
  intro i
  induction i using Nat.strong_induction_on with
  | _ i ih =>
    intro hilen
    rcases Nat.eq_zero_or_pos i with rfl | hi0
    · exact le_of_eq (cmp_refl ids _)
    · have hpar := hord i hi0 hilen
      have hplt : (i - 1) / 2 < i := by omega
      exact cmp_le_trans ids (ih _ hplt (by omega)) hpar

/-- Unfolded form of `eventHeap_pop` on a nonempty heap. -/
theorem eventHeap_pop_eq (ids : Int → Int) (mh : EventMinHeap)
    (hlen0 : mh.heapArray.length ≠ 0) :
    eventHeap_pop ids mh =
      (getE mh.heapArray 0,
        { mh with heapArray :=
            if 0 < mh.heapArray.length - 1 then bubbleDown ids ((mh.heapArray.set 0 (getE mh.heapArray (mh.heapArray.length - 1))).take (mh.heapArray.length - 1)) 0 else [] }) := by
  unfold eventHeap_pop
  rw [if_neg hlen0]

/-- The pre-`bubbleDown` array of a pop (last element moved to the root,
array shortened) satisfies the `bubbleDown` entry invariant at the root. -/
theorem downOK_pop {ids : Int → Int} {l : List Event}
    (hord : heapOrdered ids l) :
    downOK ids ((l.set 0 (getE l (l.length - 1))).take (l.length - 1)) 0 := by
  constructor
  · intro i hi0 hilen hpne
    have hlen2 : ((l.set 0 (getE l (l.length - 1))).take
        (l.length - 1)).length = min (l.length - 1) l.length := by
      simp
    rw [hlen2] at hilen
    have hilen2 : i < l.length - 1 := by omega
    have hp0 : (i - 1) / 2 < l.length - 1 := by omega
    rw [getE_take hilen2, getE_take hp0]
    have hpz : (i - 1) / 2 ≠ 0 := hpne
    rw [getE_set_ne _ (fun h => hpz h.symm), getE_set_ne _ (by omega)]
    exact hord i hi0 (by omega)
  · intro c hc0 hclen hcp hj0
    omega

/-- The contents of a pop on a nonempty heap: the head comes off, the rest
is a permutation of the tail. -/
theorem pop_tail_perm (ids : Int → Int) (mh : EventMinHeap)
    (hne : mh.heapArray ≠ []) :
    ((eventHeap_pop ids mh).2).heapArray.Perm mh.heapArray.tail := by
  have hlen0 : mh.heapArray.length ≠ 0 := fun h => hne (List.eq_nil_of_length_eq_zero h)
  rw [eventHeap_pop_eq ids mh hlen0]
  rcases Nat.eq_zero_or_pos (mh.heapArray.length - 1) with hn | hn
  · rw [if_neg (by omega)]
    have ht : mh.heapArray.tail.length = 0 := by
      rw [List.length_tail]; omega
    rw [List.eq_nil_of_length_eq_zero ht]
  · rw [if_pos hn]
    refine (bubbleDown_perm ids _ 0).trans ?_
    rcases hht : mh.heapArray with _ | ⟨a, t⟩
    · exact absurd hht hne
    · have ht : t ≠ [] := by
        rw [hht] at hn
        intro h
        rw [h] at hn
        simp at hn
      have hlens : (a :: t).length - 1 = t.length := by simp
      have htpos : 0 < t.length := List.length_pos_of_ne_nil ht
      rw [hlens, List.set_cons_zero, List.take_cons htpos]
      have hget2 : getE (a :: t) t.length = t.getLast ht := by
        rw [getE_eq_getElem (by simp)]
        rw [List.getLast_eq_getElem]
        rw [List.getElem_cons]
        rw [dif_neg (by omega)]
      rw [hget2]
      have hdrop : t.take (t.length - 1) = t.dropLast := by
        rw [List.dropLast_eq_take]
      rw [hdrop, show (a :: t).tail = t from rfl]
      refine List.Perm.trans (List.perm_append_singleton _ _).symm ?_
      rw [List.dropLast_append_getLast ht]

/-- A pop preserves the heap shape invariant. -/
theorem pop_ordered (ids : Int → Int) (mh : EventMinHeap)
    (hord : heapOrdered ids mh.heapArray) :
    heapOrdered ids ((eventHeap_pop ids mh).2).heapArray := by
  rcases Nat.eq_zero_or_pos mh.heapArray.length with hz | hz
  · unfold eventHeap_pop
    rw [if_pos hz]
    exact hord
  · rw [eventHeap_pop_eq ids mh (by omega)]
    rcases Nat.eq_zero_or_pos (mh.heapArray.length - 1) with hn | hn
    · rw [if_neg (by omega)]
      exact heapOrdered_nil ids
    · rw [if_pos hn]
      exact bubbleDown_ordered ids _ 0 (downOK_pop hord)

/-- A pop on a nonempty heap returns the array root, and capacity and
overflow flag are untouched. -/
theorem pop_top (ids : Int → Int) (mh : EventMinHeap)
    (hlen0 : mh.heapArray.length ≠ 0) :
    (eventHeap_pop ids mh).1 = getE mh.heapArray 0 ∧
      (eventHeap_pop ids mh).2.capacity = mh.capacity ∧
      (eventHeap_pop ids mh).2.overflowed = mh.overflowed := by
  rw [eventHeap_pop_eq ids mh hlen0]
  exact ⟨rfl, rfl, rfl⟩

theorem addMod_ne {cap f a b : Nat} (hcap : 0 < cap) (hab : a < b)
    (hb : b - a < cap) : (f + a) % cap ≠ (f + b) % cap := by
  intro h
  have hr : (f + a) % cap < cap := Nat.mod_lt _ hcap
  have h2 : (f + b) % cap = ((f + a) % cap + (b - a)) % cap := by
    rw [Nat.mod_add_mod]
    congr 1
    omega
  rw [h2] at h
  rcases Nat.lt_or_ge ((f + a) % cap + (b - a)) cap with hlt | hge
  · rw [Nat.mod_eq_of_lt hlt] at h
    omega
  · have h3 : (f + a) % cap + (b - a) - cap < cap := by omega
    rw [Nat.mod_eq_sub_mod hge, Nat.mod_eq_of_lt h3] at h
    omega

theorem RQwf_init (cap : Nat) (hcap : 0 < cap) : RQwf (RQ_init cap) := by
  unfold RQwf RQ_init
  dsimp only
  refine ⟨hcap, by omega, hcap, by simp, by omega, by simp⟩

theorem RQtoList_init (cap : Nat) : RQtoList (RQ_init cap) = [] := by
  unfold RQtoList RQ_init
  simp

theorem RQtoList_length (q : ReadyQueue) : (RQtoList q).length = q.count := by
  unfold RQtoList
  simp

/-- `RQ_enqueue` on a non-full well-formed queue appends at the tail and
preserves well-formedness. -/
theorem RQ_enqueue_spec (q : ReadyQueue) (pid : Int) (hwf : RQwf q)
    (hlt : q.count < q.capacity) :
    RQtoList (RQ_enqueue q pid) = RQtoList q ++ [pid] ∧
      RQwf (RQ_enqueue q pid) ∧
      (RQ_enqueue q pid).count = q.count + 1 ∧
      (RQ_enqueue q pid).capacity = q.capacity ∧
      (RQ_enqueue q pid).front = q.front ∧
      (RQ_enqueue q pid).overflowed = q.overflowed := by
  obtain ⟨hcap, hcnt, hfr, hdata, hrear, hslot⟩ := hwf
  unfold RQ_enqueue
  rw [if_neg (by omega)]
  have hmodnn : 0 ≤ (q.rear + 1) % (q.capacity : Int) :=
    Int.emod_nonneg _ (by omega)
  have hrearp : (q.rear + 1) % (q.capacity : Int) =
      (((q.front + q.count) % q.capacity : Nat) : Int) := by
    omega
  refine ⟨?_, ⟨hcap, ?_, ?_, ?_, ?_, ?_⟩, rfl, rfl, rfl, rfl⟩
  · unfold RQtoList
    dsimp only
    simp only [List.range_succ, List.map_append, List.map_cons, List.map_nil]
    congr 1
    · apply List.map_congr_left
      intro k hk
      rw [List.mem_range] at hk
      have hne : (q.front + k) % q.capacity ≠
          ((q.rear + 1) % (q.capacity : Int)).toNat := by
        rw [hslot]
        exact addMod_ne hcap hk (by omega)
      simp only [List.getD_eq_getElem?_getD]
      rw [List.getElem?_set_ne (fun h => hne h.symm)]
    · have hsl : ((q.rear + 1) % (q.capacity : Int)).toNat <
          q.data.length := by
        rw [hdata, hslot]
        exact Nat.mod_lt _ hcap
      simp only [List.getD_eq_getElem?_getD]
      rw [← hslot, List.getElem?_set_self hsl]
      rfl
  · show q.count + 1 ≤ q.capacity
    omega
  · show q.front < q.capacity
    exact hfr
  · show (q.data.set ((q.rear + 1) % (q.capacity : Int)).toNat pid).length =
      q.capacity
    simpa using hdata
  · show 0 ≤ (q.rear + 1) % (q.capacity : Int) + 1
    omega
  · show (((q.rear + 1) % (q.capacity : Int) + 1) %
      (q.capacity : Int)).toNat = (q.front + (q.count + 1)) % q.capacity
    rw [hrearp]
    have hcast : (((q.front + q.count) % q.capacity : Nat) : Int) + 1 =
        (((q.front + q.count) % q.capacity + 1 : Nat) : Int) := by
      push_cast
      ring
    rw [hcast, ← Int.natCast_mod, Int.toNat_natCast, Nat.mod_add_mod]
    congr 1

/-- `RQ_dequeue` on a nonempty well-formed queue removes and returns the
head. -/
theorem RQ_dequeue_spec (q : ReadyQueue) (hwf : RQwf q)
    (hne : q.count ≠ 0) :
    (RQ_dequeue q).1 = (RQtoList q).headD 0 ∧
      RQtoList (RQ_dequeue q).2 = (RQtoList q).tail ∧
      RQwf (RQ_dequeue q).2 ∧
      (RQ_dequeue q).2.count = q.count - 1 ∧
      (RQ_dequeue q).2.capacity = q.capacity ∧
      (RQ_dequeue q).2.overflowed = q.overflowed := by
  obtain ⟨hcap, hcnt, hfr, hdata, hrear, hslot⟩ := hwf
  unfold RQ_dequeue
  rw [if_neg hne]
  have hheads : RQtoList q = q.data.getD q.front 0 ::
      (List.range (q.count - 1)).map
        (fun k => q.data.getD ((q.front + (k + 1)) % q.capacity) 0) := by
    unfold RQtoList
    have hc1 : q.count = (q.count - 1) + 1 := by omega
    rw [hc1, List.range_succ_eq_map]
    simp only [List.map_cons, List.map_map]
    congr 1
    rw [Nat.add_zero, Nat.mod_eq_of_lt hfr]
  refine ⟨?_, ?_, ⟨hcap, ?_, ?_, ?_, ?_, ?_⟩, rfl, rfl, rfl⟩
  · rw [hheads]
    rfl
  · rw [hheads]
    unfold RQtoList
    dsimp only
    simp only [List.tail_cons]
    apply List.map_congr_left
    intro k hk
    have hidx : ((q.front + 1) % q.capacity + k) % q.capacity =
        (q.front + (k + 1)) % q.capacity := by
      rw [Nat.mod_add_mod]
      congr 1
      omega
    rw [hidx]
  · show q.count - 1 ≤ q.capacity
    omega
  · show (q.front + 1) % q.capacity < q.capacity
    exact Nat.mod_lt _ hcap
  · show q.data.length = q.capacity
    exact hdata
  · show 0 ≤ q.rear + 1
    exact hrear
  · show ((q.rear + 1) % (q.capacity : Int)).toNat =
      ((q.front + 1) % q.capacity + (q.count - 1)) % q.capacity
    rw [hslot, Nat.mod_add_mod]
    congr 1
    omega

theorem applyHeapOp_ordered (ids : Int → Int) (mh : EventMinHeap)
    (op : HeapOp) (hord : heapOrdered ids mh.heapArray) :
    heapOrdered ids (applyHeapOp ids mh op).heapArray := by
  cases op with
  | push e =>
    rcases Nat.lt_or_ge mh.heapArray.length mh.capacity with hlt | hge
    · exact (eventHeap_push_spec ids mh e hlt hord).2.1
    · show heapOrdered ids (eventHeap_push ids mh e).heapArray
      rw [eventHeap_push_full ids mh e hge]
      exact hord
  | pop => exact pop_ordered ids mh hord

theorem runHeapOps_ordered (ids : Int → Int) (cap : Nat) (ops : List HeapOp) :
    heapOrdered ids (runHeapOps ids cap ops).heapArray := by
  unfold runHeapOps
  have hgen : ∀ (mh : EventMinHeap), heapOrdered ids mh.heapArray →
      heapOrdered ids (ops.foldl (applyHeapOp ids) mh).heapArray := by
    induction ops with
    | nil => intro mh h; exact h
    | cons op rest ih =>
      intro mh h
      exact ih _ (applyHeapOp_ordered ids mh op h)
  exact hgen _ (heapOrdered_nil ids)

theorem getE_zero_headD (l : List Event) (hne : l ≠ []) :
    getE l 0 = l.headD ev0 := by
  cases l with
  | nil => exact absurd rfl hne
  | cons a t => rfl

theorem pop_min_spec (ids : Int → Int) (mh : EventMinHeap)
    (hne : mh.heapArray ≠ []) (hord : heapOrdered ids mh.heapArray) :
    (eventHeap_pop ids mh).1 ∈ mh.heapArray ∧
      (∀ x ∈ mh.heapArray, specEventLE ids (eventHeap_pop ids mh).1 x) ∧
      (eventHeap_pop ids mh).2.heapArray.Perm
        (mh.heapArray.erase (eventHeap_pop ids mh).1) := by
  have hlen0 : mh.heapArray.length ≠ 0 :=
    fun h => hne (List.eq_nil_of_length_eq_zero h)
  have htop := (pop_top ids mh hlen0).1
  refine ⟨?_, ?_, ?_⟩
  · rw [htop, getE_zero_headD _ hne]
    cases hl : mh.heapArray with
    | nil => exact absurd hl hne
    | cons a t => simp
  · intro x hx
    rw [List.mem_iff_getElem] at hx
    obtain ⟨i, hi, hix⟩ := hx
    have := heapOrdered_root_min hord i hi
    rw [htop, ← hix, ← getE_eq_getElem hi, ← cmp_le_iff]
    exact this
  · have hperm := pop_tail_perm ids mh hne
    cases hl : mh.heapArray with
    | nil => exact absurd hl hne
    | cons a t =>
      rw [hl] at hperm htop
      have hha : getE (a :: t) 0 = a := rfl
      rw [htop, hha, List.erase_cons_head]
      exact hperm

/-- C2: after any sequence of pushes and pops starting from a fresh heap,
a pop on a nonempty heap returns an element of the queue that is least under
the specified strict total order (time, then kind with
ARRIVAL < CPU_COMPLETE < CPU_TIMEOUT, then external id), and exactly that
element is removed. -/
theorem claim_C2_pop_min (ids : Int → Int) (cap : Nat) (ops : List HeapOp)
    (hne : (runHeapOps ids cap ops).heapArray ≠ []) :
    (eventHeap_pop ids (runHeapOps ids cap ops)).1 ∈
        (runHeapOps ids cap ops).heapArray ∧
      (∀ x ∈ (runHeapOps ids cap ops).heapArray,
        specEventLE ids (eventHeap_pop ids (runHeapOps ids cap ops)).1 x) ∧
      (eventHeap_pop ids (runHeapOps ids cap ops)).2.heapArray.Perm
        ((runHeapOps ids cap ops).heapArray.erase
          (eventHeap_pop ids (runHeapOps ids cap ops)).1) :=
  pop_min_spec ids (runHeapOps ids cap ops) hne
    (runHeapOps_ordered ids cap ops)

/-- Witness for C2 at a concrete operation sequence. -/
theorem claim_C2_pop_min_witness :
    (eventHeap_pop (fun z => z) (runHeapOps (fun z => z) 8
        [HeapOp.push ⟨5, EventType.EVT_ARRIVE, 0⟩,
         HeapOp.push ⟨3, EventType.EVT_CPU_COMPLETE, 1⟩,
         HeapOp.pop,
         HeapOp.push ⟨3, EventType.EVT_ARRIVE, 2⟩,
         HeapOp.push ⟨7, EventType.EVT_CPU_TIMEOUT, 4⟩])).1 ∈
        (runHeapOps (fun z => z) 8
        [HeapOp.push ⟨5, EventType.EVT_ARRIVE, 0⟩,
         HeapOp.push ⟨3, EventType.EVT_CPU_COMPLETE, 1⟩,
         HeapOp.pop,
         HeapOp.push ⟨3, EventType.EVT_ARRIVE, 2⟩,
         HeapOp.push ⟨7, EventType.EVT_CPU_TIMEOUT, 4⟩]).heapArray ∧
      (∀ x ∈ (runHeapOps (fun z => z) 8
        [HeapOp.push ⟨5, EventType.EVT_ARRIVE, 0⟩,
         HeapOp.push ⟨3, EventType.EVT_CPU_COMPLETE, 1⟩,
         HeapOp.pop,
         HeapOp.push ⟨3, EventType.EVT_ARRIVE, 2⟩,
         HeapOp.push ⟨7, EventType.EVT_CPU_TIMEOUT, 4⟩]).heapArray,
        specEventLE (fun z => z)
          (eventHeap_pop (fun z => z) (runHeapOps (fun z => z) 8
        [HeapOp.push ⟨5, EventType.EVT_ARRIVE, 0⟩,
         HeapOp.push ⟨3, EventType.EVT_CPU_COMPLETE, 1⟩,
         HeapOp.pop,
         HeapOp.push ⟨3, EventType.EVT_ARRIVE, 2⟩,
         HeapOp.push ⟨7, EventType.EVT_CPU_TIMEOUT, 4⟩])).1 x) ∧
      (eventHeap_pop (fun z => z) (runHeapOps (fun z => z) 8
        [HeapOp.push ⟨5, EventType.EVT_ARRIVE, 0⟩,
         HeapOp.push ⟨3, EventType.EVT_CPU_COMPLETE, 1⟩,
         HeapOp.pop,
         HeapOp.push ⟨3, EventType.EVT_ARRIVE, 2⟩,
         HeapOp.push ⟨7, EventType.EVT_CPU_TIMEOUT, 4⟩])).2.heapArray.Perm
        ((runHeapOps (fun z => z) 8
        [HeapOp.push ⟨5, EventType.EVT_ARRIVE, 0⟩,
         HeapOp.push ⟨3, EventType.EVT_CPU_COMPLETE, 1⟩,
         HeapOp.pop,
         HeapOp.push ⟨3, EventType.EVT_ARRIVE, 2⟩,
         HeapOp.push ⟨7, EventType.EVT_CPU_TIMEOUT, 4⟩]).heapArray.erase
          (eventHeap_pop (fun z => z) (runHeapOps (fun z => z) 8
        [HeapOp.push ⟨5, EventType.EVT_ARRIVE, 0⟩,
         HeapOp.push ⟨3, EventType.EVT_CPU_COMPLETE, 1⟩,
         HeapOp.pop,
         HeapOp.push ⟨3, EventType.EVT_ARRIVE, 2⟩,
         HeapOp.push ⟨7, EventType.EVT_CPU_TIMEOUT, 4⟩])).1) :=
  claim_C2_pop_min (fun z => z) 8
    [HeapOp.push ⟨5, EventType.EVT_ARRIVE, 0⟩,
     HeapOp.push ⟨3, EventType.EVT_CPU_COMPLETE, 1⟩,
     HeapOp.pop,
     HeapOp.push ⟨3, EventType.EVT_ARRIVE, 2⟩,
     HeapOp.push ⟨7, EventType.EVT_CPU_TIMEOUT, 4⟩] (by decide)

theorem length_setP (ps : List PCB) (p : Int) (x : PCB) :
    (setP ps p x).length = ps.length := by
  simp [setP]

theorem getP_setP_self {ps : List PCB} {p : Int} (x : PCB)
    (h : p.toNat < ps.length) : getP (setP ps p x) p = x := by
  simp [getP, setP, List.getD_eq_getElem?_getD, List.getElem?_set_self h]

theorem getP_setP_ne {ps : List PCB} {p p2 : Int} (x : PCB)
    (h : p.toNat ≠ p2.toNat) : getP (setP ps p x) p2 = getP ps p2 := by
  simp [getP, setP, List.getD_eq_getElem?_getD, List.getElem?_set_ne h]

theorem setP_oob {ps : List PCB} {p : Int} (x : PCB)
    (h : ps.length ≤ p.toNat) : setP ps p x = ps :=
  List.set_eq_of_length_le h

theorem mem_setP {ps : List PCB} {p : Int} {x y : PCB}
    (h : y ∈ setP ps p x) : y ∈ ps ∨ y = x :=
  List.mem_or_eq_of_mem_set h

theorem getP_mem {ps : List PCB} (p : Int) :
    getP ps p ∈ ps ∨ getP ps p = pcb0 := by
  unfold getP
  rcases Nat.lt_or_ge p.toNat ps.length with h | h
  · left
    rw [List.getD_eq_getElem _ _ h]
    exact List.getElem_mem h
  · right
    rw [List.getD_eq_getElem?_getD, List.getElem?_eq_none h]
    rfl

theorem slice_eq_min (r q : Int) : (if r > q then q else r) = min r q := by
  rw [min_def]
  split_ifs <;> omega

/-- Unfolded form of `schedule_next` when the CPU is free and the ready
queue is nonempty (the dispatch path). -/
theorem schedule_next_eq (q : Int) (st : SimState)
    (hrun : st.running_pid < 0) (hne : st.readyQ.count ≠ 0) :
    schedule_next q st =
      pushEvent
        { st with
          procs := setP st.procs (RQ_dequeue st.readyQ).1
            { getP st.procs (RQ_dequeue st.readyQ).1 with
              wait_time := (getP st.procs (RQ_dequeue st.readyQ).1).wait_time +
                (st.current_time -
                  (getP st.procs (RQ_dequeue st.readyQ).1).last_ready_time)
              start_run_time := st.current_time }
          readyQ := (RQ_dequeue st.readyQ).2
          cpu_idle_time := if st.current_time > st.cpu_busy_until
            then st.cpu_idle_time + (st.current_time - st.cpu_busy_until)
            else st.cpu_idle_time
          running_pid := (RQ_dequeue st.readyQ).1
          running_end_time := st.current_time +
            (if (getP st.procs (RQ_dequeue st.readyQ).1).remaining_cpu > q
              then q
              else (getP st.procs (RQ_dequeue st.readyQ).1).remaining_cpu)
          cpu_busy_until := st.current_time +
            (if (getP st.procs (RQ_dequeue st.readyQ).1).remaining_cpu > q
              then q
              else (getP st.procs (RQ_dequeue st.readyQ).1).remaining_cpu)
          dispatch_log := st.dispatch_log ++
            [⟨(RQ_dequeue st.readyQ).1, st.current_time,
              st.current_time +
                (if (getP st.procs (RQ_dequeue st.readyQ).1).remaining_cpu > q
                  then q
                  else (getP st.procs (RQ_dequeue st.readyQ).1).remaining_cpu),
              st.current_time -
                (getP st.procs (RQ_dequeue st.readyQ).1).last_ready_time⟩] }
        ⟨st.current_time +
            (if (getP st.procs (RQ_dequeue st.readyQ).1).remaining_cpu > q
              then q
              else (getP st.procs (RQ_dequeue st.readyQ).1).remaining_cpu),
          (if (if (getP st.procs (RQ_dequeue st.readyQ).1).remaining_cpu > q
                then q
                else (getP st.procs (RQ_dequeue st.readyQ).1).remaining_cpu) =
              (getP st.procs (RQ_dequeue st.readyQ).1).remaining_cpu
            then EventType.EVT_CPU_COMPLETE
            else EventType.EVT_CPU_TIMEOUT),
          (RQ_dequeue st.readyQ).1⟩ := by
  unfold schedule_next
  rw [if_neg (not_le.mpr hrun), if_pos hne]

/-- `schedule_next` does nothing when the CPU is busy. -/
theorem schedule_next_busy (q : Int) (st : SimState)
    (hrun : 0 ≤ st.running_pid) : schedule_next q st = st := by
  unfold schedule_next
  rw [if_pos hrun]

/-- `schedule_next` does nothing when the ready queue is empty. -/
theorem schedule_next_idle (q : Int) (st : SimState)
    (hrun : ¬ 0 ≤ st.running_pid) (hempty : ¬ st.readyQ.count ≠ 0) :
    schedule_next q st = st := by
  unfold schedule_next
  rw [if_neg hrun, if_neg hempty]

/-- C1: when the dispatcher is invoked with no process running and a
nonempty ready queue, it dequeues the head process `h`, adds
`current_time − last_ready_time` to the cumulative `wait_time` of `h`, sets
its `start_run_time` to `current_time`, and generates exactly one event at
`current_time + min(remaining_cpu, quantum)`: CPU_COMPLETE when the slice
equals the remaining burst, CPU_TIMEOUT otherwise. -/
theorem claim_C1_dispatch (q : Int) (st : SimState)
    (hrun : st.running_pid < 0) (hne : st.readyQ.count ≠ 0)
    (hwf : RQwf st.readyQ)
    (hpid0 : 0 ≤ (RQtoList st.readyQ).headD 0)
    (hpidlen : ((RQtoList st.readyQ).headD 0).toNat < st.procs.length) :
    RQtoList (schedule_next q st).readyQ = (RQtoList st.readyQ).tail ∧
      (getP (schedule_next q st).procs ((RQtoList st.readyQ).headD 0)).wait_time
        = (getP st.procs ((RQtoList st.readyQ).headD 0)).wait_time +
          (st.current_time -
            (getP st.procs ((RQtoList st.readyQ).headD 0)).last_ready_time) ∧
      (getP (schedule_next q st).procs
          ((RQtoList st.readyQ).headD 0)).start_run_time = st.current_time ∧
      (schedule_next q st).pushed_log = st.pushed_log ++
        [⟨st.current_time +
            min (getP st.procs ((RQtoList st.readyQ).headD 0)).remaining_cpu q,
          (if min (getP st.procs ((RQtoList st.readyQ).headD 0)).remaining_cpu q
              = (getP st.procs ((RQtoList st.readyQ).headD 0)).remaining_cpu
            then EventType.EVT_CPU_COMPLETE
            else EventType.EVT_CPU_TIMEOUT),
          (RQtoList st.readyQ).headD 0⟩] := by
  obtain ⟨hdq1, hdq2, hdqwf, hdqc, hdqcap, hdqflow⟩ :=
    RQ_dequeue_spec st.readyQ hwf hne
  rw [schedule_next_eq q st hrun hne]
  unfold pushEvent
  refine ⟨?_, ?_, ?_, ?_⟩
  · show RQtoList (RQ_dequeue st.readyQ).2 = (RQtoList st.readyQ).tail
    exact hdq2
  · show (getP (setP st.procs (RQ_dequeue st.readyQ).1 _)
        ((RQtoList st.readyQ).headD 0)).wait_time = _
    rw [hdq1, getP_setP_self _ hpidlen]
  · show (getP (setP st.procs (RQ_dequeue st.readyQ).1 _)
        ((RQtoList st.readyQ).headD 0)).start_run_time = _
    rw [hdq1, getP_setP_self _ hpidlen]
  · show st.pushed_log ++ [_] = st.pushed_log ++ [_]
    rw [hdq1, slice_eq_min]

/-- Witness for C1 on a concrete dispatcher state. -/
theorem claim_C1_dispatch_witness :
    RQtoList (schedule_next 4 stC1).readyQ = (RQtoList stC1.readyQ).tail ∧
      (getP (schedule_next 4 stC1).procs
          ((RQtoList stC1.readyQ).headD 0)).wait_time
        = (getP stC1.procs ((RQtoList stC1.readyQ).headD 0)).wait_time +
          (stC1.current_time -
            (getP stC1.procs ((RQtoList stC1.readyQ).headD 0)).last_ready_time) ∧
      (getP (schedule_next 4 stC1).procs
          ((RQtoList stC1.readyQ).headD 0)).start_run_time = stC1.current_time ∧
      (schedule_next 4 stC1).pushed_log = stC1.pushed_log ++
        [⟨stC1.current_time +
            min (getP stC1.procs ((RQtoList stC1.readyQ).headD 0)).remaining_cpu 4,
          (if min (getP stC1.procs
                ((RQtoList stC1.readyQ).headD 0)).remaining_cpu 4
              = (getP stC1.procs ((RQtoList stC1.readyQ).headD 0)).remaining_cpu
            then EventType.EVT_CPU_COMPLETE
            else EventType.EVT_CPU_TIMEOUT),
          (RQtoList stC1.readyQ).headD 0⟩] :=
  claim_C1_dispatch 4 stC1 (by decide) (by decide)
    (by unfold RQwf; decide) (by decide) (by decide)

/-- Once the loop guard is false, further fuel changes nothing. -/
theorem simLoop_stable (q : Int) (st : SimState)
    (h : simGuard st = false) : ∀ k : Nat, simLoop q k st = st := by
  intro k
  cases k with
  | zero => rfl
  | succ k =>
    unfold simLoop
    rw [h]
    rfl

/-- If the loop has terminated after `n` iterations, additional fuel leaves
the result unchanged: `simLoop q n st` is the final state of the run. -/
theorem simLoop_exact (q : Int) :
    ∀ (n : Nat) (st : SimState), simGuard (simLoop q n st) = false →
      ∀ k : Nat, simLoop q (n + k) st = simLoop q n st := by
  intro n
  induction n with
  | zero =>
    intro st h k
    rw [Nat.zero_add]
    exact simLoop_stable q st h k
  | succ n ih =>
    intro st h k
    have hform : n + 1 + k = (n + k) + 1 := by omega
    rw [hform]
    unfold simLoop at h ⊢
    by_cases hg : simGuard st = true
    · rw [hg] at h ⊢
      simp only [if_true] at h ⊢
      exact ih (simStep q st) h k
    · have hg2 : simGuard st = false := by
        cases hsg : simGuard st
        · rfl
        · exact absurd hsg hg
      rw [hg2]
      rfl

/-- Counterexample for C6: on the two-process Round-Robin (quantum 3)
scenario, the code does NOT produce the claimed interleaving ending with
P1 running [10,12): after the slice [10,13) P1 still has 1 unit left and
runs again in [13,14). -/
theorem claim_C6_counterexample :
    ¬ ((simLoop 3 30 (initState psC6)).dispatch_log.map
        (fun d => (d.pid, d.start, d.stop)) =
      [((0 : Int), (0 : Int), (3 : Int)), (1, 3, 6), (0, 6, 9), (1, 9, 10),
        (0, 10, 12)]) := by
  decide

/-- C6 (amended): the simulation of P1 (arrival 0, burst 10) and P2
(arrival 1, burst 4) under Round Robin with quantum 3 produces exactly the
interleaving P1 [0,3), P2 [3,6), P1 [6,9), P2 [9,10) (P2 finishes at 10),
P1 [10,13), P1 [13,14) (P1 finishes at 14); the loop has terminated by
fuel 30 and more fuel changes nothing. -/
theorem claim_C6_amended :
    (simLoop 3 30 (initState psC6)).dispatch_log.map
        (fun d => (d.pid, d.start, d.stop)) =
      [((0 : Int), (0 : Int), (3 : Int)), (1, 3, 6), (0, 6, 9), (1, 9, 10),
        (0, 10, 13), (0, 13, 14)] ∧
      (simLoop 3 30 (initState psC6)).records.map
        (fun r => (r.pidIdx, r.finish)) = [((1 : Int), (10 : Int)), (0, 14)] ∧
      simGuard (simLoop 3 30 (initState psC6)) = false ∧
      (∀ k : Nat, simLoop 3 (30 + k) (initState psC6) =
        simLoop 3 30 (initState psC6)) := by
  refine ⟨by decide, by decide, by decide, ?_⟩
  exact simLoop_exact 3 30 (initState psC6) (by decide)

/-- C7: the single process arriving at 5 with burst 2 yields idle time 5,
makespan 7 and utilization 100·2/7 under the FCFS run (quantum 10⁹); and in
general the reported utilization is `100 (makespan − idle)/makespan`, with 0
reported when the makespan is 0. -/
theorem claim_C7_idle_utilization :
    ((simLoop 1000000000 10 (initState psC7)).cpu_idle_time = 5 ∧
      simulation_end (simLoop 1000000000 10 (initState psC7)) = 7 ∧
      (aggregateOf (simLoop 1000000000 10 (initState psC7))).utilization =
        100 * (2 : ℚ) / 7 ∧
      simGuard (simLoop 1000000000 10 (initState psC7)) = false ∧
      (∀ k : Nat, simLoop 1000000000 (10 + k) (initState psC7) =
        simLoop 1000000000 10 (initState psC7))) ∧
    ∀ st : SimState,
      (0 < simulation_end st →
        (aggregateOf st).utilization =
          100 * ((simulation_end st - st.cpu_idle_time : Int) : ℚ) /
            ((simulation_end st : Int) : ℚ)) ∧
      (simulation_end st = 0 → (aggregateOf st).utilization = 0) := by
  constructor
  · refine ⟨by decide, by decide, ?_, by decide, ?_⟩
    · have he : simulation_end (simLoop 1000000000 10 (initState psC7)) = 7 :=
        by decide
      have hi : (simLoop 1000000000 10 (initState psC7)).cpu_idle_time = 5 :=
        by decide
      show (if simulation_end (simLoop 1000000000 10 (initState psC7)) > 0
        then 100 * ((simulation_end (simLoop 1000000000 10 (initState psC7)) -
            (simLoop 1000000000 10 (initState psC7)).cpu_idle_time : Int) : ℚ) /
          ((simulation_end (simLoop 1000000000 10 (initState psC7)) : Int) : ℚ)
        else 0) = 100 * (2 : ℚ) / 7
      rw [he, hi]
      norm_num
    · exact simLoop_exact 1000000000 10 (initState psC7) (by decide)
  · intro st
    constructor
    · intro hpos
      show (if simulation_end st > 0
        then 100 * ((simulation_end st - st.cpu_idle_time : Int) : ℚ) /
          ((simulation_end st : Int) : ℚ)
        else 0) = _
      rw [if_pos hpos]
    · intro hzero
      show (if simulation_end st > 0
        then 100 * ((simulation_end st - st.cpu_idle_time : Int) : ℚ) /
          ((simulation_end st : Int) : ℚ)
        else 0) = 0
      rw [if_neg (by omega)]

/-- Witness for C7 instantiating the general utilization formula at the
final state of the concrete idle-time run. -/
theorem claim_C7_idle_utilization_witness :
    (aggregateOf (simLoop 1000000000 10 (initState psC7))).utilization =
      100 * ((simulation_end (simLoop 1000000000 10 (initState psC7)) -
          (simLoop 1000000000 10 (initState psC7)).cpu_idle_time : Int) : ℚ) /
        ((simulation_end (simLoop 1000000000 10 (initState psC7)) : Int) : ℚ) :=
  (claim_C7_idle_utilization.2 (simLoop 1000000000 10 (initState psC7))).1
    (by decide)

/-- Counterexample for C4: on the trailing-IO input `5 100 -1` the process
finishes at time 5, yet its recorded `total_cpu_io` is 105, so
`turnaround_time = finish − arrival = 5 < 105` and the claimed inequality
fails. -/
theorem claim_C4_counterexample :
    (getP (simLoop 1000000000 10 (initState psCX)).procs 0).done = true ∧
      ¬ ((getP (simLoop 1000000000 10 (initState psCX)).procs 0).finish_time -
          (getP (simLoop 1000000000 10 (initState psCX)).procs 0).arrival_time ≥
        (getP (simLoop 1000000000 10 (initState psCX)).procs 0).total_cpu_io) := by
  decide

/-- Counterexample for C5: on the same trailing-IO input the printed
per-process wait (`tat − total_cpu_io = −100`) differs from the sum of the
dispatch-time deltas (0). -/
theorem claim_C5_counterexample :
    ¬ (∀ r ∈ (simLoop 1000000000 10 (initState psCX)).records,
      r.wtime = sumDeltas (simLoop 1000000000 10 (initState psCX)).dispatch_log
        r.pidIdx) := by
  decide

theorem qbound_getP {q : Int} {ps : List PCB} (hb : QBound q ps)
    (hq : 0 ≤ q) (pid : Int) :
    (getP ps pid).remaining_cpu ≤ q ∧ ∀ b ∈ (getP ps pid).cpu_bursts, b ≤ q := by
  rcases @getP_mem ps pid with hmem | hdef
  · exact hb _ hmem
  · rw [hdef]
    refine ⟨hq, ?_⟩
    intro b hb2
    simp [pcb0] at hb2

theorem qbound_setP {q : Int} {ps : List PCB} {pid : Int} {x : PCB}
    (hb : QBound q ps) (hx : x.remaining_cpu ≤ q ∧ ∀ b ∈ x.cpu_bursts, b ≤ q) :
    QBound q (setP ps pid x) := by
  intro p hp
  rcases mem_setP hp with hmem | rfl
  · exact hb p hmem
  · exact hx

theorem getD_le_of_all {l : List Int} {q : Int} (h : ∀ b ∈ l, b ≤ q)
    (hq : 0 ≤ q) (i : Nat) : l.getD i 0 ≤ q := by
  rcases Nat.lt_or_ge i l.length with hil | hil
  · rw [List.getD_eq_getElem _ _ hil]
    exact h _ (List.getElem_mem hil)
  · rw [List.getD_eq_getElem?_getD, List.getElem?_eq_none hil]
    exact hq

theorem InvC3_pushEvent {q : Int} {st : SimState} {e : Event}
    (h : InvC3 q st) (he : e.type ≠ EventType.EVT_CPU_TIMEOUT) :
    InvC3 q (pushEvent st e) := by
  obtain ⟨hb, hl⟩ := h
  refine ⟨hb, ?_⟩
  intro x hx
  rcases List.mem_append.mp hx with hx1 | hx2
  · exact hl x hx1
  · rw [List.mem_singleton.mp hx2]
    exact he

theorem InvC3_enqueueProc {q : Int} {st : SimState} {pid : Int}
    (hq : 0 ≤ q) (h : InvC3 q st) : InvC3 q (enqueueProc st pid) := by
  obtain ⟨hb, hl⟩ := h
  unfold enqueueProc
  split_ifs with hfull
  · exact ⟨hb, hl⟩
  · refine ⟨?_, hl⟩
    exact qbound_setP hb (qbound_getP hb hq pid)

theorem InvC3_schedule_next {q : Int} {st : SimState}
    (hq : 0 ≤ q) (h : InvC3 q st) : InvC3 q (schedule_next q st) := by
  obtain ⟨hb, hl⟩ := h
  by_cases hrun : 0 ≤ st.running_pid
  · rw [schedule_next_busy q st hrun]
    exact ⟨hb, hl⟩
  · by_cases hne : st.readyQ.count ≠ 0
    · rw [schedule_next_eq q st (by omega) hne]
      have hpid := qbound_getP hb hq (RQ_dequeue st.readyQ).1
      apply InvC3_pushEvent
      · constructor
        · exact qbound_setP hb ⟨hpid.1, hpid.2⟩
        · exact hl
      · have hslice : (if (getP st.procs (RQ_dequeue st.readyQ).1).remaining_cpu > q
            then q
            else (getP st.procs (RQ_dequeue st.readyQ).1).remaining_cpu) =
            (getP st.procs (RQ_dequeue st.readyQ).1).remaining_cpu := by
          rw [if_neg (by omega)]
        rw [hslice]
        simp
    · rw [schedule_next_idle q st hrun hne]
      exact ⟨hb, hl⟩

theorem InvC3_burstAccounting {q : Int} {st : SimState} {pid : Int}
    (hq : 0 ≤ q) (h : InvC3 q st) : InvC3 q (burstAccounting st pid) := by
  obtain ⟨hb, hl⟩ := h
  have hpid := qbound_getP hb hq pid
  refine ⟨?_, hl⟩
  apply qbound_setP hb
  constructor
  · show (if (getP st.procs pid).remaining_cpu -
        (if st.current_time - (getP st.procs pid).start_run_time < 0 then 0
          else st.current_time - (getP st.procs pid).start_run_time) < 0
      then 0
      else (getP st.procs pid).remaining_cpu -
        (if st.current_time - (getP st.procs pid).start_run_time < 0 then 0
          else st.current_time - (getP st.procs pid).start_run_time)) ≤ q
    have h1 := hpid.1
    split_ifs <;> omega
  · exact hpid.2

theorem InvC3_finishOrIo {q : Int} {st : SimState} {pid : Int}
    (hq : 0 ≤ q) (h : InvC3 q st) : InvC3 q (finishOrIo st pid) := by
  obtain ⟨hb, hl⟩ := h
  have hpid := qbound_getP hb hq pid
  simp only [finishOrIo]
  split_ifs with hfin
  · refine ⟨?_, hl⟩
    exact qbound_setP hb ⟨hpid.1, hpid.2⟩
  · have hstep : InvC3 q (pushEvent st
        ⟨st.current_time + (getP st.procs pid).io_bursts.getD
          ((getP st.procs pid).current_burst + 1 - 1) 0,
          EventType.EVT_ARRIVE, pid⟩) :=
      InvC3_pushEvent ⟨hb, hl⟩ (by simp)
    obtain ⟨hb2, hl2⟩ := hstep
    refine ⟨?_, hl2⟩
    apply qbound_setP hb2
    constructor
    · show (getP st.procs pid).cpu_bursts.getD
        ((getP st.procs pid).current_burst + 1) 0 ≤ q
      exact getD_le_of_all hpid.2 hq _
    · exact hpid.2

theorem InvC3_handleArrive {q : Int} {st : SimState} {pid : Int}
    (hq : 0 ≤ q) (h : InvC3 q st) : InvC3 q (handleArrive q st pid) := by
  simp only [handleArrive]
  split_ifs with hrun
  · exact InvC3_schedule_next hq (InvC3_enqueueProc hq h)
  · exact InvC3_enqueueProc hq h

theorem InvC3_handleComplete {q : Int} {st : SimState} {pid : Int}
    (hq : 0 ≤ q) (h : InvC3 q st) : InvC3 q (handleComplete q st pid) := by
  unfold handleComplete
  exact InvC3_schedule_next hq
    (InvC3_finishOrIo hq (InvC3_burstAccounting hq h))

theorem InvC3_handleTimeout {q : Int} {st : SimState} {pid : Int}
    (hq : 0 ≤ q) (h : InvC3 q st) : InvC3 q (handleTimeout q st pid) := by
  simp only [handleTimeout]
  split_ifs with hrem
  · exact InvC3_schedule_next hq
      (InvC3_enqueueProc hq (InvC3_burstAccounting hq h))
  · exact InvC3_schedule_next hq
      (InvC3_finishOrIo hq (InvC3_burstAccounting hq h))

theorem InvC3_popState {q : Int} {st : SimState}
    (h : InvC3 q st) : InvC3 q (popState st) := h

theorem InvC3_simStep {q : Int} {st : SimState}
    (hq : 0 ≤ q) (h : InvC3 q st) : InvC3 q (simStep q st) := by
  unfold simStep
  cases hty : (eventHeap_pop (idsOf st.procs) st.eventQ).1.type with
  | EVT_ARRIVE => exact InvC3_handleArrive hq (InvC3_popState h)
  | EVT_CPU_COMPLETE => exact InvC3_handleComplete hq (InvC3_popState h)
  | EVT_CPU_TIMEOUT => exact InvC3_handleTimeout hq (InvC3_popState h)

theorem InvC3_initState {q : Int} {ps : List PCB}
    (hb : QBound q ps) : InvC3 q (initState ps) := by
  unfold initState
  have hgen : ∀ (es : List Event) (st : SimState), InvC3 q st →
      (∀ e ∈ es, e.type ≠ EventType.EVT_CPU_TIMEOUT) →
      InvC3 q (List.foldl pushEvent st es) := by
    intro es
    induction es with
    | nil => intro st h1 h2; exact h1
    | cons e rest ih =>
      intro st h1 h2
      exact ih _ (InvC3_pushEvent h1 (h2 e (by simp)))
        (fun x hx => h2 x (by simp [hx]))
  apply hgen
  · exact ⟨hb, fun e he => absurd he (List.not_mem_nil e)⟩
  · intro e he
    unfold initEvents at he
    rw [List.mem_map] at he
    obtain ⟨i, hi, rfl⟩ := he
    simp

theorem InvC3_simLoop {q : Int} {ps : List PCB}
    (hq : 0 ≤ q) (hb : QBound q ps) :
    ∀ k : Nat, InvC3 q (simLoop q k (initState ps)) := by
  have hstep : ∀ (k : Nat) (st : SimState), InvC3 q st →
      InvC3 q (simLoop q k st) := by
    intro k
    induction k with
    | zero => intro st h; exact h
    | succ k ih =>
      intro st h
      unfold simLoop
      split_ifs with hg
      · exact ih _ (InvC3_simStep hq h)
      · exact h
  intro k
  exact hstep k _ (InvC3_initState hb)

/-- C3: if the quantum bounds every CPU burst (and the initial remaining
burst) of the input, then no CPU_TIMEOUT event is ever generated during the
run — every event the engine creates, in particular at every dispatch, is an
ARRIVAL or CPU_COMPLETE event. -/
theorem claim_C3_no_timeout (q : Int) (ps : List PCB)
    (hq : 0 ≤ q) (hb : QBound q ps) :
    ∀ k : Nat, ∀ e ∈ (simLoop q k (initState ps)).pushed_log,
      e.type ≠ EventType.EVT_CPU_TIMEOUT :=
  fun k => (InvC3_simLoop hq hb k).2

/-- Witness for C3: the two-process scenario run under quantum 10 (at least
every burst) generates no CPU_TIMEOUT in 30 steps. -/
theorem claim_C3_no_timeout_witness :
    ((simLoop 10 30 (initState psC6)).pushed_log.headD ev0).type ≠
      EventType.EVT_CPU_TIMEOUT :=
  claim_C3_no_timeout 10 psC6 (by decide)
    (by unfold QBound psC6 mkPCB; decide) 30 _ (by decide)

theorem compareEvents_congr {ids1 ids2 : Int → Int}
    (h : ∀ x : Int, ids1 x = ids2 x) (a b : Event) :
    compareEvents ids1 a b = compareEvents ids2 a b := by
  unfold compareEvents
  rw [h a.pid, h b.pid]

theorem heapOrdered_congr {ids1 ids2 : Int → Int}
    (h : ∀ x : Int, ids1 x = ids2 x) {l : List Event}
    (ho : heapOrdered ids1 l) : heapOrdered ids2 l := by
  intro i hi0 hilen
  rw [← compareEvents_congr h]
  exact ho i hi0 hilen

theorem getP_eq_of_toNat_eq {ps : List PCB} {p1 p2 : Int}
    (h : p1.toNat = p2.toNat) : getP ps p1 = getP ps p2 := by
  unfold getP
  rw [h]

theorem idsOf_setP {ps : List PCB} {pid : Int} {x : PCB}
    (hid : x.id = (getP ps pid).id) :
    ∀ z : Int, idsOf (setP ps pid x) z = idsOf ps z := by
  intro z
  unfold idsOf
  rcases Nat.lt_or_ge pid.toNat ps.length with hlt | hge
  · by_cases hz : pid.toNat = z.toNat
    · have hgz : getP (setP ps pid x) z = x := by
        unfold getP setP
        rw [List.getD_eq_getElem?_getD, ← hz, List.getElem?_set_self hlt]
        rfl
      rw [hgz, hid, getP_eq_of_toNat_eq hz]
    · rw [getP_setP_ne x hz]
  · rw [setP_oob x hge]

theorem nonneg_getP {ps : List PCB} (h : NonNegState ps) (pid : Int) :
    0 ≤ (getP ps pid).remaining_cpu ∧
      (∀ b ∈ (getP ps pid).cpu_bursts, 0 ≤ b) ∧
      (∀ b ∈ (getP ps pid).io_bursts, 0 ≤ b) := by
  rcases @getP_mem ps pid with hmem | hdef
  · exact h _ hmem
  · rw [hdef]
    refine ⟨le_refl 0, ?_, ?_⟩ <;> intro b hb <;> simp [pcb0] at hb

theorem nonneg_setP {ps : List PCB} {pid : Int} {x : PCB}
    (h : NonNegState ps)
    (hx : 0 ≤ x.remaining_cpu ∧ (∀ b ∈ x.cpu_bursts, 0 ≤ b) ∧
      (∀ b ∈ x.io_bursts, 0 ≤ b)) :
    NonNegState (setP ps pid x) := by
  intro p hp
  rcases mem_setP hp with hmem | rfl
  · exact h p hmem
  · exact hx

theorem getD_nonneg {l : List Int} (h : ∀ b ∈ l, 0 ≤ b) (i : Nat) :
    0 ≤ l.getD i 0 := by
  rcases Nat.lt_or_ge i l.length with hil | hil
  · rw [List.getD_eq_getElem _ _ hil]
    exact h _ (List.getElem_mem hil)
  · rw [List.getD_eq_getElem?_getD, List.getElem?_eq_none hil]
    exact le_refl 0

theorem TimeInv_pushEvent {st : SimState} {e : Event}
    (h : TimeInv st) (he : st.current_time ≤ e.time) :
    TimeInv (pushEvent st e) := by
  obtain ⟨hnn, hord, htime, hct, hch, hpop⟩ := h
  rcases Nat.lt_or_ge st.eventQ.heapArray.length st.eventQ.capacity
      with hlt | hge
  · obtain ⟨hperm, hord2, hcap2, hflow2⟩ :=
      eventHeap_push_spec (idsOf st.procs) st.eventQ e hlt hord
    refine ⟨hnn, hord2, ?_, hct, hch, hpop⟩
    intro x hx
    have hx2 := hperm.mem_iff.mp hx
    rcases List.mem_cons.mp hx2 with rfl | hx3
    · exact he
    · exact htime x hx3
  · show TimeInv { st with
      eventQ := eventHeap_push (idsOf st.procs) st.eventQ e
      pushed_log := st.pushed_log ++ [e] }
    rw [eventHeap_push_full (idsOf st.procs) st.eventQ e hge]
    exact ⟨hnn, hord, htime, hct, hch, hpop⟩

theorem heapOrdered_setP {ps : List PCB} {pid : Int} {x : PCB}
    {l : List Event} (hid : x.id = (getP ps pid).id)
    (hord : heapOrdered (idsOf ps) l) :
    heapOrdered (idsOf (setP ps pid x)) l :=
  heapOrdered_congr (fun z => (idsOf_setP hid z).symm) hord

theorem chain_snoc {l : List Int} {x : Int}
    (hc : List.Chain' (· ≤ ·) l) (hx : ∀ y ∈ l, y ≤ x) :
    List.Chain' (· ≤ ·) (l ++ [x]) := by
  rw [List.chain'_append]
  refine ⟨hc, List.chain'_singleton x, ?_⟩
  intro a ha b hb
  have hb2 : x = b := by simpa using hb
  rw [← hb2]
  exact hx a (List.mem_of_mem_getLast? ha)

theorem TimeInv_enqueueProc {st : SimState} {pid : Int}
    (h : TimeInv st) : TimeInv (enqueueProc st pid) := by
  obtain ⟨hnn, hord, htime, hct, hch, hpop⟩ := h
  unfold enqueueProc
  split_ifs with hfull
  · exact ⟨hnn, hord, htime, hct, hch, hpop⟩
  · refine ⟨?_, ?_, htime, hct, hch, hpop⟩
    · apply nonneg_setP hnn
      have h2 := nonneg_getP hnn pid
      exact ⟨h2.1, h2.2.1, h2.2.2⟩
    · exact heapOrdered_setP rfl hord

theorem TimeInv_schedule_next {q : Int} {st : SimState}
    (hq : 0 ≤ q) (h : TimeInv st) : TimeInv (schedule_next q st) := by
  by_cases hrun : 0 ≤ st.running_pid
  · rw [schedule_next_busy _ _ hrun]
    exact h
  · by_cases hne : st.readyQ.count ≠ 0
    · rw [schedule_next_eq q st (by omega) hne]
      obtain ⟨hnn, hord, htime, hct, hch, hpop⟩ := h
      apply TimeInv_pushEvent
      · refine ⟨?_, ?_, htime, hct, hch, hpop⟩
        · apply nonneg_setP hnn
          have h2 := nonneg_getP hnn (RQ_dequeue st.readyQ).1
          exact ⟨h2.1, h2.2.1, h2.2.2⟩
        · exact heapOrdered_setP rfl hord
      · show st.current_time ≤ st.current_time + _
        have hrem := (nonneg_getP hnn (RQ_dequeue st.readyQ).1).1
        split_ifs <;> omega
    · rw [schedule_next_idle q st hrun hne]
      exact h

theorem TimeInv_burstAccounting {st : SimState} {pid : Int}
    (h : TimeInv st) : TimeInv (burstAccounting st pid) := by
  obtain ⟨hnn, hord, htime, hct, hch, hpop⟩ := h
  simp only [burstAccounting]
  refine ⟨?_, ?_, htime, hct, hch, hpop⟩
  · apply nonneg_setP hnn
    have h2 := nonneg_getP hnn pid
    refine ⟨?_, h2.2.1, h2.2.2⟩
    show (0 : Int) ≤ if _ < 0 then 0 else _
    split_ifs <;> omega
  · exact heapOrdered_setP rfl hord

theorem TimeInv_finishOrIo {st : SimState} {pid : Int}
    (h : TimeInv st) : TimeInv (finishOrIo st pid) := by
  simp only [finishOrIo]
  split_ifs with hfin
  · obtain ⟨hnn, hord, htime, hct, hch, hpop⟩ := h
    refine ⟨?_, ?_, htime, hct, hch, hpop⟩
    · apply nonneg_setP hnn
      have h2 := nonneg_getP hnn pid
      exact ⟨h2.1, h2.2.1, h2.2.2⟩
    · exact heapOrdered_setP rfl hord
  · have hio := (nonneg_getP h.1 pid).2.2
    have hst1 : TimeInv (pushEvent st
        ⟨st.current_time + (getP st.procs pid).io_bursts.getD
          ((getP st.procs pid).current_burst + 1 - 1) 0,
          EventType.EVT_ARRIVE, pid⟩) := by
      apply TimeInv_pushEvent h
      have := getD_nonneg hio ((getP st.procs pid).current_burst + 1 - 1)
      show st.current_time ≤ st.current_time +
        (getP st.procs pid).io_bursts.getD
          ((getP st.procs pid).current_burst + 1 - 1) 0
      omega
    obtain ⟨hnn, hord, htime, hct, hch, hpop⟩ := hst1
    refine ⟨?_, ?_, htime, hct, hch, hpop⟩
    · apply nonneg_setP hnn
      have h2 := nonneg_getP h.1 pid
      refine ⟨getD_nonneg h2.2.1 _, h2.2.1, h2.2.2⟩
    · exact heapOrdered_setP rfl hord

theorem TimeInv_popState {st : SimState}
    (hne : st.eventQ.heapArray ≠ []) (h : TimeInv st) :
    TimeInv (popState st) := by
  obtain ⟨hnn, hord, htime, hct, hch, hpop⟩ := h
  have hlen0 : st.eventQ.heapArray.length ≠ 0 :=
    fun h0 => hne (List.eq_nil_of_length_eq_zero h0)
  have htop := (pop_top (idsOf st.procs) st.eventQ hlen0).1
  have htopmem : (eventHeap_pop (idsOf st.procs) st.eventQ).1 ∈
      st.eventQ.heapArray := by
    rw [htop, getE_zero_headD _ hne]
    cases hl : st.eventQ.heapArray with
    | nil => exact absurd hl hne
    | cons a t => simp
  have hctle : st.current_time ≤
      (eventHeap_pop (idsOf st.procs) st.eventQ).1.time := htime _ htopmem
  unfold popState
  refine ⟨hnn, pop_ordered _ _ hord, ?_, ?_, ?_, ?_⟩
  · intro e he
    have hperm := pop_tail_perm (idsOf st.procs) st.eventQ hne
    have he2 : e ∈ st.eventQ.heapArray.tail := hperm.mem_iff.mp he
    have he3 : e ∈ st.eventQ.heapArray := List.mem_of_mem_tail he2
    rw [List.mem_iff_getElem] at he3
    obtain ⟨i, hi, hie⟩ := he3
    have hmin := heapOrdered_root_min hord i hi
    rw [← getE_eq_getElem hi] at hie
    show (eventHeap_pop (idsOf st.procs) st.eventQ).1.time ≤ e.time
    rw [htop, ← hie]
    exact cmp_time_le (idsOf st.procs) hmin
  · show (0 : Int) ≤ (eventHeap_pop (idsOf st.procs) st.eventQ).1.time
    omega
  · show List.Chain' (· ≤ ·) ((st.popped_log ++
      [(eventHeap_pop (idsOf st.procs) st.eventQ).1]).map Event.time)
    rw [List.map_append, List.map_singleton]
    apply chain_snoc hch
    intro y hy
    rw [List.mem_map] at hy
    obtain ⟨e, he, rfl⟩ := hy
    have := (hpop e he).1
    omega
  · intro e he
    rcases List.mem_append.mp he with he1 | he2
    · have := hpop e he1
      show e.time ≤ (eventHeap_pop (idsOf st.procs) st.eventQ).1.time ∧ _
      constructor <;> omega
    · rw [List.mem_singleton.mp he2]
      show (eventHeap_pop (idsOf st.procs) st.eventQ).1.time ≤
        (eventHeap_pop (idsOf st.procs) st.eventQ).1.time ∧ _
      constructor <;> omega

theorem TimeInv_simStep {q : Int} {st : SimState}
    (hq : 0 ≤ q) (hne : st.eventQ.heapArray ≠ []) (h : TimeInv st) :
    TimeInv (simStep q st) := by
  have hps := TimeInv_popState hne h
  unfold simStep
  cases hty : (eventHeap_pop (idsOf st.procs) st.eventQ).1.type with
  | EVT_ARRIVE =>
    simp only [handleArrive]
    split_ifs with hrun
    · exact TimeInv_schedule_next hq (TimeInv_enqueueProc hps)
    · exact TimeInv_enqueueProc hps
  | EVT_CPU_COMPLETE =>
    unfold handleComplete
    exact TimeInv_schedule_next hq
      (TimeInv_finishOrIo (TimeInv_burstAccounting hps))
  | EVT_CPU_TIMEOUT =>
    simp only [handleTimeout]
    split_ifs with hrem
    · exact TimeInv_schedule_next hq
        (TimeInv_enqueueProc (TimeInv_burstAccounting hps))
    · exact TimeInv_schedule_next hq
        (TimeInv_finishOrIo (TimeInv_burstAccounting hps))

theorem TimeInv_initState {ps : List PCB}
    (hnn : NonNegState ps) (harr : ∀ p ∈ ps, 0 ≤ p.arrival_time) :
    TimeInv (initState ps) := by
  unfold initState
  have hgen : ∀ (es : List Event) (st : SimState), TimeInv st →
      (∀ e ∈ es, st.current_time ≤ e.time) →
      TimeInv (List.foldl pushEvent st es) := by
    intro es
    induction es with
    | nil => intro st h1 h2; exact h1
    | cons e rest ih =>
      intro st h1 h2
      apply ih _ (TimeInv_pushEvent h1 (h2 e (by simp)))
      intro x hx
      show st.current_time ≤ x.time
      exact h2 x (by simp [hx])
  apply hgen
  · refine ⟨hnn, heapOrdered_nil _, ?_, le_refl 0, ?_, ?_⟩
    · intro e he
      simp at he
    · show List.Chain' (· ≤ ·) (([] : List Event).map Event.time)
      simp
    · intro e he
      simp at he
  · intro e he
    unfold initEvents at he
    rw [List.mem_map] at he
    obtain ⟨i, hi, rfl⟩ := he
    show (0 : Int) ≤ (ps.getD i pcb0).arrival_time
    rw [List.mem_range] at hi
    have hmem : ps.getD i pcb0 ∈ ps := by
      rw [List.getD_eq_getElem _ _ hi]
      exact List.getElem_mem hi
    exact harr _ hmem

theorem TimeInv_simLoop {q : Int} {ps : List PCB}
    (hq : 0 ≤ q) (hnn : NonNegState ps)
    (harr : ∀ p ∈ ps, 0 ≤ p.arrival_time) :
    ∀ k : Nat, TimeInv (simLoop q k (initState ps)) := by
  have hstep : ∀ (k : Nat) (st : SimState), TimeInv st →
      TimeInv (simLoop q k st) := by
    intro k
    induction k with
    | zero => intro st h; exact h
    | succ k ih =>
      intro st h
      unfold simLoop
      split_ifs with hg
      · refine ih _ (TimeInv_simStep hq ?_ h)
        intro hnil
        unfold simGuard eventHeap_empty at hg
        rw [hnil] at hg
        simp at hg
      · exact h
  intro k
  exact hstep k _ (TimeInv_initState hnn harr)

/-- C8: for inputs with non-negative arrivals and burst durations (and a
non-negative quantum), the timestamps of successively dequeued events form a
non-decreasing sequence of non-negative values — the clock, which is set
only from popped event times, never moves backward. -/
theorem claim_C8_monotone_clock (q : Int) (ps : List PCB)
    (hq : 0 ≤ q) (hnn : NonNegState ps)
    (harr : ∀ p ∈ ps, 0 ≤ p.arrival_time) :
    ∀ k : Nat,
      List.Chain' (· ≤ ·)
        ((simLoop q k (initState ps)).popped_log.map Event.time) ∧
      ∀ e ∈ (simLoop q k (initState ps)).popped_log, 0 ≤ e.time := by
  intro k
  obtain ⟨hnn2, hord, htime, hct, hch, hpop⟩ := TimeInv_simLoop hq hnn harr k
  exact ⟨hch, fun e he => (hpop e he).2⟩

/-- Witness for C8 on the concrete two-process Round-Robin run. -/
theorem claim_C8_monotone_clock_witness :
    List.Chain' (· ≤ ·)
        ((simLoop 3 30 (initState psC6)).popped_log.map Event.time) ∧
      ∀ e ∈ (simLoop 3 30 (initState psC6)).popped_log, 0 ≤ e.time :=
  claim_C8_monotone_clock 3 psC6 (by decide)
    (by unfold NonNegState psC6 mkPCB; decide)
    (by unfold psC6 mkPCB; decide) 30

theorem countP_set_eq {α : Type} (p : α → Bool) (d : α) (l : List α) :
    ∀ (n : Nat) (x : α), n < l.length →
      (l.set n x).countP p + (if p (l.getD n d) then 1 else 0) =
        l.countP p + (if p x then 1 else 0) := by
  induction l with
  | nil => intro n x h; simp at h
  | cons a t ih =>
    intro n x h
    cases n with
    | zero =>
      simp only [List.set_cons_zero, List.countP_cons, List.getD_cons_zero]
      omega
    | succ n =>
      have := ih n x (by simpa using h)
      simp only [List.set_cons_succ, List.countP_cons, List.getD_cons_succ]
      omega

theorem countP_eq_one_unique {α : Type} {p : α → Bool} {l : List α}
    (h : l.countP p = 1) {a b : α} (ha : a ∈ l) (hb : b ∈ l)
    (hpa : p a = true) (hpb : p b = true) : a = b := by
  rw [List.countP_eq_length_filter] at h
  obtain ⟨x, hx⟩ := List.length_eq_one.mp h
  have ha2 : a ∈ List.filter p l := List.mem_filter.mpr ⟨ha, hpa⟩
  have hb2 : b ∈ List.filter p l := List.mem_filter.mpr ⟨hb, hpb⟩
  rw [hx] at ha2 hb2
  have ha3 : a = x := by simpa using ha2
  have hb3 : b = x := by simpa using hb2
  rw [ha3, hb3]

theorem count_map_pid (l : List Event) (a : Int) :
    (l.map Event.pid).count a = l.countP (fun e => e.pid == a) := by
  rw [List.count_eq_countP, List.countP_map]
  rfl

theorem length_le_of_low_count {l : List Int} {n : Nat}
    (hval : ∀ x ∈ l, 0 ≤ x ∧ x.toNat < n)
    (hcnt : ∀ i : Nat, i < n → l.count ((i : Nat) : Int) ≤ 1) :
    l.length ≤ n := by
  have hnd : l.Nodup := by
    rw [List.nodup_iff_count_le_one]
    intro a
    by_cases hmem : a ∈ l
    · obtain ⟨ha0, han⟩ := hval a hmem
      have hc : ((a.toNat : Nat) : Int) = a := Int.toNat_of_nonneg ha0
      rw [← hc]
      exact hcnt a.toNat han
    · rw [List.count_eq_zero_of_not_mem hmem]
      omega
  have hndm : (l.map Int.toNat).Nodup := by
    apply hnd.map_on
    intro x hx y hy hxy
    have h1 := (hval x hx).1
    have h2 := (hval y hy).1
    omega
  have hsub : (l.map Int.toNat).toFinset ⊆ Finset.range n := by
    intro m hm
    rw [List.mem_toFinset, List.mem_map] at hm
    obtain ⟨x, hx, rfl⟩ := hm
    rw [Finset.mem_range]
    exact (hval x hx).2
  have hcard := Finset.card_le_card hsub
  rw [Finset.card_range, List.toFinset_card_of_nodup hndm] at hcard
  simpa using hcard

theorem sum_take_getD {l : List Int} {k : Nat} (h : k < l.length) :
    (l.take (k + 1)).sum = (l.take k).sum + l.getD k 0 := by
  rw [List.sum_take_succ l k h, List.getD_eq_getElem _ _ h]

theorem eq_head_cons {l : List Event} (h : l ≠ []) :
    l = getE l 0 :: l.tail := by
  cases l with
  | nil => exact absurd rfl h
  | cons a t => rfl

theorem eq_headD_cons {l : List Int} (d : Int) (h : l ≠ []) :
    l = l.headD d :: l.tail := by
  cases l with
  | nil => exact absurd rfl h
  | cons a t => rfl

theorem foldl_add_shift (l : List DispatchEntry) :
    ∀ a : Int, l.foldl (fun s d => s + d.delta) a =
      a + l.foldl (fun s d => s + d.delta) 0 := by
  induction l with
  | nil => intro a; simp
  | cons d t ih =>
    intro a
    simp only [List.foldl_cons]
    rw [ih (a + d.delta), ih (0 + d.delta)]
    omega

theorem sumDeltas_cons (d : DispatchEntry) (log : List DispatchEntry)
    (pid : Int) :
    sumDeltas (d :: log) pid =
      (if d.pid = pid then d.delta else 0) + sumDeltas log pid := by
  unfold sumDeltas
  by_cases h : d.pid = pid
  · rw [if_pos h]
    have hf : List.filter (fun x => decide (x.pid = pid)) (d :: log) =
        d :: List.filter (fun x => decide (x.pid = pid)) log := by
      simp [List.filter_cons, h]
    rw [hf]
    simp only [List.foldl_cons]
    rw [foldl_add_shift]
    omega
  · have hf : List.filter (fun x => decide (x.pid = pid)) (d :: log) =
        List.filter (fun x => decide (x.pid = pid)) log := by
      simp [List.filter_cons, h]
    rw [hf, if_neg h]
    omega

theorem sumDeltas_append (log : List DispatchEntry) (d : DispatchEntry)
    (pid : Int) :
    sumDeltas (log ++ [d]) pid =
      sumDeltas log pid + (if d.pid = pid then d.delta else 0) := by
  unfold sumDeltas
  rw [List.filter_append, List.foldl_append]
  by_cases h : d.pid = pid
  · rw [if_pos h]
    have hf : List.filter (fun x => decide (x.pid = pid)) [d] = [d] := by
      simp [List.filter_singleton, h]
    rw [hf]
    simp
  · rw [if_neg h]
    have hf : List.filter (fun x => decide (x.pid = pid)) [d] = [] := by
      simp [List.filter_singleton, h]
    rw [hf]
    simp

theorem sumAllDeltas_cons (d : DispatchEntry) (log : List DispatchEntry) :
    sumAllDeltas (d :: log) = d.delta + sumAllDeltas log := by
  unfold sumAllDeltas
  simp only [List.foldl_cons]
  rw [foldl_add_shift]
  omega

theorem sum_map_add_int {α : Type} (l : List α) (f g : α → Int) :
    (l.map (fun x => f x + g x)).sum = (l.map f).sum + (l.map g).sum := by
  induction l with
  | nil => simp
  | cons a t ih =>
    simp only [List.map_cons, List.sum_cons]
    rw [ih]
    ring

theorem sum_ite_range (v : Int) (n : Nat) :
    ∀ j : Nat, j < n →
      ((List.range n).map
        (fun i : Nat => if (j : Int) = (i : Int) then v else 0)).sum = v := by
  induction n with
  | zero => intro j hj; omega
  | succ n ih =>
    intro j hj
    rw [List.range_succ, List.map_append, List.sum_append]
    by_cases h : j < n
    · rw [ih j h]
      have hne : ¬ ((j : Int) = (n : Int)) := by
        intro hc
        have : j = n := by exact_mod_cast hc
        omega
      simp only [List.map_cons, List.map_nil, List.sum_cons, List.sum_nil]
      rw [if_neg hne]
      omega
    · have hj2 : j = n := by omega
      subst hj2
      have hz : ((List.range j).map
          (fun i : Nat => if (j : Int) = (i : Int) then v else 0)).sum = 0 := by
        apply List.sum_eq_zero
        intro x hx
        rw [List.mem_map] at hx
        obtain ⟨i, hi, rfl⟩ := hx
        rw [List.mem_range] at hi
        rw [if_neg]
        intro hc
        have : j = i := by exact_mod_cast hc
        omega
      rw [hz]
      simp

theorem sum_sumDeltas (n : Nat) (log : List DispatchEntry) :
    (∀ d ∈ log, 0 ≤ d.pid ∧ d.pid.toNat < n) →
      ((List.range n).map (fun i : Nat => sumDeltas log (i : Int))).sum =
        sumAllDeltas log := by
  induction log with
  | nil =>
    intro hval
    have hz : ∀ x ∈ (List.range n).map
        (fun i : Nat => sumDeltas [] (i : Int)), x = 0 := by
      intro x hx
      rw [List.mem_map] at hx
      obtain ⟨i, hi, rfl⟩ := hx
      rfl
    rw [List.sum_eq_zero hz]
    rfl
  | cons d t ih =>
    intro hval
    have hmap : (List.range n).map
        (fun i : Nat => sumDeltas (d :: t) (i : Int)) =
        (List.range n).map (fun i : Nat =>
          (if d.pid = (i : Int) then d.delta else 0) +
            sumDeltas t (i : Int)) := by
      apply List.map_congr_left
      intro i hi
      exact sumDeltas_cons d t _
    rw [hmap, sum_map_add_int, ih (fun x hx => hval x (by simp [hx]))]
    rw [sumAllDeltas_cons]
    have hd := hval d (by simp)
    have hcast : ((d.pid.toNat : Nat) : Int) = d.pid :=
      Int.toNat_of_nonneg hd.1
    have hfun : (fun i : Nat => if d.pid = (i : Int) then d.delta else 0) =
        (fun i : Nat =>
          if ((d.pid.toNat : Nat) : Int) = (i : Int) then d.delta else 0) := by
      funext i
      rw [hcast]
    have hsum : ((List.range n).map
        (fun i : Nat => if d.pid = (i : Int) then d.delta else 0)).sum =
        d.delta := by
      rw [hfun]
      exact sum_ite_range d.delta n d.pid.toNat hd.2
    rw [hsum]

theorem tokH_eq_of_perm {st st2 : SimState} (i : Nat)
    (hperm : st2.eventQ.heapArray.Perm st.eventQ.heapArray) :
    tokH st2 i = tokH st i :=
  List.Perm.countP_eq _ hperm

theorem tokH_pos_of_mem {st : SimState} {e : Event} {i : Nat}
    (he : e ∈ st.eventQ.heapArray) (hp : e.pid = (i : Int)) :
    1 ≤ tokH st i := by
  unfold tokH
  exact List.countP_pos_iff.mpr ⟨e, he, by simp [hp]⟩

theorem heap_event_unique {st : SimState} {i : Nat} (h1 : tokH st i = 1)
    {a b : Event} (ha : a ∈ st.eventQ.heapArray)
    (hb : b ∈ st.eventQ.heapArray)
    (hpa : a.pid = (i : Int)) (hpb : b.pid = (i : Int)) : a = b := by
  unfold tokH at h1
  refine countP_eq_one_unique h1 ha hb ?_ ?_
  · simp [hpa]
  · simp [hpb]

theorem statusOf_tokH_le {q : Int} {st : SimState} {i : Nat}
    (h : statusOf q st i) : tokH st i ≤ 1 := by
  unfold statusOf stDone stArrive stReady stRun at h
  rcases h with ⟨_, h2, _⟩ | ⟨_, h2, _⟩ | ⟨_, h2, _⟩ | ⟨_, h2, _⟩ <;> omega

theorem statusOf_tokR_le {q : Int} {st : SimState} {i : Nat}
    (h : statusOf q st i) : tokR st i ≤ 1 := by
  unfold statusOf stDone stArrive stReady stRun at h
  rcases h with ⟨_, _, h3, _⟩ | ⟨_, _, h3, _⟩ | ⟨_, _, h3, _⟩ |
    ⟨_, _, h3, _⟩ <;> omega

theorem statusOf_ready_of_inRQ {q : Int} {st : SimState} {i : Nat}
    (h : statusOf q st i) (hm : ((i : Nat) : Int) ∈ RQtoList st.readyQ) :
    stReady st i := by
  have h1 : 0 < tokR st i := by
    unfold tokR
    exact List.count_pos_iff.mpr hm
  unfold statusOf at h
  rcases h with hc | hc | hc | hc
  · exfalso
    unfold stDone at hc
    obtain ⟨_, _, h3, _⟩ := hc
    omega
  · exfalso
    unfold stArrive at hc
    obtain ⟨_, _, h3, _⟩ := hc
    omega
  · exact hc
  · exfalso
    unfold stRun at hc
    obtain ⟨_, _, h3, _⟩ := hc
    omega

theorem statusOf_pending_of_tokH {q : Int} {st : SimState} {i : Nat}
    (h : statusOf q st i) (h1 : 1 ≤ tokH st i) :
    stArrive st i ∨ stRun q st i := by
  unfold statusOf at h
  rcases h with hc | hc | hc | hc
  · exfalso
    unfold stDone at hc
    obtain ⟨_, h2, _⟩ := hc
    omega
  · exact Or.inl hc
  · exfalso
    unfold stReady at hc
    obtain ⟨_, h2, _⟩ := hc
    omega
  · exact Or.inr hc

theorem procCommon_congr {st st2 : SimState} {i : Nat}
    (hp : getP st2.procs (i : Int) = getP st.procs (i : Int))
    (hd : sumDeltas st2.dispatch_log (i : Int) =
      sumDeltas st.dispatch_log (i : Int))
    (h : procCommon st i) : procCommon st2 i := by
  unfold procCommon at h ⊢
  rw [hp, hd]
  exact h

theorem statusOf_congr {q : Int} {st st2 : SimState} {i : Nat}
    (hp : getP st2.procs (i : Int) = getP st.procs (i : Int))
    (hH : tokH st2 i = tokH st i)
    (hR : tokR st2 i = tokR st i)
    (hrun : st2.running_pid = (i : Int) ↔ st.running_pid = (i : Int))
    (hct : st.current_time ≤ st2.current_time)
    (hmem : ∀ e ∈ st.eventQ.heapArray, e.pid = (i : Int) →
      e ∈ st2.eventQ.heapArray)
    (h : statusOf q st i) : statusOf q st2 i := by
  unfold statusOf stDone stArrive stReady stRun at h ⊢
  rcases h with ⟨h1, h2, h3, h4, h5⟩ |
    ⟨h1, h2, h3, h4, e, he, hep, het, htm⟩ |
    ⟨h1, h2, h3, h4, h5, h6⟩ |
    ⟨h1, h2, h3, h4, h5, e, he, hep, htm, het⟩
  · exact Or.inl ⟨by rw [hp]; exact h1, by rw [hH]; exact h2,
      by rw [hR]; exact h3, fun hc => h4 (hrun.mp hc), by rw [hp]; exact h5⟩
  · exact Or.inr (Or.inl ⟨by rw [hp]; exact h1, by rw [hH]; exact h2,
      by rw [hR]; exact h3, fun hc => h4 (hrun.mp hc),
      e, hmem e he hep, hep, het, by rw [hp]; exact htm⟩)
  · exact Or.inr (Or.inr (Or.inl ⟨by rw [hp]; exact h1, by rw [hH]; exact h2,
      by rw [hR]; exact h3, fun hc => h4 (hrun.mp hc), by rw [hp]; exact h5,
      by rw [hp]; exact le_trans h6 hct⟩))
  · exact Or.inr (Or.inr (Or.inr ⟨by rw [hp]; exact h1, by rw [hH]; exact h2,
      by rw [hR]; exact h3, hrun.mpr h4, by rw [hp]; exact h5,
      e, hmem e he hep, hep, by rw [hp]; exact htm, by rw [hp]; exact het⟩))

theorem heap_length_le {st : SimState}
    (hpids : ∀ e ∈ st.eventQ.heapArray,
      0 ≤ e.pid ∧ e.pid.toNat < st.procs.length)
    (htok : ∀ i : Nat, i < st.procs.length → tokH st i ≤ 1) :
    st.eventQ.heapArray.length ≤ st.procs.length := by
  have hlen : st.eventQ.heapArray.length =
      (st.eventQ.heapArray.map Event.pid).length := by simp
  rw [hlen]
  apply length_le_of_low_count
  · intro x hx
    rw [List.mem_map] at hx
    obtain ⟨e, he, rfl⟩ := hx
    exact hpids e he
  · intro i hi
    rw [count_map_pid]
    exact htok i hi

theorem rq_count_le {st : SimState}
    (hpids : ∀ x ∈ RQtoList st.readyQ, 0 ≤ x ∧ x.toNat < st.procs.length)
    (htok : ∀ i : Nat, i < st.procs.length → tokR st i ≤ 1) :
    st.readyQ.count ≤ st.procs.length := by
  rw [← RQtoList_length]
  exact length_le_of_low_count hpids htok


theorem ety_eq (r qq : Int) :
    (if (if r > qq then qq else r) = r then EventType.EVT_CPU_COMPLETE
      else EventType.EVT_CPU_TIMEOUT) =
    (if r > qq then EventType.EVT_CPU_TIMEOUT
      else EventType.EVT_CPU_COMPLETE) := by
  by_cases h : r > qq
  · have h1 : (if r > qq then qq else r) = qq := if_pos h
    rw [h1, if_neg (by omega), if_pos h]
  · have h1 : (if r > qq then qq else r) = r := if_neg h
    rw [h1, if_pos rfl, if_neg h]

theorem tokH_pushEvent (st : SimState) (e : Event) (i : Nat)
    (hlt : st.eventQ.heapArray.length < st.eventQ.capacity)
    (hord : heapOrdered (idsOf st.procs) st.eventQ.heapArray) :
    tokH (pushEvent st e) i =
      tokH st i + (if e.pid == (i : Int) then 1 else 0) := by
  unfold tokH pushEvent
  dsimp only
  obtain ⟨hperm, _, _, _⟩ :=
    eventHeap_push_spec (idsOf st.procs) st.eventQ e hlt hord
  rw [List.Perm.countP_eq _ hperm, List.countP_cons]

theorem tokH_popState (st : SimState) (i : Nat)
    (hne : st.eventQ.heapArray ≠ []) :
    tokH st i = tokH (popState st) i +
      (if (eventHeap_pop (idsOf st.procs) st.eventQ).1.pid == (i : Int)
        then 1 else 0) := by
  unfold tokH popState
  dsimp only
  have hperm := pop_tail_perm (idsOf st.procs) st.eventQ hne
  rw [List.Perm.countP_eq _ hperm]
  have htop := (pop_top (idsOf st.procs) st.eventQ
    (fun h0 => hne (List.eq_nil_of_length_eq_zero h0))).1
  rw [htop]
  conv_lhs => rw [eq_head_cons hne]
  rw [List.countP_cons]

theorem dispatch_invariant {q : Int} {st : SimState} {hpid : Int}
    {rq2 : ReadyQueue} (hq : 0 ≤ q)
    (hdq : RQ_dequeue st.readyQ = (hpid, rq2))
    (hT : TimeInv st) (hC : CoreInv q st)
    (hS : ∀ i : Nat, i < st.procs.length → statusOf q st i)
    (hrunlt : st.running_pid < 0) (hne : st.readyQ.count ≠ 0) :
    EngInv q (schedule_next q st) := by
  obtain ⟨hwf, hrq, hhp, hrun, hfin, hrec, hcapH, hcapR, hofH, hofR, hdl,
    hpc⟩ := hC
  obtain ⟨s1, s2, s3, s4, s5, s6⟩ := RQ_dequeue_spec st.readyQ hwf hne
  rw [hdq] at s1 s2 s3 s4 s5 s6
  dsimp only at s1 s2 s3 s4 s5 s6
  have hLne : RQtoList st.readyQ ≠ [] := by
    intro h0
    have hl := RQtoList_length st.readyQ
    rw [h0] at hl
    simp at hl
    omega
  have hcons : RQtoList st.readyQ = hpid :: (RQtoList st.readyQ).tail := by
    rw [s1]
    exact eq_headD_cons 0 hLne
  have hmemh : hpid ∈ RQtoList st.readyQ := by
    rw [hcons]
    exact List.mem_cons_self _ _
  have hval := hrq _ hmemh
  have hj : ((hpid.toNat : Nat) : Int) = hpid := Int.toNat_of_nonneg hval.1
  have hcast2 : ((hpid.toNat : Nat) : Int).toNat = hpid.toNat :=
    Int.toNat_natCast _
  have hready : stReady st hpid.toNat := by
    apply statusOf_ready_of_inRQ (hS hpid.toNat hval.2)
    rw [hj]
    exact hmemh
  unfold stReady at hready
  rw [hj] at hready
  obtain ⟨hdone, hH0, hR1, hrnold, hlr, hlrle⟩ := hready
  unfold tokH at hH0
  rw [hj] at hH0
  unfold tokR at hR1
  rw [hj] at hR1
  have htail0 : ((RQtoList st.readyQ).tail).count hpid = 0 := by
    have hc : (RQtoList st.readyQ).count hpid =
        ((RQtoList st.readyQ).tail).count hpid + 1 := by
      conv_lhs => rw [hcons]
      rw [List.count_cons]
      simp
    omega
  have hlenle : st.eventQ.heapArray.length ≤ st.procs.length :=
    heap_length_le hhp (fun i hi => statusOf_tokH_le (hS i hi))
  have hpushlt : st.eventQ.heapArray.length < st.eventQ.capacity := by
    rw [hcapH]
    omega
  unfold EngInv
  refine ⟨TimeInv_schedule_next hq hT, ?_⟩
  rw [schedule_next_eq q st hrunlt hne, hdq]
  dsimp only
  generalize hdelta : st.current_time -
    (getP st.procs hpid).last_ready_time = dlt
  generalize hslice : (if (getP st.procs hpid).remaining_cpu > q then q
    else (getP st.procs hpid).remaining_cpu) = slc
  generalize hety : (if slc = (getP st.procs hpid).remaining_cpu
    then EventType.EVT_CPU_COMPLETE else EventType.EVT_CPU_TIMEOUT) = ety
  generalize hidle : (if st.current_time > st.cpu_busy_until
    then st.cpu_idle_time + (st.current_time - st.cpu_busy_until)
    else st.cpu_idle_time) = idl
  generalize hp1 : { getP st.procs hpid with
    wait_time := (getP st.procs hpid).wait_time + dlt,
    start_run_time := st.current_time } = p1
  have hdltnn : 0 ≤ dlt := by omega
  unfold pushEvent
  dsimp only
  obtain ⟨pperm, pord, pcap, pflag⟩ := eventHeap_push_spec
    (idsOf (setP st.procs hpid p1)) st.eventQ
    ⟨st.current_time + slc, ety, hpid⟩ hpushlt
    (heapOrdered_setP (by rw [← hp1]) hT.2.1)
  generalize hmh : eventHeap_push (idsOf (setP st.procs hpid p1)) st.eventQ
    ⟨st.current_time + slc, ety, hpid⟩ = mh2 at pperm pcap pflag ⊢
  have hp1arr : p1.arrival_time = (getP st.procs hpid).arrival_time := by
    rw [← hp1]
  have hp1nb : p1.num_bursts = (getP st.procs hpid).num_bursts := by
    rw [← hp1]
  have hp1cpu : p1.cpu_bursts = (getP st.procs hpid).cpu_bursts := by
    rw [← hp1]
  have hp1io : p1.io_bursts = (getP st.procs hpid).io_bursts := by
    rw [← hp1]
  have hp1tot : p1.total_cpu_io = (getP st.procs hpid).total_cpu_io := by
    rw [← hp1]
  have hp1cb : p1.current_burst = (getP st.procs hpid).current_burst := by
    rw [← hp1]
  have hp1rem : p1.remaining_cpu = (getP st.procs hpid).remaining_cpu := by
    rw [← hp1]
  have hp1wait : p1.wait_time = (getP st.procs hpid).wait_time + dlt := by
    rw [← hp1]
  have hp1start : p1.start_run_time = st.current_time := by rw [← hp1]
  have hp1done : p1.done = (getP st.procs hpid).done := by rw [← hp1]
  have hp1served : servedOf p1 = servedOf (getP st.procs hpid) := by
    unfold servedOf
    rw [hp1cpu, hp1cb, hp1rem, hp1io]
  have hp1static : StaticWF p1 ↔ StaticWF (getP st.procs hpid) := by
    unfold StaticWF
    rw [hp1nb, hp1cpu, hp1io, hp1arr, hp1tot]
  have hgetP : getP (setP st.procs hpid p1) ((hpid.toNat : Nat) : Int) =
      p1 := by
    rw [getP_eq_of_toNat_eq hcast2]
    exact getP_setP_self p1 hval.2
  refine ⟨?_, ?_, ?_⟩
  · -- CoreInv
    unfold CoreInv
    dsimp only
    refine ⟨s3, ?_, ?_, ?_, ?_, ?_, ?_, ?_, ?_, ?_, ?_, ?_⟩
    · intro x hx
      rw [s2] at hx
      rw [length_setP]
      exact hrq x (List.mem_of_mem_tail hx)
    · intro e he
      rw [length_setP]
      have he2 := pperm.mem_iff.mp he
      rcases List.mem_cons.mp he2 with rfl | he3
      · exact hval
      · exact hhp e he3
    · exact Or.inr ⟨hval.1, by rw [length_setP]; exact hval.2⟩
    · rw [hfin]
      unfold countDone setP
      have hcs := countP_set_eq (fun p => p.done) pcb0 st.procs hpid.toNat p1
        hval.2
      have hdd : p1.done = (st.procs.getD hpid.toNat pcb0).done := hp1done
      dsimp only at hcs
      rw [hdd] at hcs
      omega
    · intro r hr
      obtain ⟨i0, hi0, hd0, hr0⟩ := hrec r hr
      have hne0 : hpid.toNat ≠ ((i0 : Nat) : Int).toNat := by
        intro hcon
        have hgq : getP st.procs hpid = getP st.procs ((i0 : Nat) : Int) :=
          getP_eq_of_toNat_eq hcon
        rw [← hgq] at hd0
        rw [hdone] at hd0
        simp at hd0
      refine ⟨i0, ?_, ?_, ?_⟩
      · rw [length_setP]
        exact hi0
      · rw [getP_setP_ne p1 hne0]
        exact hd0
      · rw [getP_setP_ne p1 hne0]
        exact hr0
    · rw [pcap, hcapH, length_setP]
    · rw [s5, hcapR, length_setP]
    · rw [pflag]
      exact hofH
    · rw [s6]
      exact hofR
    · intro d hd
      rcases List.mem_append.mp hd with hd1 | hd2
      · have hv := hdl d hd1
        rw [length_setP]
        exact hv
      · have hd3 : d = ⟨hpid, st.current_time, st.current_time + slc, dlt⟩ :=
          List.mem_singleton.mp hd2
        rw [hd3, length_setP]
        exact hval
    · intro i hi
      rw [length_setP] at hi
      by_cases hij : i = hpid.toNat
      · subst hij
        have hpcj := hpc hpid.toNat hval.2
        unfold procCommon at hpcj
        rw [hj] at hpcj
        obtain ⟨hst, hrem0, hremle, hcb, hw0, hweq⟩ := hpcj
        unfold procCommon
        rw [hgetP]
        refine ⟨?_, ?_, ?_, ?_, ?_, ?_⟩
        · rw [hp1static]
          exact hst
        · rw [hp1rem]
          exact hrem0
        · rw [hp1rem, hp1cpu, hp1cb]
          exact hremle
        · rw [hp1cb, hp1nb]
          exact hcb
        · rw [hp1wait]
          omega
        · rw [hp1wait, sumDeltas_append, hj]
          dsimp only
          rw [if_pos rfl, hweq]
      · have hne2 : hpid.toNat ≠ ((i : Nat) : Int).toNat := by
          rw [Int.toNat_natCast]
          omega
        refine procCommon_congr (getP_setP_ne p1 hne2) ?_ (hpc i hi)
        have hne3 : hpid ≠ (i : Int) := by
          rw [← hj]
          intro hcon
          have : hpid.toNat = i := by exact_mod_cast hcon
          omega
        dsimp only
        rw [sumDeltas_append]
        dsimp only
        rw [if_neg hne3, add_zero]
  · -- running=-1 impossible
    intro hc
    omega
  · -- statuses
    intro i hi
    rw [length_setP] at hi
    by_cases hij : i = hpid.toNat
    · subst hij
      unfold statusOf
      refine Or.inr (Or.inr (Or.inr ?_))
      unfold stRun
      dsimp only
      rw [hgetP]
      refine ⟨?_, ?_, ?_, ?_, ?_, ?_⟩
      · rw [hp1done]
        exact hdone
      · unfold tokH
        dsimp only
        rw [hj, List.Perm.countP_eq _ pperm, List.countP_cons, hH0]
        dsimp only
        simp
      · unfold tokR
        dsimp only
        rw [hj, s2]
        exact htail0
      · exact hj.symm
      · rw [hp1start, hp1arr, hp1wait, hp1served]
        omega
      · refine ⟨⟨st.current_time + slc, ety, hpid⟩,
          pperm.mem_iff.mpr (List.mem_cons_self _ _), hj.symm, ?_, ?_⟩
        · dsimp only
          rw [hp1start, hp1rem, hslice]
        · dsimp only
          rw [hp1rem, ← hety, ← hslice]
          exact ety_eq _ _
    · have hne2 : hpid.toNat ≠ ((i : Nat) : Int).toNat := by
        rw [Int.toNat_natCast]
        omega
      have hne3 : hpid ≠ (i : Int) := by
        rw [← hj]
        intro hcon
        have : hpid.toNat = i := by exact_mod_cast hcon
        omega
      refine statusOf_congr (getP_setP_ne p1 hne2) ?_ ?_ ?_ ?_ ?_ (hS i hi)
      · unfold tokH
        dsimp only
        rw [List.Perm.countP_eq _ pperm, List.countP_cons]
        dsimp only
        rw [beq_false_of_ne hne3]
        simp
      · unfold tokR
        dsimp only
        rw [s2]
        conv_rhs => rw [hcons]
        rw [List.count_cons, beq_false_of_ne hne3]
        simp
      · dsimp only
        exact ⟨fun hcon => absurd hcon hne3, fun hcon => by omega⟩
      · dsimp only
        exact le_refl _
      · intro e he hep
        exact pperm.mem_iff.mpr (List.mem_cons_of_mem _ he)

theorem PreDispatch_schedule_next {q : Int} {st : SimState} (hq : 0 ≤ q)
    (hP : PreDispatch q st) : EngInv q (schedule_next q st) := by
  obtain ⟨hT, hC, hS⟩ := hP
  by_cases hrun0 : 0 ≤ st.running_pid
  · rw [schedule_next_busy q st hrun0]
    exact ⟨hT, hC, fun hm => by rw [hm] at hrun0; omega, hS⟩
  · by_cases hne : st.readyQ.count ≠ 0
    · exact @dispatch_invariant q st (RQ_dequeue st.readyQ).1
        (RQ_dequeue st.readyQ).2 hq rfl hT hC hS (by omega) hne
    · rw [schedule_next_idle q st hrun0 hne]
      exact ⟨hT, hC, fun hm => not_not.mp hne, hS⟩

theorem InHand_enqueueProc {q : Int} {st : SimState} {j : Nat}
    (hI : InHand q st j) : PreDispatch q (enqueueProc st ((j : Nat) : Int)) := by
  obtain ⟨hT, hC, hS, hjlen, hdone, hH0, hR0, hrnj, hcteq⟩ := hI
  obtain ⟨hwf, hrq, hhp, hrun, hfin, hrec, hcapH, hcapR, hofH, hofR, hdl,
    hpc⟩ := hC
  have htokR_le : ∀ i : Nat, i < st.procs.length → tokR st i ≤ 1 := by
    intro i hi
    by_cases hij : i = j
    · subst hij
      omega
    · exact statusOf_tokR_le (hS i hi hij)
  have hcntle : st.readyQ.count ≤ st.procs.length := rq_count_le hrq htokR_le
  have hnotfull : ¬ st.readyQ.count = st.readyQ.capacity := by
    rw [hcapR]
    omega
  have hcntlt : st.readyQ.count < st.readyQ.capacity := by
    rw [hcapR]
    omega
  obtain ⟨e1, e2, e3, e4, e5, e6⟩ :=
    RQ_enqueue_spec st.readyQ ((j : Nat) : Int) hwf hcntlt
  unfold PreDispatch
  refine ⟨TimeInv_enqueueProc hT, ?_⟩
  unfold enqueueProc
  rw [if_neg hnotfull]
  generalize hp1 : { getP st.procs ((j : Nat) : Int) with
    last_ready_time := st.current_time } = p1
  have hparr : p1.arrival_time = (getP st.procs ((j:Nat):Int)).arrival_time :=
    by rw [← hp1]
  have hpnb : p1.num_bursts = (getP st.procs ((j:Nat):Int)).num_bursts := by
    rw [← hp1]
  have hpcpu : p1.cpu_bursts = (getP st.procs ((j:Nat):Int)).cpu_bursts := by
    rw [← hp1]
  have hpio : p1.io_bursts = (getP st.procs ((j:Nat):Int)).io_bursts := by
    rw [← hp1]
  have hptot : p1.total_cpu_io = (getP st.procs ((j:Nat):Int)).total_cpu_io :=
    by rw [← hp1]
  have hpcb : p1.current_burst = (getP st.procs ((j:Nat):Int)).current_burst :=
    by rw [← hp1]
  have hprem : p1.remaining_cpu = (getP st.procs ((j:Nat):Int)).remaining_cpu :=
    by rw [← hp1]
  have hpwait : p1.wait_time = (getP st.procs ((j:Nat):Int)).wait_time := by
    rw [← hp1]
  have hpdone : p1.done = (getP st.procs ((j:Nat):Int)).done := by rw [← hp1]
  have hplr : p1.last_ready_time = st.current_time := by rw [← hp1]
  have hpserved : servedOf p1 = servedOf (getP st.procs ((j:Nat):Int)) := by
    unfold servedOf
    rw [hpcpu, hpcb, hprem, hpio]
  have hgetP : getP (setP st.procs ((j:Nat):Int) p1) ((j:Nat):Int) = p1 :=
    getP_setP_self p1 (by omega)
  refine ⟨?_, ?_⟩
  · -- CoreInv
    unfold CoreInv
    dsimp only
    refine ⟨e2, ?_, ?_, ?_, ?_, ?_, ?_, ?_, ?_, ?_, ?_, ?_⟩
    · intro x hx
      rw [e1] at hx
      rw [length_setP]
      rcases List.mem_append.mp hx with hx1 | hx2
      · exact hrq x hx1
      · have hx3 := List.mem_singleton.mp hx2
        subst hx3
        constructor <;> omega
    · intro e he
      rw [length_setP]
      exact hhp e he
    · rcases hrun with h1 | h2
      · exact Or.inl h1
      · exact Or.inr ⟨h2.1, by rw [length_setP]; exact h2.2⟩
    · rw [hfin]
      unfold countDone setP
      have hcs := countP_set_eq (fun p => p.done) pcb0 st.procs
        ((j : Nat) : Int).toNat p1 (by omega)
      dsimp only at hcs
      have hdd : p1.done = (st.procs.getD ((j:Nat):Int).toNat pcb0).done :=
        hpdone
      rw [hdd] at hcs
      omega
    · intro r hr
      obtain ⟨i0, hi0, hd0, hr0⟩ := hrec r hr
      have hne0 : ((j : Nat) : Int).toNat ≠ ((i0 : Nat) : Int).toNat := by
        intro hcon
        have hgq : getP st.procs ((j:Nat):Int) = getP st.procs ((i0:Nat):Int) :=
          getP_eq_of_toNat_eq hcon
        rw [← hgq, hdone] at hd0
        simp at hd0
      exact ⟨i0, by rw [length_setP]; exact hi0,
        by rw [getP_setP_ne p1 hne0]; exact hd0,
        by rw [getP_setP_ne p1 hne0]; exact hr0⟩
    · rw [length_setP]
      exact hcapH
    · rw [e4, length_setP]
      exact hcapR
    · exact hofH
    · rw [e6]
      exact hofR
    · intro d hd
      rw [length_setP]
      exact hdl d hd
    · intro i hi
      rw [length_setP] at hi
      by_cases hij : i = j
      · subst hij
        have hpcj := hpc i hi
        unfold procCommon at hpcj ⊢
        obtain ⟨hst, hrem0, hremle, hcb, hw0, hweq⟩ := hpcj
        rw [hgetP]
        refine ⟨?_, ?_, ?_, ?_, ?_, ?_⟩
        · unfold StaticWF at hst ⊢
          rw [hpnb, hpcpu, hpio, hparr, hptot]
          exact hst
        · rw [hprem]
          exact hrem0
        · rw [hprem, hpcpu, hpcb]
          exact hremle
        · rw [hpcb, hpnb]
          exact hcb
        · rw [hpwait]
          exact hw0
        · rw [hpwait]
          exact hweq
      · have hne2 : ((j : Nat) : Int).toNat ≠ ((i : Nat) : Int).toNat := by
          omega
        exact procCommon_congr (getP_setP_ne p1 hne2) rfl (hpc i hi)
  · -- statuses
    intro i hi
    rw [length_setP] at hi
    by_cases hij : i = j
    · subst hij
      unfold statusOf
      refine Or.inr (Or.inr (Or.inl ?_))
      unfold stReady
      dsimp only
      rw [hgetP]
      refine ⟨?_, ?_, ?_, ?_, ?_, ?_⟩
      · rw [hpdone]
        exact hdone
      · exact hH0
      · unfold tokR
        dsimp only
        rw [e1, List.count_append, List.count_singleton]
        unfold tokR at hR0
        rw [hR0]
        simp
      · exact hrnj
      · rw [hplr, hparr, hpwait, hpserved]
        exact hcteq
      · rw [hplr]
    · have hne2 : ((j : Nat) : Int).toNat ≠ ((i : Nat) : Int).toNat := by
        omega
      have hne4 : ((j : Nat) : Int) ≠ ((i : Nat) : Int) := by
        omega
      refine statusOf_congr (getP_setP_ne p1 hne2) rfl ?_ Iff.rfl
        (le_refl _) (fun e he _ => he) (hS i hi hij)
      unfold tokR
      dsimp only
      rw [e1, List.count_append, List.count_singleton,
        beq_false_of_ne hne4]
      simp

theorem InHand_finishOrIo {q : Int} {st : SimState} {j : Nat}
    (hI : InHand q st j)
    (hrem0 : (getP st.procs ((j : Nat) : Int)).remaining_cpu = 0) :
    PreDispatch q (finishOrIo st ((j : Nat) : Int)) := by
  obtain ⟨hT, hC, hS, hjlen, hdone, hH0, hR0, hrnj, hcteq⟩ := hI
  obtain ⟨hwf, hrq, hhp, hrun, hfin, hrec, hcapH, hcapR, hofH, hofR, hdl,
    hpc⟩ := hC
  have hpcj := hpc j hjlen
  unfold procCommon at hpcj
  obtain ⟨hst, hrm0, hremle, hcbor, hw0, hweq⟩ := hpcj
  unfold StaticWF at hst
  have hsrv : servedOf (getP st.procs ((j:Nat):Int)) =
      ((getP st.procs ((j:Nat):Int)).cpu_bursts.take
        (getP st.procs ((j:Nat):Int)).current_burst).sum +
      ((getP st.procs ((j:Nat):Int)).cpu_bursts.getD
        (getP st.procs ((j:Nat):Int)).current_burst 0 -
        (getP st.procs ((j:Nat):Int)).remaining_cpu) +
      ((getP st.procs ((j:Nat):Int)).io_bursts.take
        (getP st.procs ((j:Nat):Int)).current_burst).sum := rfl
  have htokH_le : ∀ i : Nat, i < st.procs.length → tokH st i ≤ 1 := by
    intro i hi
    by_cases hij : i = j
    · subst hij
      omega
    · exact statusOf_tokH_le (hS i hi hij)
  have hlenle : st.eventQ.heapArray.length ≤ st.procs.length :=
    heap_length_le hhp htokH_le
  have hpushlt : st.eventQ.heapArray.length < st.eventQ.capacity := by
    rw [hcapH]
    omega
  unfold PreDispatch
  refine ⟨TimeInv_finishOrIo hT, ?_⟩
  simp only [finishOrIo, Nat.add_sub_cancel]
  generalize hgp : getP st.procs ((j : Nat) : Int) = p at hdone hrem0 hcteq hst hrm0 hremle hcbor hw0 hweq hsrv ⊢
  obtain ⟨hnbl, hcpun, hion, harr0, hiolen, htot⟩ := hst
  split_ifs with hfincase
  · -- FINISH branch
    generalize hp1 : { p with finish_time := st.current_time, done := true } = p1
    have hp1arr : p1.arrival_time = p.arrival_time := by rw [← hp1]
    have hp1nb : p1.num_bursts = p.num_bursts := by rw [← hp1]
    have hp1cpu : p1.cpu_bursts = p.cpu_bursts := by rw [← hp1]
    have hp1io : p1.io_bursts = p.io_bursts := by rw [← hp1]
    have hp1tot : p1.total_cpu_io = p.total_cpu_io := by rw [← hp1]
    have hp1cb : p1.current_burst = p.current_burst := by rw [← hp1]
    have hp1rem : p1.remaining_cpu = p.remaining_cpu := by rw [← hp1]
    have hp1wait : p1.wait_time = p.wait_time := by rw [← hp1]
    have hp1fin : p1.finish_time = st.current_time := by rw [← hp1]
    have hp1done : p1.done = true := by rw [← hp1]
    have hp1stot : servedTotal p1 = servedTotal p := by
      unfold servedTotal
      rw [hp1cpu, hp1nb, hp1io]
    have hgetP : getP (setP st.procs ((j:Nat):Int) p1) ((j:Nat):Int) = p1 :=
      getP_setP_self p1 (by omega)
    have hkey : servedOf p = servedTotal p := by
      unfold servedOf servedTotal
      rcases hcbor with hlt | ⟨hnb0, hcb0⟩
      · have hcb1 : p.current_burst = p.num_bursts - 1 := by omega
        have hcblt : p.current_burst < p.cpu_bursts.length := by omega
        have h1 := sum_take_getD hcblt
        have h2 : p.cpu_bursts.take (p.current_burst + 1) = p.cpu_bursts :=
          List.take_of_length_le (by omega)
        rw [h2] at h1
        have h3 : p.io_bursts.take p.current_burst =
            p.io_bursts.take (p.num_bursts - 1) := by rw [hcb1]
        rw [h3, hrem0]
        omega
      · have hcpu0 : p.cpu_bursts = [] := by
          have hl0 : p.cpu_bursts.length = 0 := by omega
          exact List.eq_nil_of_length_eq_zero hl0
        rw [hcpu0, hcb0, hnb0, hrem0]
        simp
    refine ⟨?_, ?_⟩
    · unfold CoreInv
      dsimp only
      refine ⟨hwf, ?_, ?_, ?_, ?_, ?_, ?_, ?_, hofH, hofR, ?_, ?_⟩
      · intro x hx
        rw [length_setP]
        exact hrq x hx
      · intro e he
        rw [length_setP]
        exact hhp e he
      · rcases hrun with h1 | h2
        · exact Or.inl h1
        · exact Or.inr ⟨h2.1, by rw [length_setP]; exact h2.2⟩
      · rw [hfin]
        unfold countDone setP
        have hcs := countP_set_eq (fun p => p.done) pcb0 st.procs
          ((j : Nat) : Int).toNat p1 (by omega)
        dsimp only at hcs
        have hdd2 : st.procs.getD ((j:Nat):Int).toNat pcb0 = p := hgp
        rw [hdd2, hdone, hp1done] at hcs
        have hnf : ¬(false = true) := by decide
        rw [if_neg hnf, if_pos rfl] at hcs
        omega
      · intro r hr
        rcases List.mem_append.mp hr with hr1 | hr2
        · obtain ⟨i0, hi0, hd0, hr0⟩ := hrec r hr1
          have hne0 : ((j : Nat) : Int).toNat ≠ ((i0 : Nat) : Int).toNat := by
            intro hcon
            have hgq : getP st.procs ((j:Nat):Int) =
                getP st.procs ((i0:Nat):Int) := getP_eq_of_toNat_eq hcon
            rw [← hgq, hgp, hdone] at hd0
            simp at hd0
          exact ⟨i0, by rw [length_setP]; exact hi0,
            by rw [getP_setP_ne p1 hne0]; exact hd0,
            by rw [getP_setP_ne p1 hne0]; exact hr0⟩
        · have hr3 := List.mem_singleton.mp hr2
          subst hr3
          refine ⟨j, by rw [length_setP]; exact hjlen, ?_, ?_⟩
          · rw [hgetP, hp1done]
          · rw [hgetP]
            unfold mkRecord
            rw [hp1fin]
      · rw [length_setP]
        exact hcapH
      · rw [length_setP]
        exact hcapR
      · intro d hd
        rw [length_setP]
        exact hdl d hd
      · intro i hi
        rw [length_setP] at hi
        by_cases hij : i = j
        · subst hij
          unfold procCommon
          rw [hgetP]
          refine ⟨?_, ?_, ?_, ?_, ?_, ?_⟩
          · unfold StaticWF
            rw [hp1nb, hp1cpu, hp1io, hp1arr, hp1tot]
            exact ⟨hnbl, hcpun, hion, harr0, hiolen, htot⟩
          · rw [hp1rem]
            exact hrm0
          · rw [hp1rem, hp1cpu, hp1cb]
            exact hremle
          · rw [hp1cb, hp1nb]
            exact hcbor
          · rw [hp1wait]
            exact hw0
          · rw [hp1wait]
            exact hweq
        · have hne2 : ((j:Nat):Int).toNat ≠ ((i:Nat):Int).toNat := by omega
          exact procCommon_congr (getP_setP_ne p1 hne2) rfl (hpc i hi)
    · intro i hi
      rw [length_setP] at hi
      by_cases hij : i = j
      · subst hij
        unfold statusOf
        refine Or.inl ?_
        unfold stDone
        dsimp only
        rw [hgetP]
        refine ⟨hp1done, hH0, hR0, hrnj, ?_⟩
        rw [hp1fin, hp1arr, hp1wait, hp1stot]
        omega
      · have hne2 : ((j:Nat):Int).toNat ≠ ((i:Nat):Int).toNat := by omega
        exact statusOf_congr (getP_setP_ne p1 hne2) rfl rfl Iff.rfl
          (le_refl _) (fun e he _ => he) (hS i hi hij)
  · -- IO branch
    unfold pushEvent
    dsimp only
    obtain ⟨pperm, pord, pcap, pflag⟩ := eventHeap_push_spec
      (idsOf st.procs) st.eventQ
      ⟨st.current_time + p.io_bursts.getD p.current_burst 0,
        EventType.EVT_ARRIVE, ((j : Nat) : Int)⟩ hpushlt hT.2.1
    generalize hmh : eventHeap_push (idsOf st.procs) st.eventQ
      ⟨st.current_time + p.io_bursts.getD p.current_burst 0,
        EventType.EVT_ARRIVE, ((j : Nat) : Int)⟩ = mh2 at pperm pcap pflag ⊢
    generalize hp2 : { p with current_burst := p.current_burst + 1, remaining_cpu := p.cpu_bursts.getD (p.current_burst + 1) 0 } = p2
    have hp2arr : p2.arrival_time = p.arrival_time := by rw [← hp2]
    have hp2nb : p2.num_bursts = p.num_bursts := by rw [← hp2]
    have hp2cpu : p2.cpu_bursts = p.cpu_bursts := by rw [← hp2]
    have hp2io : p2.io_bursts = p.io_bursts := by rw [← hp2]
    have hp2tot : p2.total_cpu_io = p.total_cpu_io := by rw [← hp2]
    have hp2cb : p2.current_burst = p.current_burst + 1 := by rw [← hp2]
    have hp2rem : p2.remaining_cpu =
        p.cpu_bursts.getD (p.current_burst + 1) 0 := by rw [← hp2]
    have hp2wait : p2.wait_time = p.wait_time := by rw [← hp2]
    have hp2done : p2.done = p.done := by rw [← hp2]
    have hgetP2 : getP (setP st.procs ((j:Nat):Int) p2) ((j:Nat):Int) = p2 :=
      getP_setP_self p2 (by omega)
    have hcblt : p.current_burst < p.cpu_bursts.length := by omega
    have hcblt2 : p.current_burst < p.io_bursts.length := by omega
    have hsum1 := sum_take_getD hcblt
    have hsum2 := sum_take_getD hcblt2
    have hserved2 : servedOf p2 = servedOf p +
        p.io_bursts.getD p.current_burst 0 := by
      rw [hsrv]
      unfold servedOf
      rw [hp2cpu, hp2cb, hp2rem, hp2io, hrem0]
      omega
    refine ⟨?_, ?_⟩
    · unfold CoreInv
      dsimp only
      refine ⟨hwf, ?_, ?_, ?_, ?_, ?_, ?_, ?_, ?_, hofR, ?_, ?_⟩
      · intro x hx
        rw [length_setP]
        exact hrq x hx
      · intro e he
        rw [length_setP]
        rcases List.mem_cons.mp (pperm.mem_iff.mp he) with rfl | he3
        · refine ⟨?_, ?_⟩
          · show (0 : Int) ≤ ((j : Nat) : Int)
            omega
          · show (((j : Nat) : Int)).toNat < st.procs.length
            omega
        · exact hhp e he3
      · rcases hrun with h1 | h2
        · exact Or.inl h1
        · exact Or.inr ⟨h2.1, by rw [length_setP]; exact h2.2⟩
      · rw [hfin]
        unfold countDone setP
        have hcs := countP_set_eq (fun p => p.done) pcb0 st.procs
          ((j : Nat) : Int).toNat p2 (by omega)
        dsimp only at hcs
        have hdd2 : st.procs.getD ((j:Nat):Int).toNat pcb0 = p := hgp
        rw [hdd2, hp2done] at hcs
        omega
      · intro r hr
        obtain ⟨i0, hi0, hd0, hr0⟩ := hrec r hr
        have hne0 : ((j : Nat) : Int).toNat ≠ ((i0 : Nat) : Int).toNat := by
          intro hcon
          have hgq : getP st.procs ((j:Nat):Int) =
              getP st.procs ((i0:Nat):Int) := getP_eq_of_toNat_eq hcon
          rw [← hgq, hgp, hdone] at hd0
          simp at hd0
        exact ⟨i0, by rw [length_setP]; exact hi0,
          by rw [getP_setP_ne p2 hne0]; exact hd0,
          by rw [getP_setP_ne p2 hne0]; exact hr0⟩
      · rw [pcap, hcapH, length_setP]
      · rw [length_setP]
        exact hcapR
      · rw [pflag]
        exact hofH
      · intro d hd
        rw [length_setP]
        exact hdl d hd
      · intro i hi
        rw [length_setP] at hi
        by_cases hij : i = j
        · subst hij
          unfold procCommon
          rw [hgetP2]
          refine ⟨?_, ?_, ?_, ?_, ?_, ?_⟩
          · unfold StaticWF
            rw [hp2nb, hp2cpu, hp2io, hp2arr, hp2tot]
            exact ⟨hnbl, hcpun, hion, harr0, hiolen, htot⟩
          · rw [hp2rem]
            exact getD_nonneg hcpun _
          · rw [hp2rem, hp2cpu, hp2cb]
          · rw [hp2cb, hp2nb]
            left
            omega
          · rw [hp2wait]
            exact hw0
          · rw [hp2wait]
            exact hweq
        · have hne2 : ((j:Nat):Int).toNat ≠ ((i:Nat):Int).toNat := by omega
          exact procCommon_congr (getP_setP_ne p2 hne2) rfl (hpc i hi)
    · intro i hi
      rw [length_setP] at hi
      by_cases hij : i = j
      · rw [hij]
        unfold statusOf
        refine Or.inr (Or.inl ?_)
        unfold stArrive
        dsimp only
        rw [hgetP2]
        refine ⟨?_, ?_, hR0, hrnj, ?_⟩
        · rw [hp2done]
          exact hdone
        · unfold tokH
          dsimp only
          rw [List.Perm.countP_eq _ pperm, List.countP_cons]
          dsimp only
          unfold tokH at hH0
          rw [hH0]
          simp
        · refine ⟨⟨st.current_time + p.io_bursts.getD p.current_burst 0,
            EventType.EVT_ARRIVE, ((j : Nat) : Int)⟩,
            pperm.mem_iff.mpr (List.mem_cons_self _ _), rfl, rfl, ?_⟩
          dsimp only
          rw [hp2arr, hp2wait, hserved2]
          omega
      · have hne2 : ((j:Nat):Int).toNat ≠ ((i:Nat):Int).toNat := by omega
        have hne4 : ((j:Nat):Int) ≠ ((i:Nat):Int) := by omega
        refine statusOf_congr (getP_setP_ne p2 hne2) ?_ rfl Iff.rfl
          (le_refl _) ?_ (hS i hi hij)
        · unfold tokH
          dsimp only
          rw [List.Perm.countP_eq _ pperm, List.countP_cons]
          dsimp only
          rw [beq_false_of_ne hne4]
          simp
        · intro e he hep
          exact pperm.mem_iff.mpr (List.mem_cons_of_mem _ he)

theorem burstAccounting_InHand {q u : Int} {st : SimState} {j : Nat}
    (hT : TimeInv st) (hC : CoreInv q st)
    (hS : ∀ i : Nat, i < st.procs.length → i ≠ j → statusOf q st i)
    (hjlen : j < st.procs.length)
    (hdone : (getP st.procs ((j : Nat) : Int)).done = false)
    (hH0 : tokH st j = 0) (hR0 : tokR st j = 0)
    (hrunj : st.running_pid = ((j : Nat) : Int))
    (hstart : (getP st.procs ((j : Nat) : Int)).start_run_time =
      (getP st.procs ((j : Nat) : Int)).arrival_time +
      (getP st.procs ((j : Nat) : Int)).wait_time +
      servedOf (getP st.procs ((j : Nat) : Int)))
    (hcteq : st.current_time =
      (getP st.procs ((j : Nat) : Int)).start_run_time + u)
    (hu0 : 0 ≤ u)
    (hule : u ≤ (getP st.procs ((j : Nat) : Int)).remaining_cpu) :
    InHand q (burstAccounting st ((j : Nat) : Int)) j ∧
    (getP (burstAccounting st ((j : Nat) : Int)).procs
        ((j : Nat) : Int)).remaining_cpu =
      (getP st.procs ((j : Nat) : Int)).remaining_cpu - u := by
  obtain ⟨hwf, hrq, hhp, hrun, hfin, hrec, hcapH, hcapR, hofH, hofR, hdl,
    hpc⟩ := hC
  have hpcj := hpc j hjlen
  unfold procCommon at hpcj
  have hsrv : servedOf (getP st.procs ((j:Nat):Int)) =
      ((getP st.procs ((j:Nat):Int)).cpu_bursts.take
        (getP st.procs ((j:Nat):Int)).current_burst).sum +
      ((getP st.procs ((j:Nat):Int)).cpu_bursts.getD
        (getP st.procs ((j:Nat):Int)).current_burst 0 -
        (getP st.procs ((j:Nat):Int)).remaining_cpu) +
      ((getP st.procs ((j:Nat):Int)).io_bursts.take
        (getP st.procs ((j:Nat):Int)).current_burst).sum := rfl
  have hTB : TimeInv (burstAccounting st ((j : Nat) : Int)) :=
    TimeInv_burstAccounting hT
  generalize hgp : getP st.procs ((j : Nat) : Int) = p at hdone hstart hcteq hule hpcj hsrv ⊢
  obtain ⟨hst, hrm0, hremle, hcbor, hw0, hweq⟩ := hpcj
  unfold StaticWF at hst
  obtain ⟨hnbl, hcpun, hion, harr0, hiolen, htot⟩ := hst
  have hBA : burstAccounting st ((j : Nat) : Int) = { st with
      procs := setP st.procs ((j:Nat):Int)
        { p with remaining_cpu := p.remaining_cpu - u },
      cpu_busy_until := if st.current_time < st.cpu_busy_until
        then st.current_time else st.cpu_busy_until,
      running_pid := -1 } := by
    simp only [burstAccounting]
    rw [hgp]
    have h1 : (if st.current_time - p.start_run_time < 0 then 0
        else st.current_time - p.start_run_time) = u := by
      rw [if_neg (by omega)]
      omega
    rw [h1]
    have h2 : (if p.remaining_cpu - u < 0 then 0
        else p.remaining_cpu - u) = p.remaining_cpu - u := by
      rw [if_neg (by omega)]
    rw [h2]
  rw [hBA] at hTB ⊢
  generalize hp2 : { p with remaining_cpu := p.remaining_cpu - u } = p2 at hTB ⊢
  have hp2arr : p2.arrival_time = p.arrival_time := by rw [← hp2]
  have hp2nb : p2.num_bursts = p.num_bursts := by rw [← hp2]
  have hp2cpu : p2.cpu_bursts = p.cpu_bursts := by rw [← hp2]
  have hp2io : p2.io_bursts = p.io_bursts := by rw [← hp2]
  have hp2tot : p2.total_cpu_io = p.total_cpu_io := by rw [← hp2]
  have hp2cb : p2.current_burst = p.current_burst := by rw [← hp2]
  have hp2rem : p2.remaining_cpu = p.remaining_cpu - u := by rw [← hp2]
  have hp2wait : p2.wait_time = p.wait_time := by rw [← hp2]
  have hp2done : p2.done = p.done := by rw [← hp2]
  have hgetP2 : getP (setP st.procs ((j:Nat):Int) p2) ((j:Nat):Int) = p2 :=
    getP_setP_self p2 (by omega)
  have hsrv2 : servedOf p2 = servedOf p + u := by
    rw [hsrv]
    unfold servedOf
    rw [hp2cpu, hp2cb, hp2rem, hp2io]
    omega
  constructor
  · unfold InHand
    refine ⟨hTB, ?_, ?_, ?_, ?_, hH0, hR0, ?_, ?_⟩
    · unfold CoreInv
      dsimp only
      refine ⟨hwf, ?_, ?_, Or.inl rfl, ?_, ?_, ?_, ?_, hofH, hofR, ?_, ?_⟩
      · intro x hx
        rw [length_setP]
        exact hrq x hx
      · intro e he
        rw [length_setP]
        exact hhp e he
      · rw [hfin]
        unfold countDone setP
        have hcs := countP_set_eq (fun p => p.done) pcb0 st.procs
          ((j : Nat) : Int).toNat p2 (by omega)
        dsimp only at hcs
        have hdd2 : st.procs.getD ((j:Nat):Int).toNat pcb0 = p := hgp
        rw [hdd2, hp2done] at hcs
        omega
      · intro r hr
        obtain ⟨i0, hi0, hd0, hr0⟩ := hrec r hr
        have hne0 : ((j : Nat) : Int).toNat ≠ ((i0 : Nat) : Int).toNat := by
          intro hcon
          have hgq : getP st.procs ((j:Nat):Int) =
              getP st.procs ((i0:Nat):Int) := getP_eq_of_toNat_eq hcon
          rw [← hgq, hgp, hdone] at hd0
          simp at hd0
        exact ⟨i0, by rw [length_setP]; exact hi0,
          by rw [getP_setP_ne p2 hne0]; exact hd0,
          by rw [getP_setP_ne p2 hne0]; exact hr0⟩
      · rw [length_setP]
        exact hcapH
      · rw [length_setP]
        exact hcapR
      · intro d hd
        rw [length_setP]
        exact hdl d hd
      · intro i hi
        rw [length_setP] at hi
        by_cases hij : i = j
        · rw [hij]
          unfold procCommon
          rw [hgetP2]
          refine ⟨?_, ?_, ?_, ?_, ?_, ?_⟩
          · unfold StaticWF
            rw [hp2nb, hp2cpu, hp2io, hp2arr, hp2tot]
            exact ⟨hnbl, hcpun, hion, harr0, hiolen, htot⟩
          · rw [hp2rem]
            omega
          · rw [hp2rem, hp2cpu, hp2cb]
            omega
          · rw [hp2cb, hp2nb]
            exact hcbor
          · rw [hp2wait]
            exact hw0
          · rw [hp2wait]
            exact hweq
        · have hne2 : ((j:Nat):Int).toNat ≠ ((i:Nat):Int).toNat := by omega
          exact procCommon_congr (getP_setP_ne p2 hne2) rfl (hpc i hi)
    · intro i hi hij
      rw [length_setP] at hi
      have hne2 : ((j:Nat):Int).toNat ≠ ((i:Nat):Int).toNat := by omega
      refine statusOf_congr (getP_setP_ne p2 hne2) rfl rfl ?_
        (le_refl _) (fun e he _ => he) (hS i hi hij)
      constructor
      · intro hcon
        exfalso
        have hcon2 : (-1 : Int) = ((i : Nat) : Int) := hcon
        omega
      · intro hcon
        exfalso
        rw [hrunj] at hcon
        have : j = i := by exact_mod_cast hcon
        omega
    · show j < (setP st.procs ((j : Nat) : Int) p2).length
      rw [length_setP]
      exact hjlen
    · rw [hgetP2, hp2done]
      exact hdone
    · show ¬((-1 : Int) = ((j : Nat) : Int))
      omega
    · rw [hgetP2, hp2arr, hp2wait, hsrv2]
      show st.current_time = p.arrival_time + p.wait_time + (servedOf p + u)
      omega
  · rw [hgetP2, hp2rem]

theorem EngInv_simStep {q : Int} {st : SimState} (hq : 0 ≤ q)
    (hne : st.eventQ.heapArray ≠ []) (hE : EngInv q st) :
    EngInv q (simStep q st) := by
  obtain ⟨hT, hC, hidle, hS⟩ := hE
  obtain ⟨hwf, hrq, hhp, hrun, hfin, hrec, hcapH, hcapR, hofH, hofR, hdl,
    hpc⟩ := hC
  have hlen0 : st.eventQ.heapArray.length ≠ 0 :=
    fun h0 => hne (List.eq_nil_of_length_eq_zero h0)
  have htop := (pop_top (idsOf st.procs) st.eventQ hlen0).1
  have hcap2 := (pop_top (idsOf st.procs) st.eventQ hlen0).2.1
  have hflag2 := (pop_top (idsOf st.procs) st.eventQ hlen0).2.2
  have hperm1 := pop_tail_perm (idsOf st.procs) st.eventQ hne
  have hmemtop : (eventHeap_pop (idsOf st.procs) st.eventQ).1 ∈
      st.eventQ.heapArray := by
    rw [htop, getE_zero_headD _ hne]
    cases hl : st.eventQ.heapArray with
    | nil => exact absurd hl hne
    | cons a t => simp
  have hpv := hhp _ hmemtop
  set j : Nat := (eventHeap_pop (idsOf st.procs) st.eventQ).1.pid.toNat
    with hjdef
  have hj : ((j : Nat) : Int) =
      (eventHeap_pop (idsOf st.procs) st.eventQ).1.pid :=
    Int.toNat_of_nonneg hpv.1
  have hT1 : TimeInv (popState st) := TimeInv_popState hne hT
  have hctle : st.current_time ≤
      (eventHeap_pop (idsOf st.procs) st.eventQ).1.time :=
    hT.2.2.1 _ hmemtop
  have hC1 : CoreInv q (popState st) := by
    unfold CoreInv
    refine ⟨hwf, hrq, ?_, hrun, hfin, hrec, ?_, hcapR, ?_, hofR, hdl, hpc⟩
    · intro e he
      have he2 := hperm1.mem_iff.mp he
      exact hhp e (List.mem_of_mem_tail he2)
    · show (eventHeap_pop (idsOf st.procs) st.eventQ).2.capacity =
        4 * st.procs.length
      rw [hcap2]
      exact hcapH
    · show (eventHeap_pop (idsOf st.procs) st.eventQ).2.overflowed = false
      rw [hflag2]
      exact hofH
  have hS1 : ∀ i : Nat, i < st.procs.length → i ≠ j →
      statusOf q (popState st) i := by
    intro i hi hij
    have hne4 : (eventHeap_pop (idsOf st.procs) st.eventQ).1.pid ≠
        ((i : Nat) : Int) := by
      rw [← hj]
      omega
    refine statusOf_congr ?_ ?_ ?_ ?_ ?_ ?_ (hS i hi)
    · rfl
    · have hstep := tokH_popState st i hne
      have hnf : ¬(false = true) := by decide
      rw [beq_false_of_ne hne4, if_neg hnf] at hstep
      omega
    · rfl
    · exact Iff.rfl
    · exact hctle
    · intro e he hep
      have heq : st.eventQ.heapArray =
          getE st.eventQ.heapArray 0 :: st.eventQ.heapArray.tail :=
        eq_head_cons hne
      have he2 : e ∈ getE st.eventQ.heapArray 0 ::
          st.eventQ.heapArray.tail := by
        rw [← heq]
        exact he
      rcases List.mem_cons.mp he2 with rfl | he3
      · exfalso
        exact hne4 (by rw [htop]; exact hep)
      · exact hperm1.mem_iff.mpr he3
  have h1le : 1 ≤ tokH st j := tokH_pos_of_mem hmemtop hj.symm
  have hpend := statusOf_pending_of_tokH (hS j hpv.2) h1le
  have htjstep := tokH_popState st j hne
  have hbt : ((eventHeap_pop (idsOf st.procs) st.eventQ).1.pid ==
      ((j : Nat) : Int)) = true := by
    rw [← hj]
    simp
  rw [hbt, if_pos rfl] at htjstep
  have hpp : getP (popState st).procs ((j : Nat) : Int) =
      getP st.procs ((j : Nat) : Int) := rfl
  unfold simStep
  cases hty : (eventHeap_pop (idsOf st.procs) st.eventQ).1.type with
  | EVT_ARRIVE =>
    rcases hpend with hA | hR2
    · unfold stArrive at hA
      obtain ⟨hdj, hH1, hR0j, hrnj, e, hemem, hep, hetyA, htime⟩ := hA
      have heeq : e = (eventHeap_pop (idsOf st.procs) st.eventQ).1 :=
        heap_event_unique hH1 hemem hmemtop hep hj.symm
      rw [heeq] at htime
      have hIH : InHand q (popState st) j :=
        ⟨hT1, hC1, hS1, hpv.2, hdj, by omega, hR0j, hrnj, htime⟩
      rw [← hj]
      simp only [handleArrive]
      split_ifs with hr2
      · exact PreDispatch_schedule_next hq (InHand_enqueueProc hIH)
      · obtain ⟨hPT, hPC, hPS⟩ := InHand_enqueueProc hIH
        exact ⟨hPT, hPC, fun hm => by rw [hm] at hr2; omega, hPS⟩
    · exfalso
      unfold stRun at hR2
      obtain ⟨hdj, hH1, hR0j, hrnjEQ, hstartj, e, hemem, hep, htm, hetyp⟩ :=
        hR2
      have heeq : e = (eventHeap_pop (idsOf st.procs) st.eventQ).1 :=
        heap_event_unique hH1 hemem hmemtop hep hj.symm
      rw [heeq, hty] at hetyp
      split_ifs at hetyp
  | EVT_CPU_COMPLETE =>
    rcases hpend with hA | hR2
    · exfalso
      unfold stArrive at hA
      obtain ⟨hdj, hH1, hR0j, hrnj, e, hemem, hep, hetyA, htime⟩ := hA
      have heeq : e = (eventHeap_pop (idsOf st.procs) st.eventQ).1 :=
        heap_event_unique hH1 hemem hmemtop hep hj.symm
      rw [heeq, hty] at hetyA
      simp at hetyA
    · unfold stRun at hR2
      obtain ⟨hdj, hH1, hR0j, hrnjEQ, hstartj, e, hemem, hep, htm, hetyp⟩ :=
        hR2
      have heeq : e = (eventHeap_pop (idsOf st.procs) st.eventQ).1 :=
        heap_event_unique hH1 hemem hmemtop hep hj.symm
      rw [heeq] at htm hetyp
      rw [hty] at hetyp
      have hnotgt : ¬ ((getP st.procs ((j : Nat) : Int)).remaining_cpu > q)
          := by
        intro hgt
        rw [if_pos hgt] at hetyp
        simp at hetyp
      rw [if_neg hnotgt] at htm
      have hpcj2 := hpc j hpv.2
      unfold procCommon at hpcj2
      obtain ⟨hIH, hremsub⟩ := burstAccounting_InHand hT1 hC1 hS1 hpv.2 hdj
        (by omega) hR0j hrnjEQ hstartj htm hpcj2.2.1 (le_refl _)
      rw [hpp] at hremsub
      have hrem0b : (getP (burstAccounting (popState st)
          ((j : Nat) : Int)).procs ((j : Nat) : Int)).remaining_cpu = 0 := by
        omega
      rw [← hj]
      unfold handleComplete
      exact PreDispatch_schedule_next hq (InHand_finishOrIo hIH hrem0b)
  | EVT_CPU_TIMEOUT =>
    rcases hpend with hA | hR2
    · exfalso
      unfold stArrive at hA
      obtain ⟨hdj, hH1, hR0j, hrnj, e, hemem, hep, hetyA, htime⟩ := hA
      have heeq : e = (eventHeap_pop (idsOf st.procs) st.eventQ).1 :=
        heap_event_unique hH1 hemem hmemtop hep hj.symm
      rw [heeq, hty] at hetyA
      simp at hetyA
    · unfold stRun at hR2
      obtain ⟨hdj, hH1, hR0j, hrnjEQ, hstartj, e, hemem, hep, htm, hetyp⟩ :=
        hR2
      have heeq : e = (eventHeap_pop (idsOf st.procs) st.eventQ).1 :=
        heap_event_unique hH1 hemem hmemtop hep hj.symm
      rw [heeq] at htm hetyp
      rw [hty] at hetyp
      have hgt : (getP st.procs ((j : Nat) : Int)).remaining_cpu > q := by
        by_contra hngt
        rw [if_neg hngt] at hetyp
        simp at hetyp
      rw [if_pos hgt] at htm
      obtain ⟨hIH, hremsub⟩ := burstAccounting_InHand hT1 hC1 hS1 hpv.2 hdj
        (by omega) hR0j hrnjEQ hstartj htm hq (by rw [hpp]; omega)
      rw [hpp] at hremsub
      rw [← hj]
      simp only [handleTimeout]
      rw [hremsub]
      have hpos : (getP st.procs ((j : Nat) : Int)).remaining_cpu - q > 0 :=
        by omega
      rw [if_pos hpos]
      exact PreDispatch_schedule_next hq (InHand_enqueueProc hIH)

theorem foldl_pushEvent_spec (es : List Event) :
    ∀ st : SimState,
      heapOrdered (idsOf st.procs) st.eventQ.heapArray →
      st.eventQ.heapArray.length + es.length ≤ st.eventQ.capacity →
      ∃ mh : EventMinHeap, List.foldl pushEvent st es =
        { st with eventQ := mh, pushed_log := st.pushed_log ++ es } ∧
        mh.heapArray.Perm (st.eventQ.heapArray ++ es) ∧
        mh.capacity = st.eventQ.capacity ∧
        mh.overflowed = st.eventQ.overflowed := by
  induction es with
  | nil =>
    intro st hord hcap
    refine ⟨st.eventQ, by simp, by simp, rfl, rfl⟩
  | cons e rest ih =>
    intro st hord hcap
    simp only [List.length_cons] at hcap
    rw [List.foldl_cons]
    have hlt : st.eventQ.heapArray.length < st.eventQ.capacity := by omega
    obtain ⟨hperm, hord2, hcap2, hflag2⟩ :=
      eventHeap_push_spec (idsOf st.procs) st.eventQ e hlt hord
    have hlen2 : (pushEvent st e).eventQ.heapArray.length =
        st.eventQ.heapArray.length + 1 := by
      have hl := hperm.length_eq
      rw [List.length_cons] at hl
      exact hl
    obtain ⟨mh, heq, hp2, hc2, hf2⟩ := ih (pushEvent st e) hord2 (by
      rw [hlen2]
      have hce : (pushEvent st e).eventQ.capacity = st.eventQ.capacity :=
        hcap2
      rw [hce]
      omega)
    refine ⟨mh, ?_, ?_, ?_, ?_⟩
    · rw [heq]
      unfold pushEvent
      dsimp only
      rw [List.append_assoc, List.singleton_append]
    · refine hp2.trans ?_
      refine (hperm.append_right rest).trans ?_
      exact List.perm_middle.symm
    · rw [hc2]
      exact hcap2
    · rw [hf2]
      exact hflag2

theorem countP_range_cast (i : Nat) :
    ∀ n : Nat,
      (List.range n).countP (fun k => ((k : Nat) : Int) == ((i : Nat) : Int))
        = if i < n then 1 else 0 := by
  intro n
  induction n with
  | zero => simp
  | succ n ih =>
    rw [List.range_succ, List.countP_append, ih]
    by_cases h : i < n
    · rw [if_pos h, if_pos (by omega)]
      have hb : (((n : Nat) : Int) == ((i : Nat) : Int)) = false :=
        beq_false_of_ne (by omega)
      simp [List.countP_cons, hb]
    · by_cases h2 : i = n
      · subst h2
        rw [if_neg h, if_pos (by omega)]
        simp [List.countP_cons]
      · rw [if_neg h, if_neg (by omega)]
        have hb : (((n : Nat) : Int) == ((i : Nat) : Int)) = false :=
          beq_false_of_ne (by omega)
        simp [List.countP_cons, hb]

theorem tokH_initEvents (ps : List PCB) (i : Nat) :
    (initEvents ps).countP (fun e => e.pid == ((i : Nat) : Int)) =
      if i < ps.length then 1 else 0 := by
  unfold initEvents
  rw [List.countP_map]
  exact countP_range_cast i ps.length

theorem EngInv_initState {q : Int} {ps : List PCB} (hwf : WFinput ps) :
    EngInv q (initState ps) := by
  have hnn : NonNegState ps := by
    intro p hp
    obtain ⟨hst, hcb, hrem, hwt, hdn⟩ := hwf p hp
    obtain ⟨hnbl, hcpun, hion, harr0, hiolen, htot⟩ := hst
    exact ⟨by rw [hrem]; exact getD_nonneg hcpun 0, hcpun, hion⟩
  have harr : ∀ p ∈ ps, 0 ≤ p.arrival_time := by
    intro p hp
    obtain ⟨hst, _⟩ := hwf p hp
    exact hst.2.2.2.1
  have hlen : (initEvents ps).length = ps.length := by
    unfold initEvents
    simp
  obtain ⟨mh, heq, hperm, hcap, hflag⟩ :=
    foldl_pushEvent_spec (initEvents ps)
      { procs := ps
        eventQ := ⟨[], 4 * ps.length, false⟩
        readyQ := RQ_init (ps.length + 10)
        current_time := 0
        cpu_idle_time := 0
        cpu_busy_until := 0
        running_pid := -1
        running_end_time := 0
        finished_count := 0
        records := []
        pushed_log := []
        popped_log := []
        dispatch_log := [] }
      (heapOrdered_nil _) (by rw [hlen]; simp only [List.length_nil]; omega)
  rw [List.nil_append] at hperm
  unfold EngInv
  refine ⟨TimeInv_initState hnn harr, ?_⟩
  unfold initState
  rw [heq]
  refine ⟨?_, fun _ => rfl, ?_⟩
  · unfold CoreInv
    dsimp only
    refine ⟨RQwf_init _ (by omega), ?_, ?_, Or.inl rfl, ?_, ?_, ?_, rfl,
      ?_, rfl, ?_, ?_⟩
    · intro x hx
      rw [RQtoList_init] at hx
      simp at hx
    · intro e he
      have he2 := hperm.mem_iff.mp he
      unfold initEvents at he2
      rw [List.mem_map] at he2
      obtain ⟨k, hk, rfl⟩ := he2
      rw [List.mem_range] at hk
      refine ⟨?_, ?_⟩
      · show (0 : Int) ≤ ((k : Nat) : Int)
        omega
      · show (((k : Nat) : Int)).toNat < ps.length
        omega
    · show 0 = countDone ps
      unfold countDone
      symm
      rw [List.countP_eq_zero]
      intro p hp
      rw [(hwf p hp).2.2.2.2]
      simp
    · intro r hr
      simp at hr
    · show mh.capacity = 4 * ps.length
      exact hcap
    · show mh.overflowed = false
      exact hflag
    · intro d hd
      simp at hd
    · intro i hi
      have hmem : ps.getD i pcb0 ∈ ps := by
        rw [List.getD_eq_getElem _ _ hi]
        exact List.getElem_mem hi
      obtain ⟨hst, hcb, hrem, hwt, hdn⟩ := hwf _ hmem
      obtain ⟨hnbl, hcpun, hion, harr0, hiolen, htot⟩ := hst
      have hgi : getP ps ((i : Nat) : Int) = ps.getD i pcb0 := by
        unfold getP
        rw [Int.toNat_natCast]
      unfold procCommon
      rw [hgi]
      refine ⟨⟨hnbl, hcpun, hion, harr0, hiolen, htot⟩, ?_, ?_, ?_, ?_, ?_⟩
      · rw [hrem]
        exact getD_nonneg hcpun 0
      · rw [hrem, hcb]
      · rw [hcb]
        omega
      · rw [hwt]
      · rw [hwt]
        rfl
  · intro i hi
    have hgi : getP ps ((i : Nat) : Int) = ps.getD i pcb0 := by
      unfold getP
      rw [Int.toNat_natCast]
    have hilen : i < ps.length := hi
    have hmem : ps.getD i pcb0 ∈ ps := by
      rw [List.getD_eq_getElem _ _ hilen]
      exact List.getElem_mem hilen
    obtain ⟨hst, hcb, hrem, hwt, hdn⟩ := hwf _ hmem
    unfold statusOf
    refine Or.inr (Or.inl ?_)
    unfold stArrive
    dsimp only
    rw [hgi]
    refine ⟨hdn, ?_, ?_, ?_, ?_⟩
    · unfold tokH
      dsimp only
      rw [List.Perm.countP_eq _ hperm, tokH_initEvents, if_pos hilen]
    · unfold tokR
      dsimp only
      rw [RQtoList_init]
      simp
    · show ¬((-1 : Int) = ((i : Nat) : Int))
      omega
    · refine ⟨⟨(ps.getD i pcb0).arrival_time, EventType.EVT_ARRIVE,
        ((i : Nat) : Int)⟩, ?_, rfl, rfl, ?_⟩
      · apply hperm.mem_iff.mpr
        unfold initEvents
        rw [List.mem_map]
        exact ⟨i, by rw [List.mem_range]; exact hilen, rfl⟩
      · dsimp only
        unfold servedOf
        rw [hcb, hrem, hwt]
        simp

theorem EngInv_simLoop {q : Int} {ps : List PCB} (hq : 0 ≤ q)
    (hwf : WFinput ps) :
    ∀ k : Nat, EngInv q (simLoop q k (initState ps)) := by
  have hstep : ∀ (k : Nat) (st : SimState), EngInv q st →
      EngInv q (simLoop q k st) := by
    intro k
    induction k with
    | zero => intro st h; exact h
    | succ k ih =>
      intro st h
      unfold simLoop
      split_ifs with hg
      · refine ih _ (EngInv_simStep hq ?_ h)
        intro hnil
        unfold simGuard eventHeap_empty at hg
        rw [hnil] at hg
        simp at hg
      · exact h
  intro k
  exact hstep k _ (EngInv_initState hwf)

theorem EngInv_guard_iff {q : Int} {st : SimState} (hE : EngInv q st) :
    st.finished_count = st.procs.length ↔ st.eventQ.heapArray = [] := by
  obtain ⟨hT, hC, hidle, hS⟩ := hE
  obtain ⟨hwf, hrq, hhp, hrun, hfin, hrec, hcapH, hcapR, hofH, hofR, hdl,
    hpc⟩ := hC
  constructor
  · intro hfull
    have halldone : ∀ p ∈ st.procs, p.done = true := by
      rw [hfin] at hfull
      unfold countDone at hfull
      exact List.countP_eq_length.mp hfull
    by_contra hneq
    have hne : st.eventQ.heapArray ≠ [] := hneq
    have hmem : getE st.eventQ.heapArray 0 ∈ st.eventQ.heapArray := by
      rw [getE_zero_headD _ hne]
      cases hl : st.eventQ.heapArray with
      | nil => exact absurd hl hne
      | cons a t => simp
    have hpvj := hhp _ hmem
    have hj2 : (((getE st.eventQ.heapArray 0).pid.toNat : Nat) : Int) =
        (getE st.eventQ.heapArray 0).pid := Int.toNat_of_nonneg hpvj.1
    have h1le : 1 ≤ tokH st (getE st.eventQ.heapArray 0).pid.toNat :=
      tokH_pos_of_mem hmem hj2.symm
    have hd : (getP st.procs
        (((getE st.eventQ.heapArray 0).pid.toNat : Nat) : Int)).done =
        false := by
      rcases statusOf_pending_of_tokH (hS _ hpvj.2) h1le with hA | hR2
      · unfold stArrive at hA
        exact hA.1
      · unfold stRun at hR2
        exact hR2.1
    have hmemp : st.procs.getD (getE st.eventQ.heapArray 0).pid.toNat pcb0 ∈
        st.procs := by
      rw [List.getD_eq_getElem _ _ hpvj.2]
      exact List.getElem_mem hpvj.2
    have hdt := halldone _ hmemp
    have hgg : getP st.procs
        (((getE st.eventQ.heapArray 0).pid.toNat : Nat) : Int) =
        st.procs.getD (getE st.eventQ.heapArray 0).pid.toNat pcb0 := by
      unfold getP
      rw [Int.toNat_natCast]
    rw [hgg, hdt] at hd
    simp at hd
  · intro hempty
    have htokH0 : ∀ i : Nat, tokH st i = 0 := by
      intro i
      unfold tokH
      rw [hempty]
      rfl
    have hrunm1 : st.running_pid = -1 := by
      by_contra hm
      rcases hrun with h1 | h2
      · exact hm h1
      · have hrr : ((st.running_pid.toNat : Nat) : Int) = st.running_pid :=
          Int.toNat_of_nonneg h2.1
        have hst2 := hS st.running_pid.toNat h2.2
        unfold statusOf at hst2
        rcases hst2 with hD | hA | hRe | hRu
        · unfold stDone at hD
          exact hD.2.2.2.1 hrr.symm
        · unfold stArrive at hA
          exact hA.2.2.2.1 hrr.symm
        · unfold stReady at hRe
          exact hRe.2.2.2.1 hrr.symm
        · unfold stRun at hRu
          have hx := hRu.2.1
          have hy := htokH0 st.running_pid.toNat
          omega
    have hcount0 := hidle hrunm1
    have hLempty : RQtoList st.readyQ = [] := by
      have hl := RQtoList_length st.readyQ
      rw [hcount0] at hl
      exact List.eq_nil_of_length_eq_zero hl
    have htokR0 : ∀ i : Nat, tokR st i = 0 := by
      intro i
      unfold tokR
      rw [hLempty]
      rfl
    have halldone : ∀ i : Nat, i < st.procs.length →
        (getP st.procs ((i : Nat) : Int)).done = true := by
      intro i hi
      have hst2 := hS i hi
      unfold statusOf at hst2
      rcases hst2 with hD | hA | hRe | hRu
      · unfold stDone at hD
        exact hD.1
      · exfalso
        unfold stArrive at hA
        have hx := hA.2.1
        have hy := htokH0 i
        omega
      · exfalso
        unfold stReady at hRe
        have hx := hRe.2.2.1
        have hy := htokR0 i
        omega
      · exfalso
        unfold stRun at hRu
        have hx := hRu.2.1
        have hy := htokH0 i
        omega
    rw [hfin]
    unfold countDone
    apply List.countP_eq_length.mpr
    intro p hp
    rw [List.mem_iff_getElem] at hp
    obtain ⟨idx, hidx, rfl⟩ := hp
    have hdt := halldone idx hidx
    have hgg : getP st.procs ((idx : Nat) : Int) = st.procs[idx] := by
      unfold getP
      rw [Int.toNat_natCast, List.getD_eq_getElem _ _ hidx]
    rw [hgg] at hdt
    exact hdt

theorem foldl_wait_shift (l : List PCB) :
    ∀ a : Int, l.foldl (fun s p => s + p.wait_time) a =
      a + l.foldl (fun s p => s + p.wait_time) 0 := by
  induction l with
  | nil => intro a; simp
  | cons d t ih =>
    intro a
    simp only [List.foldl_cons]
    rw [ih (a + d.wait_time), ih (0 + d.wait_time)]
    omega

theorem total_wait_eq_sum (st : SimState) :
    total_wait st = (st.procs.map PCB.wait_time).sum := by
  unfold total_wait
  generalize st.procs = l
  induction l with
  | nil => rfl
  | cons d t ih =>
    simp only [List.foldl_cons, List.map_cons, List.sum_cons]
    rw [foldl_wait_shift, ih]
    omega

theorem map_wait_range (l : List PCB) :
    l.map PCB.wait_time =
      (List.range l.length).map (fun i : Nat => (l.getD i pcb0).wait_time) := by
  apply List.ext_getElem
  · simp
  · intro n h1 h2
    rw [List.getElem_map, List.getElem_map, List.getElem_range]
    have hn : n < l.length := by
      have := h1
      simp at this
      exact this
    rw [List.getD_eq_getElem _ _ hn]

theorem total_wait_spec {q : Int} {st : SimState} (hE : EngInv q st) :
    total_wait st = sumAllDeltas st.dispatch_log := by
  obtain ⟨hT, hC, hidle, hS⟩ := hE
  obtain ⟨hwf, hrq, hhp, hrun, hfin, hrec, hcapH, hcapR, hofH, hofR, hdl,
    hpc⟩ := hC
  rw [total_wait_eq_sum, map_wait_range]
  have hmap : (List.range st.procs.length).map
      (fun i : Nat => (st.procs.getD i pcb0).wait_time) =
      (List.range st.procs.length).map
      (fun i : Nat => sumDeltas st.dispatch_log (i : Int)) := by
    apply List.map_congr_left
    intro i hi
    rw [List.mem_range] at hi
    have hpcj := hpc i hi
    unfold procCommon at hpcj
    have hgg : getP st.procs ((i : Nat) : Int) = st.procs.getD i pcb0 := by
      unfold getP
      rw [Int.toNat_natCast]
    rw [← hgg]
    exact hpcj.2.2.2.2.2
  rw [hmap]
  exact sum_sumDeltas st.procs.length st.dispatch_log hdl

theorem records_spec {q : Int} {st : SimState} (hE : EngInv q st) :
    ∀ r ∈ st.records,
      0 ≤ r.tat ∧ 0 ≤ r.pidIdx ∧ r.pidIdx.toNat < st.procs.length ∧
      ((getP st.procs r.pidIdx).io_bursts.length + 1 =
          (getP st.procs r.pidIdx).cpu_bursts.length →
        (getP st.procs r.pidIdx).total_cpu_io ≤ r.tat ∧
        r.wtime = sumDeltas st.dispatch_log r.pidIdx) := by
  obtain ⟨hT, hC, hidle, hS⟩ := hE
  obtain ⟨hwf, hrq, hhp, hrun, hfin, hrec, hcapH, hcapR, hofH, hofR, hdl,
    hpc⟩ := hC
  intro r hr
  obtain ⟨i, hi, hdone, hreq⟩ := hrec r hr
  have hsd : stDone st i := by
    have hst2 := hS i hi
    unfold statusOf at hst2
    rcases hst2 with hD | hA | hRe | hRu
    · exact hD
    · exfalso
      unfold stArrive at hA
      rw [hA.1] at hdone
      simp at hdone
    · exfalso
      unfold stReady at hRe
      rw [hRe.1] at hdone
      simp at hdone
    · exfalso
      unfold stRun at hRu
      rw [hRu.1] at hdone
      simp at hdone
  unfold stDone at hsd
  obtain ⟨_, _, _, _, hfeq⟩ := hsd
  have hpcj := hpc i hi
  unfold procCommon at hpcj
  obtain ⟨hst, hrm0, hremle, hcbor, hw0, hweq⟩ := hpcj
  unfold StaticWF at hst
  obtain ⟨hnbl, hcpun, hion, harr0, hiolen, htot⟩ := hst
  have hst0 : 0 ≤ servedTotal (getP st.procs ((i : Nat) : Int)) := by
    unfold servedTotal
    have h1 : 0 ≤ ((getP st.procs ((i:Nat):Int)).cpu_bursts).sum :=
      List.sum_nonneg hcpun
    have h2 : 0 ≤ (((getP st.procs ((i:Nat):Int)).io_bursts).take
        ((getP st.procs ((i:Nat):Int)).num_bursts - 1)).sum := by
      apply List.sum_nonneg
      intro x hx
      exact hion x (List.mem_of_mem_take hx)
    omega
  subst hreq
  dsimp only
  refine ⟨?_, ?_, ?_, ?_⟩
  · show 0 ≤ (getP st.procs ((i:Nat):Int)).finish_time -
      (getP st.procs ((i:Nat):Int)).arrival_time
    omega
  · show (0 : Int) ≤ ((i : Nat) : Int)
    omega
  · show (((i : Nat) : Int)).toNat < st.procs.length
    omega
  · intro hnotr
    have hlen2 : (getP st.procs ((i:Nat):Int)).io_bursts.length =
        (getP st.procs ((i:Nat):Int)).num_bursts - 1 := by
      omega
    have htk : ((getP st.procs ((i:Nat):Int)).io_bursts.take
        ((getP st.procs ((i:Nat):Int)).num_bursts - 1)) =
        (getP st.procs ((i:Nat):Int)).io_bursts :=
      List.take_of_length_le (by omega)
    have hstt : servedTotal (getP st.procs ((i:Nat):Int)) =
        (getP st.procs ((i:Nat):Int)).total_cpu_io := by
      unfold servedTotal
      rw [htk, htot]
    constructor
    · show (getP st.procs ((i:Nat):Int)).total_cpu_io ≤
        (getP st.procs ((i:Nat):Int)).finish_time -
        (getP st.procs ((i:Nat):Int)).arrival_time
      omega
    · show (getP st.procs ((i:Nat):Int)).finish_time -
        (getP st.procs ((i:Nat):Int)).arrival_time -
        (getP st.procs ((i:Nat):Int)).total_cpu_io =
        sumDeltas st.dispatch_log ((i : Nat) : Int)
      omega

/-- C9: for every well-formed input (and non-negative quantum), at every
top of the main simulation loop the two termination conditions agree — the
finished-process count equals the process count exactly when the event
queue is empty — and a pop on an empty heap returns the well-defined
sentinel event `{INT_MAX, EVT_ARRIVE, -1}` with the heap unchanged, rather
than garbage. -/
theorem claim_C9_termination (q : Int) (ps : List PCB) (hq : 0 ≤ q)
    (hwf : WFinput ps) :
    (∀ k : Nat,
      ((simLoop q k (initState ps)).finished_count =
          (simLoop q k (initState ps)).procs.length ↔
        (simLoop q k (initState ps)).eventQ.heapArray = [])) ∧
    (∀ (ids : Int → Int) (mh : EventMinHeap), mh.heapArray = [] →
      eventHeap_pop ids mh =
        (⟨INT_MAX, EventType.EVT_ARRIVE, -1⟩, mh)) := by
  constructor
  · intro k
    exact EngInv_guard_iff (EngInv_simLoop hq hwf k)
  · intro ids mh h0
    have hl0 : mh.heapArray.length = 0 := by simp [h0]
    unfold eventHeap_pop
    rw [if_pos hl0]

/-- Witness for C9 on the concrete two-process Round-Robin run. -/
theorem claim_C9_termination_witness :
    ((simLoop 3 12 (initState psC6)).finished_count =
        (simLoop 3 12 (initState psC6)).procs.length ↔
      (simLoop 3 12 (initState psC6)).eventQ.heapArray = []) :=
  (claim_C9_termination 3 psC6 (by decide)
    (by unfold WFinput psC6 mkPCB StaticWF; decide)).1 12

/-- C10: for every well-formed input with `n` processes, at every top of
the main loop each process has at most one pending event and at most one
ready-queue entry, so the event heap never holds more than `n` events and
the ready queue never more than `n` entries; with capacities `4n` and
`n + 10` the overflow branches of `eventHeap_push` and `RQ_enqueue` are
never taken. -/
theorem claim_C10_capacity (q : Int) (ps : List PCB) (hq : 0 ≤ q)
    (hwf : WFinput ps) (k : Nat) :
    (∀ i : Nat, i < (simLoop q k (initState ps)).procs.length →
      tokH (simLoop q k (initState ps)) i ≤ 1 ∧
      tokR (simLoop q k (initState ps)) i ≤ 1) ∧
    (simLoop q k (initState ps)).eventQ.heapArray.length ≤
      (simLoop q k (initState ps)).procs.length ∧
    (simLoop q k (initState ps)).readyQ.count ≤
      (simLoop q k (initState ps)).procs.length ∧
    (simLoop q k (initState ps)).eventQ.capacity =
      4 * (simLoop q k (initState ps)).procs.length ∧
    (simLoop q k (initState ps)).readyQ.capacity =
      (simLoop q k (initState ps)).procs.length + 10 ∧
    (simLoop q k (initState ps)).eventQ.overflowed = false ∧
    (simLoop q k (initState ps)).readyQ.overflowed = false := by
  obtain ⟨hT, hC, hidle, hS⟩ := EngInv_simLoop hq hwf k
  obtain ⟨hwfq, hrq, hhp, hrun, hfin, hrec, hcapH, hcapR, hofH, hofR, hdl,
    hpc⟩ := hC
  refine ⟨?_, ?_, ?_, hcapH, hcapR, hofH, hofR⟩
  · intro i hi
    exact ⟨statusOf_tokH_le (hS i hi), statusOf_tokR_le (hS i hi)⟩
  · exact heap_length_le hhp (fun i hi => statusOf_tokH_le (hS i hi))
  · exact rq_count_le hrq (fun i hi => statusOf_tokR_le (hS i hi))

/-- Witness for C10 on the concrete two-process Round-Robin run. -/
theorem claim_C10_capacity_witness :
    (simLoop 3 12 (initState psC6)).eventQ.heapArray.length ≤
        (simLoop 3 12 (initState psC6)).procs.length ∧
      (simLoop 3 12 (initState psC6)).eventQ.overflowed = false ∧
      (simLoop 3 12 (initState psC6)).readyQ.overflowed = false :=
  ⟨(claim_C10_capacity 3 psC6 (by decide)
      (by unfold WFinput psC6 mkPCB StaticWF; decide) 12).2.1,
    (claim_C10_capacity 3 psC6 (by decide)
      (by unfold WFinput psC6 mkPCB StaticWF; decide) 12).2.2.2.2.2.1,
    (claim_C10_capacity 3 psC6 (by decide)
      (by unfold WFinput psC6 mkPCB StaticWF; decide) 12).2.2.2.2.2.2⟩

/-- C4 (amended): for every run on well-formed input, every completion
record has `turnaround = finish − arrival ≥ 0`, and whenever the recorded
IO-burst list of the finished process is strictly shorter than its
CPU-burst list (no trailing IO burst), the turnaround is at least the
process's `total_cpu_io`.  (With a trailing IO burst the reader adds it to
`total_cpu_io` but the engine never serves it, so the original inequality
fails — see the counterexample.) -/
theorem claim_C4_amended (q : Int) (ps : List PCB) (hq : 0 ≤ q)
    (hwf : WFinput ps) (k : Nat) :
    ∀ r ∈ (simLoop q k (initState ps)).records,
      0 ≤ r.tat ∧
      ((getP (simLoop q k (initState ps)).procs r.pidIdx).io_bursts.length +
          1 =
        (getP (simLoop q k (initState ps)).procs r.pidIdx).cpu_bursts.length →
        (getP (simLoop q k (initState ps)).procs r.pidIdx).total_cpu_io ≤
          r.tat) := by
  intro r hr
  have h := records_spec (EngInv_simLoop hq hwf k) r hr
  exact ⟨h.1, fun hc => (h.2.2.2 hc).1⟩

/-- Witness for the amended C4 on the concrete two-process run. -/
theorem claim_C4_amended_witness :
    0 ≤ ((simLoop 3 12 (initState psC6)).records.headD rec0).tat ∧
    ((getP (simLoop 3 12 (initState psC6)).procs
        ((simLoop 3 12 (initState psC6)).records.headD
          rec0).pidIdx).io_bursts.length + 1 =
      (getP (simLoop 3 12 (initState psC6)).procs
        ((simLoop 3 12 (initState psC6)).records.headD
          rec0).pidIdx).cpu_bursts.length →
      (getP (simLoop 3 12 (initState psC6)).procs
        ((simLoop 3 12 (initState psC6)).records.headD
          rec0).pidIdx).total_cpu_io ≤
        ((simLoop 3 12 (initState psC6)).records.headD rec0).tat) :=
  claim_C4_amended 3 psC6 (by decide)
    (by unfold WFinput psC6 mkPCB StaticWF; decide) 12 _ (by decide)

/-- C5 (amended): for every run on well-formed input the aggregator's total
wait equals the sum over all dispatches of `current_time −
last_ready_time`; and the `wait_time` column of a completion record (which
the code prints as `tat − total_cpu_io`) equals that process's own sum of
dispatch-time deltas exactly when its recorded IO-burst list is strictly
shorter than its CPU-burst list (no trailing IO burst). -/
theorem claim_C5_amended (q : Int) (ps : List PCB) (hq : 0 ≤ q)
    (hwf : WFinput ps) (k : Nat) :
    total_wait (simLoop q k (initState ps)) =
      sumAllDeltas (simLoop q k (initState ps)).dispatch_log ∧
    ∀ r ∈ (simLoop q k (initState ps)).records,
      ((getP (simLoop q k (initState ps)).procs r.pidIdx).io_bursts.length +
          1 =
        (getP (simLoop q k (initState ps)).procs r.pidIdx).cpu_bursts.length →
        r.wtime =
          sumDeltas (simLoop q k (initState ps)).dispatch_log r.pidIdx) := by
  refine ⟨total_wait_spec (EngInv_simLoop hq hwf k), ?_⟩
  intro r hr hc
  exact ((records_spec (EngInv_simLoop hq hwf k) r hr).2.2.2 hc).2

/-- Witness for the amended C5 on the concrete two-process run. -/
theorem claim_C5_amended_witness :
    total_wait (simLoop 3 12 (initState psC6)) =
      sumAllDeltas (simLoop 3 12 (initState psC6)).dispatch_log :=
  (claim_C5_amended 3 psC6 (by decide)
    (by unfold WFinput psC6 mkPCB StaticWF; decide) 12).1
